import Mathlib

/-!
# Fluke 1900A data output unit: bus decoder and serial transmitter

A shallow embedding of `dou.hpp`, `dou.cpp` and `util.hpp`, and of the
signal decoder and the main loop of `msp430.cpp`.

Conventions of the embedding:

* `i8` (`int_fast8_t`) and `int` values are integers (`Int`): the firmware
  computes with them in `int`, on values of byte size, so that no
  operation overflows; the narrowing conversion `static_cast<char>` is made
  explicit by `to_char`, and the bit counter is decremented only while it
  is positive.
* `u8` and `u16` values are naturals, reduced modulo `2^8` and `2^16`
  where the source converts back to the enumeration type.
* a `char` held in a buffer is its byte value (`0 .. 255`); a C string is
  the list of bytes in front of the first NUL.
* a `char *` into the reading buffer is the buffer together with an offset.
-/

namespace dou

/-! ## nostd.hpp: fixed-width helper types -/

/-- Conversion of an integer to `u16` (`enum class u16 : uint16_t`). -/
def to_u16 (v : Int) : Nat := (v % 65536).toNat

/-- Conversion of an integer to `u8` (`enum class u8 : uint8_t`). -/
def to_u8 (v : Int) : Nat := (v % 256).toNat

/-- Conversion `static_cast<char>(v)` of an `int`, as a byte value. -/
def to_char (v : Int) : Nat := (v % 256).toNat

/-- The operator `u16 << unsigned`, truncated to sixteen bits. -/
def u16_shl (lhs : Nat) (rhs : Nat) : Nat := (lhs <<< rhs) % 65536

/-- The operator `u16 >> unsigned`. -/
def u16_shr (lhs : Nat) (rhs : Nat) : Nat := (lhs >>> rhs) % 65536

/-- The operator `u16 | u16`. -/
def u16_or (lhs rhs : Nat) : Nat := (lhs ||| rhs) % 65536

/-- The operator `u16 & u8`, whose result is a `u8`. -/
def u16_and_u8 (lhs rhs : Nat) : Nat := (lhs &&& (rhs % 256)) % 256

/-! ## dou.hpp: the capture of the bus -/

/-- The decoded momentary bus state. -/
structure Input_state where
  digit_strobe : Int
  out : Int
  decimal_strobe : Bool
  overflow : Bool
  nml : Bool
  rng_2 : Bool
  deriving DecidableEq, Repr

/-- Number of data bits of a serial frame. -/
def serial_data_bits : Int := 7

/-! ## dou.hpp: Serial_transmitter -/

/-- The software UART shift register and its remaining-bit counter. -/
structure Serial_transmitter where
  transmit_data_ : Nat := 0
  bits_to_transmit_ : Int := 0
  deriving DecidableEq, Repr

/-- Loads the frame of `value`: start bit, data bits, stop bit. -/
def Serial_transmitter.init_transmission (_s : Serial_transmitter) (value : Int) :
    Serial_transmitter :=
  { transmit_data_ :=
      u16_or (u16_shl (to_u16 value) 1) (u16_shl 1 (serial_data_bits + 1).toNat)
    bits_to_transmit_ := serial_data_bits + 2 }

/-- True when no bit of the frame is left. -/
def Serial_transmitter.transmit_complete (s : Serial_transmitter) : Bool :=
  decide (s.bits_to_transmit_ ≤ 0)

/-- One call of `get_next_bit(bit_to_transmit)`: the returned flag, the
value of the reference argument after the call, and the transmitter
after the call. -/
def Serial_transmitter.get_next_bit (s : Serial_transmitter) (bit_to_transmit : Nat) :
    Bool × Nat × Serial_transmitter :=
  if ¬ s.transmit_complete then
    (true,
     u16_and_u8 s.transmit_data_ 1,
     { transmit_data_ := u16_shr s.transmit_data_ 1
       bits_to_transmit_ := s.bits_to_transmit_ - 1 })
  else
    (false, bit_to_transmit, s)

/-- The result of `n` successive `get_next_bit` calls that all share one
reference variable: the returned flags in call order, the final value of
the variable, and the final transmitter. -/
def drain : Nat → Serial_transmitter → Nat → List (Bool × Nat) × Nat × Serial_transmitter
  | 0, s, bit => ([], bit, s)
  | n + 1, s, bit =>
    let r := s.get_next_bit bit
    let rest := drain n r.2.2 r.2.1
    ((r.1, r.2.1) :: rest.1, rest.2.1, rest.2.2)

/-- The bits handed back by `n` successive calls. -/
def drained_bits (n : Nat) (s : Serial_transmitter) (bit : Nat) : List Nat :=
  (drain n s bit).1.map Prod.snd

/-- The flags returned by `n` successive calls. -/
def drained_flags (n : Nat) (s : Serial_transmitter) (bit : Nat) : List Bool :=
  (drain n s bit).1.map Prod.fst

/-! ## dou.hpp: units -/

/-- The unit of a reading; the enumerators are numbered `0 .. 4`. -/
inductive Unit where
  | ms
  | us
  | MHz
  | kHz
  | None
  deriving DecidableEq, Repr

/-- The enumerator's underlying value. -/
def Unit.to_integral : Unit → Nat
  | .ms => 0
  | .us => 1
  | .MHz => 2
  | .kHz => 3
  | .None => 4

/-- The conversion `static_cast<Unit>(bcd)` for the values `get_unit` can produce. -/
def Unit.of_integral (bcd : Nat) : Unit :=
  if bcd = 0 then .ms
  else if bcd = 1 then .us
  else if bcd = 2 then .MHz
  else if bcd = 3 then .kHz
  else .None

/-- Decodes the unit from the two mode lines and the decimal point. -/
def get_unit (nml rng_2 has_decimal_point : Bool) : Unit :=
  if ¬ has_decimal_point then
    Unit.None
  else
    let bcd := (if rng_2 then 2 else 0) ||| (if nml then 1 else 0)
    Unit.of_integral bcd

/-- Length of the character arrays holding the unit texts. -/
def max_unit_length : Int := 4

/-- Number of digits of the display. -/
def number_of_digits : Int := 6

/-! ## util.hpp: print -/

/-- The character `string[i]` of a character array. -/
def char_at (string : List Nat) (i : Nat) : Nat := string.getD i 0

/-- The loop of `print(buffer, buffer_length, string)`, entered with loop
counter `i`; `buffer` points at offset `off` of the array `mem`. The first
argument bounds the number of iterations; `buffer_length` iterations
always suffice because `i` starts at 0 and the loop ends at `buffer_length`. -/
def print_loop (string : List Nat) (off : Nat) (buffer_length : Int) :
    Nat → Nat → List Nat → List Nat × Int
  | 0, i, mem => (mem, (i : Int))
  | fuel + 1, i, mem =>
    if (i : Int) < buffer_length then
      let mem1 :=
        if (i : Int) < buffer_length - 1 then mem.set (off + i) (char_at string i)
        else mem.set (off + i) 0
      if char_at string i = 0 then (mem1, (i : Int))
      else print_loop string off buffer_length fuel (i + 1) mem1
    else (mem, (i : Int))

/-- The function `print(char *buffer, Size buffer_length, const char *string)`:
the array after the call and the returned count. -/
def print_string (mem : List Nat) (off : Nat) (buffer_length : Int) (string : List Nat) :
    List Nat × Int :=
  print_loop string off buffer_length buffer_length.toNat 0 mem

/-- The table `unit_texts_` of dou.cpp: five arrays of four characters. -/
def unit_texts_ : List (List Nat) :=
  [[109, 115, 0, 0], [117, 115, 0, 0], [77, 72, 122, 0], [107, 72, 122, 0], [0, 0, 0, 0]]

/-- The function `print(char *buffer, Size buffer_length, Unit unit)`. -/
def print_unit (mem : List Nat) (off : Nat) (buffer_length : Int) (unit : Unit) :
    List Nat × Int :=
  print_string mem off buffer_length (unit_texts_.getD unit.to_integral [])

/-- The variadic `print(buffer, buffer_length, head, tail)` instantiated
with a `Unit` head and one string tail, as `set_unit` calls it. -/
def print_unit_string (mem : List Nat) (off : Nat) (buffer_length : Int) (head : Unit)
    (tail : List Nat) : List Nat × Int :=
  let r := print_unit mem off buffer_length head
  let used_characters := r.2
  if used_characters < 0 ∨ used_characters ≥ buffer_length then
    (r.1, -1)
  else
    let t := print_string r.1 (off + used_characters.toNat) (buffer_length - used_characters) tail
    (t.1, t.2 + used_characters)

/-! ## dou.hpp: Bus_decoder -/

/-- A value of `enum class Data_state`, held as its underlying integer. -/
structure Data_state where
  val : Int
  deriving DecidableEq, Repr

namespace Data_state

def OverflowUnit : Data_state := ⟨0⟩
def Digit1 : Data_state := ⟨1⟩
def Digit2 : Data_state := ⟨2⟩
def Digit3 : Data_state := ⟨3⟩
def Digit4 : Data_state := ⟨4⟩
def Digit5 : Data_state := ⟨5⟩
def Digit6 : Data_state := ⟨6⟩
def Init : Data_state := ⟨7⟩

/-- The enumerator's underlying value. -/
def to_integral (s : Data_state) : Int := s.val

/-- The operator `Data_state - int`. -/
def sub (lhs : Data_state) (rhs : Int) : Data_state := ⟨lhs.to_integral - rhs⟩

end Data_state

/-- Capacity of the reading buffer. -/
def max_reading_size : Int := number_of_digits + 1 + 1 + max_unit_length + 2 + 1

/-- The decoder of the display bus. The defaults are the member
initialisers of the class. -/
structure Bus_decoder where
  state_ : Data_state := Data_state.Digit6
  reading_ : List Nat := List.replicate 15 0
  decimal_point_digit_ : Int := 0
  complete_ : Bool := false
  deriving DecidableEq, Repr

/-- The line terminator passed to `print` by `set_unit`. -/
def crlf : List Nat := [13, 10, 0]

/-- The bytes of a C string: those in front of the first NUL. -/
def c_str (mem : List Nat) : List Nat := mem.takeWhile (fun c => c != 0)

/-- The assignment `reading_[index] = c`. -/
def store_at (mem : List Nat) (index : Int) (c : Nat) : List Nat :=
  if 0 ≤ index then mem.set index.toNat c else mem

namespace Bus_decoder

/-- A decoder as constructed by `Bus_decoder{}`, also the value assigned by `decoder = {}`. -/
def fresh : Bus_decoder := {}

def state (d : Bus_decoder) : Data_state := d.state_

def is_complete (d : Bus_decoder) : Bool := d.complete_

def has_decimal_point (d : Bus_decoder) : Bool := decide (d.decimal_point_digit_ ≠ 0)

/-- The C string returned by `reading()`. -/
def reading (d : Bus_decoder) : List Nat :=
  if d.complete_ then c_str d.reading_ else []

def get_index (d : Bus_decoder) (digit_strobe : Int) : Int :=
  number_of_digits + 1 + (if d.has_decimal_point then 1 else 0) - digit_strobe

def set_overflow (d : Bus_decoder) (overflow : Bool) : Bus_decoder :=
  if overflow then { d with reading_ := store_at d.reading_ 0 62 }
  else { d with reading_ := store_at d.reading_ 0 32 }

def set_digit (d : Bus_decoder) (digit_strobe out : Int) : Bus_decoder :=
  let d1 :=
    if digit_strobe = d.decimal_point_digit_ then
      { d with reading_ := store_at d.reading_ (number_of_digits + 1 - digit_strobe) 46 }
    else d
  { d1 with reading_ := store_at d1.reading_ (d1.get_index digit_strobe) (to_char (48 + out)) }

def set_unit (d : Bus_decoder) (unit : Unit) : Bus_decoder :=
  let index := d.get_index 0
  { d with reading_ :=
      (print_unit_string d.reading_ index.toNat (max_reading_size - index) unit crlf).1 }

/-- One call of `transit(inp)`. -/
def transit (d : Bus_decoder) (inp : Input_state) : Bus_decoder :=
  if d.state_ = Data_state.Init then
    if inp.digit_strobe = Data_state.Digit6.to_integral then
      { d with decimal_point_digit_ := 0, state_ := Data_state.Digit6 }
    else d
  else if d.state_ = Data_state.Digit6 ∨ d.state_ = Data_state.Digit5
      ∨ d.state_ = Data_state.Digit4 ∨ d.state_ = Data_state.Digit3
      ∨ d.state_ = Data_state.Digit2 ∨ d.state_ = Data_state.Digit1 then
    if inp.digit_strobe = d.state_.to_integral then
      let d1 :=
        if inp.decimal_strobe then { d with decimal_point_digit_ := inp.digit_strobe } else d
      d1.set_digit inp.digit_strobe inp.out
    else if inp.digit_strobe = (d.state_.sub 1).to_integral then
      { d with state_ := d.state_.sub 1 }
    else d
  else if d.state_ = Data_state.OverflowUnit then
    let d1 := d.set_overflow inp.overflow
    let d2 := d1.set_unit (get_unit inp.nml inp.rng_2 d1.has_decimal_point)
    { d2 with complete_ := true, state_ := Data_state.Init }
  else d

/-- The decoder after `transit` has been called with each snapshot in turn. -/
def run (d : Bus_decoder) (inps : List Input_state) : Bus_decoder :=
  inps.foldl transit d

end Bus_decoder

/-! ## msp430.cpp: port masks, the signal decoder and the transmit stores -/

/-- The operator `u8 & u8`. -/
def u8_and (lhs rhs : Nat) : Nat := (lhs &&& rhs) % 256

/-- The operator `u8 | u8`. -/
def u8_or (lhs rhs : Nat) : Nat := (lhs ||| rhs) % 256

/-- The operator `~u8`: the complement of the promoted value, converted back. -/
def u8_not (lhs : Nat) : Nat := to_u8 (-(lhs : Int) - 1)

def out_b_mask_ : Nat := 0x01
def as_1_mask_ : Nat := 0x02
def tx_mask_ : Nat := 0x04
def rng_2_mask_ : Nat := 0x08
def nml_mask_ : Nat := 0x10
def ovfl_mask_ : Nat := 0x20
def as_3_mask_ : Nat := 0x40
def as_2_mask_ : Nat := 0x80

def nmup_mask_ : Nat := 0x01
def out_c_mask_ : Nat := 0x02
def out_d_mask_ : Nat := 0x04
def as_6_mask_ : Nat := 0x08
def as_5_mask_ : Nat := 0x10
def as_4_mask_ : Nat := 0x20
def out_a_mask_ : Nat := 0x40
def ds_mask_ : Nat := 0x80

/-- Maps the levels of the two input ports to a snapshot of the bus. -/
def decode_signals (port1 port2 : Nat) : Input_state :=
  { digit_strobe :=
      if u8_and port1 as_1_mask_ ≠ 0 then 1
      else if u8_and port1 as_2_mask_ ≠ 0 then 2
      else if u8_and port1 as_3_mask_ ≠ 0 then 3
      else if u8_and port2 as_4_mask_ ≠ 0 then 4
      else if u8_and port2 as_5_mask_ ≠ 0 then 5
      else if u8_and port2 as_6_mask_ ≠ 0 then 6
      else 0
    out :=
      ((u8_or
          (u8_or
            (u8_or (if u8_and port2 out_a_mask_ ≠ 0 then 1 else 0)
              (if u8_and port1 out_b_mask_ ≠ 0 then 2 else 0))
            (if u8_and port2 out_c_mask_ ≠ 0 then 4 else 0))
          (if u8_and port2 out_d_mask_ ≠ 0 then 8 else 0) : Nat) : Int)
    decimal_strobe := decide (u8_and port2 ds_mask_ ≠ 0)
    overflow := decide (u8_and port1 ovfl_mask_ ≠ 0)
    nml := decide (u8_and port1 nml_mask_ ≠ 0)
    rng_2 := decide (u8_and port1 rng_2_mask_ ≠ 0) }

/-- The value stored to the output port for one drained bit, in the
transmit loop of `run`: `(load(tx_port_) & ~tx_mask_) | (bit != 0 ? 0 : tx_mask_)`,
where `port` is the value loaded. -/
def store_tx_bit (port bit : Nat) : Nat :=
  u8_or (u8_and port (u8_not tx_mask_)) (if bit ≠ 0 then 0 else tx_mask_)

/-- The value stored to the output port after the last bit of a character:
`load(tx_port_) & ~tx_mask_`. -/
def store_tx_stop (port : Nat) : Nat := u8_and port (u8_not tx_mask_)

/-- The strobe line `AS_k` is active in the sampled port values. -/
def as_active (port1 port2 : Nat) (k : Nat) : Bool :=
  if k = 1 then decide (u8_and port1 as_1_mask_ ≠ 0)
  else if k = 2 then decide (u8_and port1 as_2_mask_ ≠ 0)
  else if k = 3 then decide (u8_and port1 as_3_mask_ ≠ 0)
  else if k = 4 then decide (u8_and port2 as_4_mask_ ≠ 0)
  else if k = 5 then decide (u8_and port2 as_5_mask_ ≠ 0)
  else if k = 6 then decide (u8_and port2 as_6_mask_ ≠ 0)
  else false

/-- The byte values of the characters of a text. -/
def ascii (s : String) : List Nat := s.toList.map Char.toNat

/-- The text of a unit: the C string held in its row of `unit_texts_`. -/
def unit_text (unit : Unit) : List Nat := c_str (unit_texts_.getD unit.to_integral [])

/-- A snapshot whose strobe position, digit value and decimal strobe are
given; the remaining lines are those of `x`. -/
def digit_sample (x : Input_state) (n : Nat) (out : Int) (decimal_strobe : Bool) : Input_state :=
  { x with digit_strobe := (n : Int), out := out, decimal_strobe := decimal_strobe }

/-- A snapshot of the overflow/unit slot (strobe position 0) carrying the
given overflow and mode lines; the remaining lines are those of `x`. -/
def unit_sample (x : Input_state) (overflow nml rng_2 : Bool) : Input_state :=
  { x with digit_strobe := 0, overflow := overflow, nml := nml, rng_2 := rng_2 }

/-- The samples of the listed positions, in order: each position `n`
twice, with digit value `digit n` and the decimal strobe asserted exactly
at position `p`. The lines a sample does not fix are taken from `aux`. -/
def digit_samples (digit : Nat → Int) (p : Nat) (aux : Nat → Input_state) :
    List Nat → List Input_state
  | [] => []
  | n :: ns =>
    digit_sample (aux (2 * n + 1)) n (digit n) (decide (n = p))
      :: digit_sample (aux (2 * n)) n (digit n) (decide (n = p))
      :: digit_samples digit p aux ns

/-- A well-formed pass: positions 6 down to 1 sampled twice each, then the
overflow/unit slot sampled twice. `p = 0` means that the decimal strobe is
never asserted. -/
def pass (digit : Nat → Int) (p : Nat) (overflow nml rng_2 : Bool)
    (aux : Nat → Input_state) : List Input_state :=
  digit_samples digit p aux [6, 5, 4, 3, 2, 1]
    ++ [unit_sample (aux 1) overflow nml rng_2, unit_sample (aux 0) overflow nml rng_2]

/-- The digit values `d6 .. d1` as a function of the position. -/
def digits_of (d6 d5 d4 d3 d2 d1 : Nat) (n : Nat) : Int :=
  if n = 6 then d6 else if n = 5 then d5 else if n = 4 then d4
  else if n = 3 then d3 else if n = 2 then d2 else d1

/-- The overflow indicator character. -/
def indicator (overflow : Bool) : Nat := if overflow then 62 else 32

/-- A snapshot with every line low. -/
def idle : Input_state := ⟨0, 0, false, false, false, false⟩

/-- The assignment `decoder = {}` made by the scheduler after a transmission. -/
def assign_default (_d : Bus_decoder) : Bus_decoder := {}

/-- The positions 6 down to `k`. -/
def positions_down_to (k : Nat) : List Nat := [6, 5, 4, 3, 2, 1].take (7 - k)

/-- Snapshots of the positions 5, 4, 3, 2, 1, 0, 0 with every other line low. -/
def pass_without_msd : List Input_state :=
  [5, 4, 3, 2, 1, 0, 0].map fun n => { idle with digit_strobe := n }

/-- A pass over the digits 1 .. 6 in which position 3 is sampled once only. -/
def pass_with_single_sample : List Input_state :=
  [(6, 1), (6, 1), (5, 2), (5, 2), (4, 3), (4, 3), (3, 4), (2, 5), (2, 5), (1, 6), (1, 6),
    (0, 0), (0, 0)].map fun q => { idle with digit_strobe := q.1, out := q.2 }

/-- The form `<indicator><digits><unit><CR><LF>` of a transmitted line: an
indicator `>` or blank, six decimal digits with at most one `.` among
them, one of the unit texts or nothing, CR, LF. -/
def line_format (r : List Nat) : Prop :=
  ∃ (ind : Nat) (body suffix : List Nat),
    r = ind :: body ++ suffix ++ [13, 10]
      ∧ (ind = 62 ∨ ind = 32)
      ∧ (∀ x ∈ body, x = 46 ∨ (48 ≤ x ∧ x ≤ 57))
      ∧ (body.filter fun x => x != 46).length = 6
      ∧ body.count 46 ≤ 1
      ∧ suffix ∈ [ascii "ms", ascii "us", ascii "MHz", ascii "kHz", []]

/-- What one well-formed pass puts on the bus: the digit value of each
position, the position of the decimal strobe (0 for none), the overflow and
mode lines of the overflow/unit slot, and the lines the pass leaves open. -/
structure Pass where
  digit : Nat → Nat
  p : Nat
  overflow : Bool
  nml : Bool
  rng_2 : Bool
  aux : Nat → Input_state

/-- The digit values are decimal and the decimal strobe, if any, is at one
of the six positions. -/
def Pass.well_formed (q : Pass) : Prop := q.p ≤ 6 ∧ ∀ n, q.digit n ≤ 9

/-- The snapshots of the pass. -/
def Pass.samples (q : Pass) : List Input_state :=
  pass (fun n => (q.digit n : Int)) q.p q.overflow q.nml q.rng_2 q.aux

/-- The snapshots of several passes in a row. -/
def passes (qs : List Pass) : List Input_state :=
  qs.foldr (fun q acc => q.samples ++ acc) []

/-- The decoder is about to start a pass: it waits in `Init`, or in
`Digit6` with no decimal point recorded, and its buffer has its 15 cells. -/
def ready (d : Bus_decoder) : Prop :=
  d.reading_.length = 15
    ∧ (d.state_ = Data_state.Init
        ∨ (d.state_ = Data_state.Digit6 ∧ d.decimal_point_digit_ = 0))

/-- The strobe positions a decoder in the state with value `v` must have
been fed, in this order, to get there from `Init`. -/
def seen_positions (v : Int) : List Int := [6, 5, 4, 3, 2, 1, 0].take (7 - v).toNat

/-- The strobe positions of a snapshot sequence. -/
def strobes (inps : List Input_state) : List Int := inps.map fun s => s.digit_strobe

/-- The progress of the decoder is backed by the snapshots fed so far: a
set completion flag by a full ordered pass followed by a further snapshot,
a state by the positions that lead to it. -/
def backed (d : Bus_decoder) (inps : List Input_state) : Prop :=
  if d.complete_ then
    ∃ l1 a l2, inps = l1 ++ a :: l2 ∧ [6, 5, 4, 3, 2, 1, 0].Sublist (strobes l1)
  else
    0 ≤ d.state_.val ∧ d.state_.val ≤ 7 ∧ (seen_positions d.state_.val).Sublist (strobes inps)

/-- The line `<indicator><digits><unit><CR><LF>`: the six digit characters
`digit_chars` (most significant first) with a `.` in front of the digit of
position `p` when `p` is not 0. -/
def reading_line (overflow : Bool) (digit_chars : List Nat) (p : Nat) (unit : Unit) : List Nat :=
  indicator overflow
    :: (digit_chars.take (6 - p) ++ (if p = 0 then [] else [46]) ++ digit_chars.drop (6 - p))
    ++ unit_text unit ++ [13, 10]

/-- The line a well-formed pass produces, in terms of what the pass puts on the bus. -/
def pass_line (digit : Nat → Int) (p : Nat) (overflow nml rng_2 : Bool) : List Nat :=
  reading_line overflow ([6, 5, 4, 3, 2, 1].map fun n => to_char (48 + digit n)) p
    (get_unit nml rng_2 (decide (p ≠ 0)))

/-! ## Scans: passes with any number of samples and glitches -/

/-- What one scan of the display puts on the bus, cut at the snapshots on
which the decoder changes its state. `lead` holds the snapshots up to the
one that takes the decoder from `Init` to `Digit6` (none for a decoder
that starts in `Digit6`). `stay n` holds the snapshots fed in the state of
position `n` before the state changes: samples of position `n`, which are
recorded, and snapshots of other positions, which are ignored.
`advance k` is the snapshot of position `k` that takes the decoder from
the state of position `k + 1` to that of `k`. `final` is the snapshot fed
in state `OverflowUnit`. -/
structure Scan where
  lead : List Input_state
  stay : Nat → List Input_state
  advance : Nat → Input_state
  final : Input_state

/-- The snapshots of the listed positions: for each position `n` those
fed in its state, then the snapshot that moves on to position `n - 1`. -/
def Scan.windows (q : Scan) : List Nat → List Input_state
  | [] => []
  | n :: ns => q.stay n ++ q.advance (n - 1) :: q.windows ns

/-- The snapshots of the scan, in order. -/
def Scan.samples (q : Scan) : List Input_state :=
  q.lead ++ q.windows [6, 5, 4, 3, 2, 1] ++ [q.final]

/-- The snapshots of position `n` fed in the state of position `n`: those
whose digit gets recorded. -/
def Scan.recorded (q : Scan) (n : Nat) : List Input_state :=
  (q.stay n).filter fun s => decide (s.digit_strobe = (n : Int))

/-- The digit value of the last recorded sample of position `n`. -/
def Scan.digit (q : Scan) (n : Nat) : Int :=
  ((q.recorded n).getLast?.map fun s => s.out).getD 0

/-- Whether a recorded sample of position `n` has the decimal strobe asserted. -/
def Scan.decimal (q : Scan) (n : Nat) : Bool :=
  (q.recorded n).any fun s => s.decimal_strobe

/-- The first position with a decimal strobe on a recorded sample, 0 for none. -/
def Scan.p (q : Scan) : Nat := ([6, 5, 4, 3, 2, 1].find? q.decimal).getD 0

/-- Each window ends at its first snapshot of the next position, the last
digit value recorded for a position is in 0 .. 9, and the decimal strobe
is asserted on recorded samples of at most one position. -/
def Scan.regular (q : Scan) : Prop :=
  (∀ n ∈ [6, 5, 4, 3, 2, 1],
      (∀ s ∈ q.stay n, s.digit_strobe ≠ (n : Int) - 1)
        ∧ (q.advance (n - 1)).digit_strobe = (n : Int) - 1
        ∧ (q.recorded n ≠ [] → 0 ≤ q.digit n ∧ q.digit n ≤ 9))
    ∧ ([6, 5, 4, 3, 2, 1].filter q.decimal).length ≤ 1

/-- Every position 6 .. 1 is recorded at least once. -/
def Scan.records_all (q : Scan) : Prop := ∀ n ∈ [6, 5, 4, 3, 2, 1], q.recorded n ≠ []

/-- The lead of a scan fed to a decoder waiting in `Init`: snapshots of
positions other than 6, which are ignored, then one snapshot of position 6. -/
def Scan.triggered (q : Scan) : Prop :=
  (q.lead.getLast?.map fun s => s.digit_strobe) = some 6
    ∧ ∀ s ∈ q.lead.dropLast, s.digit_strobe ≠ 6

/-- The snapshots of several scans in a row. -/
def scans (qs : List Scan) : List Input_state :=
  qs.foldr (fun q acc => q.samples ++ acc) []

/-- The snapshots of a scan that has got as far as the state of position
`k`: the lead, the windows of the positions above `k`, and the snapshots
fed so far in the state of position `k`. With `k = 0` the decoder waits
in `OverflowUnit` for the final snapshot. -/
def Scan.begun (q : Scan) (k : Nat) : List Input_state :=
  q.lead ++ q.windows (positions_down_to (k + 1)) ++ q.stay k

/-- A scan begun after a line with the decimal point at position `P` (0
for none) and got as far as the state of position `k` of 6 .. 0: its lead
is that of a scan fed in `Init`, each window above `k` ends at its first
snapshot of the next position, no snapshot of position `k - 1` has been
fed yet (in `OverflowUnit` no snapshot at all), and for every position
recorded so far the last digit value is in 0 .. 9 and the decimal strobe
is asserted on a recorded sample exactly if the position is `P`. -/
def Scan.begun_regular (q : Scan) (k P : Nat) : Prop :=
  k ≤ 6 ∧ q.triggered
    ∧ (∀ n ∈ positions_down_to (k + 1),
        (∀ s ∈ q.stay n, s.digit_strobe ≠ (n : Int) - 1)
          ∧ (q.advance (n - 1)).digit_strobe = (n : Int) - 1)
    ∧ (if k = 0 then q.stay 0 = [] else ∀ s ∈ q.stay k, s.digit_strobe ≠ (k : Int) - 1)
    ∧ ∀ n ∈ positions_down_to k,
        q.recorded n ≠ [] →
          0 ≤ q.digit n ∧ q.digit n ≤ 9 ∧ q.decimal n = decide (n = P)

/-- The digit characters of a line, with a `.` in front of the digit of
position `p` when `p` is not 0. -/
def line_body (g : Nat → Int) (p : Nat) : List Nat :=
  ([6, 5, 4, 3, 2, 1].map fun n => to_char (48 + g n)).take (6 - p)
    ++ (if p = 0 then [] else [46])
    ++ ([6, 5, 4, 3, 2, 1].map fun n => to_char (48 + g n)).drop (6 - p)

/-- The 15 cells of the buffer begin with a line of six decimal digits with
the decimal point at position `P` (0 for none), followed by a NUL. -/
def holds_line (buf : List Nat) (P : Nat) : Prop :=
  buf.length = 15
    ∧ ∃ (g : Nat → Int) (overflow nml rng_2 : Bool) (rest : List Nat),
        (∀ n ∈ [6, 5, 4, 3, 2, 1], 0 ≤ g n ∧ g n ≤ 9)
          ∧ buf = pass_line g P overflow nml rng_2 ++ 0 :: rest

/-- A sample of position `n` with digit value `7 - n`, with the decimal
strobe asserted at position 3. -/
def scan_sample (n : Nat) : Input_state :=
  { idle with digit_strobe := n, out := 7 - n, decimal_strobe := decide (n = 3) }

/-- A scan of 22 snapshots over the digits 1 .. 6 with the decimal strobe
at position 3: every position is sampled three times, a snapshot of
position 2 turns up among those of position 5 and a snapshot of position 6
among those of position 2. -/
def scan_with_glitches : Scan where
  lead := []
  stay := fun n =>
    if n = 6 then [scan_sample 6, scan_sample 6, scan_sample 6]
    else if n = 5 then [scan_sample 5, { idle with digit_strobe := 2, out := 9 }, scan_sample 5]
    else if n = 2 then [scan_sample 2, scan_sample 2, { idle with digit_strobe := 6, out := 9 }]
    else [scan_sample n, scan_sample n]
  advance := fun k => if k = 0 then idle else scan_sample k
  final := idle

/-- A further scan with the digit value 9 at every position and the
decimal strobe at position 3, begun after a snapshot of position 2, in
which position 5 is sampled once only and so is not recorded. -/
def rescan_with_skip : Scan where
  lead := [{ idle with digit_strobe := 2 }, { idle with digit_strobe := 6, out := 9 }]
  stay := fun n =>
    if n = 5 then []
    else [{ idle with digit_strobe := n, out := 9, decimal_strobe := decide (n = 3) }]
  advance := fun k =>
    { idle with digit_strobe := k, out := 9, decimal_strobe := decide (k = 3), nml := true }
  final := { idle with nml := true }

/-- A further scan over the digits 1 .. 6 without a decimal strobe, with
the overflow line set. -/
def scan_without_point : Scan where
  lead := [{ idle with digit_strobe := 6, out := 1 }]
  stay := fun n => [{ idle with digit_strobe := n, out := 7 - n }]
  advance := fun k => { idle with digit_strobe := k, out := 7 - k }
  final := { idle with overflow := true }

/-- A further scan with the digit value 8 and no decimal strobe, with a
snapshot of position 1 among those of position 4. -/
def scan_cut_short : Scan where
  lead := [{ idle with digit_strobe := 6, out := 8 }]
  stay := fun n =>
    if n = 4 then [{ idle with digit_strobe := 4, out := 8 }, { idle with digit_strobe := 1 }]
    else [{ idle with digit_strobe := n, out := 8 }]
  advance := fun k => { idle with digit_strobe := k, out := 8 }
  final := idle

/-- The snapshots of a scan over the digits 1 .. 6 with the decimal strobe
at position 3, in which position 1 is sampled once only. -/
def scan_moving_point : List Input_state :=
  [(6, 1, false), (6, 1, false), (5, 2, false), (5, 2, false), (4, 3, false), (4, 3, false),
    (3, 4, true), (3, 4, true), (2, 5, false), (2, 5, false), (1, 6, false), (0, 0, false),
    (0, 0, false)].map fun q =>
      { idle with digit_strobe := q.1, out := q.2.1, decimal_strobe := q.2.2 }

/-! ## Passes with the decimal strobe at several positions -/

/-- The samples of the listed positions, in order: each position `n`
twice, with digit value `digit n` and the decimal strobe asserted at the
positions listed in `marked`. The lines a sample does not fix are taken
from `aux`. -/
def digit_samples_marked (digit : Nat → Int) (marked : List Nat) (aux : Nat → Input_state) :
    List Nat → List Input_state
  | [] => []
  | n :: ns =>
    digit_sample (aux (2 * n + 1)) n (digit n) (decide (n ∈ marked))
      :: digit_sample (aux (2 * n)) n (digit n) (decide (n ∈ marked))
      :: digit_samples_marked digit marked aux ns

/-- A pass over the positions 6 down to 1, each sampled twice, with the
decimal strobe at the positions listed in `marked`, then the overflow/unit
slot sampled twice. -/
def pass_marked (digit : Nat → Int) (marked : List Nat) (overflow nml rng_2 : Bool)
    (aux : Nat → Input_state) : List Input_state :=
  digit_samples_marked digit marked aux [6, 5, 4, 3, 2, 1]
    ++ [unit_sample (aux 1) overflow nml rng_2, unit_sample (aux 0) overflow nml rng_2]

/-! ## The buffer cells a call writes -/

/-- The indices of the array cells the loop of `print` writes, in order:
`print_loop` with the stores replaced by a record of their index. -/
def print_loop_writes (string : List Nat) (off : Nat) (buffer_length : Int) :
    Nat → Nat → List Nat
  | 0, _ => []
  | fuel + 1, i =>
    if (i : Int) < buffer_length then
      (off + i) ::
        (if char_at string i = 0 then []
         else print_loop_writes string off buffer_length fuel (i + 1))
    else []

/-- The cells written by `print(char *buffer, Size buffer_length, const char *string)`. -/
def print_string_writes (off : Nat) (buffer_length : Int) (string : List Nat) : List Nat :=
  print_loop_writes string off buffer_length buffer_length.toNat 0

/-- The cells written by the variadic `print` with a `Unit` head and one
string tail; `mem` is the array before the call. -/
def print_unit_string_writes (mem : List Nat) (off : Nat) (buffer_length : Int) (head : Unit)
    (tail : List Nat) : List Nat :=
  let r := print_unit mem off buffer_length head
  let used_characters := r.2
  print_string_writes off buffer_length (unit_texts_.getD head.to_integral [])
    ++ (if used_characters < 0 ∨ used_characters ≥ buffer_length then []
        else print_string_writes (off + used_characters.toNat)
          (buffer_length - used_characters) tail)

/-- The indices of the cells of `reading_` that one call of `transit`
writes, in order. -/
def transit_writes (d : Bus_decoder) (inp : Input_state) : List Int :=
  if d.state_ = Data_state.Init then []
  else if d.state_ = Data_state.Digit6 ∨ d.state_ = Data_state.Digit5
      ∨ d.state_ = Data_state.Digit4 ∨ d.state_ = Data_state.Digit3
      ∨ d.state_ = Data_state.Digit2 ∨ d.state_ = Data_state.Digit1 then
    if inp.digit_strobe = d.state_.to_integral then
      let d1 :=
        if inp.decimal_strobe then { d with decimal_point_digit_ := inp.digit_strobe } else d
      (if inp.digit_strobe = d1.decimal_point_digit_ then
          [number_of_digits + 1 - inp.digit_strobe]
        else [])
        ++ [d1.get_index inp.digit_strobe]
    else []
  else if d.state_ = Data_state.OverflowUnit then
    let index := d.get_index 0
    (0 : Int) ::
      (print_unit_string_writes (d.set_overflow inp.overflow).reading_ index.toNat
        (max_reading_size - index) (get_unit inp.nml inp.rng_2 d.has_decimal_point) crlf).map
        fun i => (i : Int)
  else []

/-- The state is one of the eight enumerators, the recorded decimal-point
index is a position or 0, and the buffer has its 15 cells. -/
def safe (d : Bus_decoder) : Prop :=
  d.state_ ∈ [Data_state.OverflowUnit, Data_state.Digit1, Data_state.Digit2,
      Data_state.Digit3, Data_state.Digit4, Data_state.Digit5, Data_state.Digit6,
      Data_state.Init]
    ∧ 0 ≤ d.decimal_point_digit_ ∧ d.decimal_point_digit_ ≤ 6
    ∧ d.reading_.length = 15

/-! ## The stores of a call, recorded as they are made -/

/-- The loop of `print` with a record of its stores: `log` is extended by
the index of the array cell of each store, in program order. -/
def print_loop_logged (string : List Nat) (off : Nat) (buffer_length : Int) :
    Nat → Nat → List Nat → List Nat → (List Nat × Int) × List Nat
  | 0, i, mem, log => ((mem, (i : Int)), log)
  | fuel + 1, i, mem, log =>
    if (i : Int) < buffer_length then
      let mem1 :=
        if (i : Int) < buffer_length - 1 then mem.set (off + i) (char_at string i)
        else mem.set (off + i) 0
      let log1 := log ++ [off + i]
      if char_at string i = 0 then ((mem1, (i : Int)), log1)
      else print_loop_logged string off buffer_length fuel (i + 1) mem1 log1
    else ((mem, (i : Int)), log)

/-- The function `print(char *buffer, Size buffer_length, const char *string)`
with the record of its stores. -/
def print_string_logged (mem : List Nat) (off : Nat) (buffer_length : Int) (string : List Nat)
    (log : List Nat) : (List Nat × Int) × List Nat :=
  print_loop_logged string off buffer_length buffer_length.toNat 0 mem log

/-- The function `print(char *buffer, Size buffer_length, Unit unit)` with
the record of its stores. -/
def print_unit_logged (mem : List Nat) (off : Nat) (buffer_length : Int) (unit : Unit)
    (log : List Nat) : (List Nat × Int) × List Nat :=
  print_string_logged mem off buffer_length (unit_texts_.getD unit.to_integral []) log

/-- The variadic `print` with a `Unit` head and one string tail, with the
record of its stores. -/
def print_unit_string_logged (mem : List Nat) (off : Nat) (buffer_length : Int) (head : Unit)
    (tail : List Nat) (log : List Nat) : (List Nat × Int) × List Nat :=
  let r := print_unit_logged mem off buffer_length head log
  let used_characters := r.1.2
  if used_characters < 0 ∨ used_characters ≥ buffer_length then
    ((r.1.1, -1), r.2)
  else
    let t := print_string_logged r.1.1 (off + used_characters.toNat)
      (buffer_length - used_characters) tail r.2
    ((t.1.1, t.1.2 + used_characters), t.2)

/-- The assignment `reading_[index] = c` with the record of its index. -/
def store_logged (mem : List Nat) (index : Int) (c : Nat) (log : List Int) :
    List Nat × List Int :=
  (store_at mem index c, log ++ [index])

namespace Bus_decoder

/-- The member `set_overflow` with the record of its store. -/
def set_overflow_logged (d : Bus_decoder) (overflow : Bool) (log : List Int) :
    Bus_decoder × List Int :=
  if overflow then
    let w := store_logged d.reading_ 0 62 log
    ({ d with reading_ := w.1 }, w.2)
  else
    let w := store_logged d.reading_ 0 32 log
    ({ d with reading_ := w.1 }, w.2)

/-- The member `set_digit` with the record of its stores. -/
def set_digit_logged (d : Bus_decoder) (digit_strobe out : Int) (log : List Int) :
    Bus_decoder × List Int :=
  let r1 :=
    if digit_strobe = d.decimal_point_digit_ then
      let w := store_logged d.reading_ (number_of_digits + 1 - digit_strobe) 46 log
      ({ d with reading_ := w.1 }, w.2)
    else (d, log)
  let w := store_logged r1.1.reading_ (r1.1.get_index digit_strobe) (to_char (48 + out)) r1.2
  ({ r1.1 with reading_ := w.1 }, w.2)

/-- The member `set_unit` with the record of the stores of its `print` call. -/
def set_unit_logged (d : Bus_decoder) (unit : Unit) (log : List Int) : Bus_decoder × List Int :=
  let index := d.get_index 0
  let r := print_unit_string_logged d.reading_ index.toNat (max_reading_size - index) unit crlf []
  ({ d with reading_ := r.1.1 }, log ++ r.2.map fun i => (i : Int))

/-- One call of `transit(inp)` with the record of the indices of the cells
of `reading_` it stores to, in program order. -/
def transit_logged (d : Bus_decoder) (inp : Input_state) : Bus_decoder × List Int :=
  if d.state_ = Data_state.Init then
    if inp.digit_strobe = Data_state.Digit6.to_integral then
      ({ d with decimal_point_digit_ := 0, state_ := Data_state.Digit6 }, [])
    else (d, [])
  else if d.state_ = Data_state.Digit6 ∨ d.state_ = Data_state.Digit5
      ∨ d.state_ = Data_state.Digit4 ∨ d.state_ = Data_state.Digit3
      ∨ d.state_ = Data_state.Digit2 ∨ d.state_ = Data_state.Digit1 then
    if inp.digit_strobe = d.state_.to_integral then
      let d1 :=
        if inp.decimal_strobe then { d with decimal_point_digit_ := inp.digit_strobe } else d
      d1.set_digit_logged inp.digit_strobe inp.out []
    else if inp.digit_strobe = (d.state_.sub 1).to_integral then
      ({ d with state_ := d.state_.sub 1 }, [])
    else (d, [])
  else if d.state_ = Data_state.OverflowUnit then
    let r1 := d.set_overflow_logged inp.overflow []
    let r2 := r1.1.set_unit_logged (get_unit inp.nml inp.rng_2 r1.1.has_decimal_point) r1.2
    ({ r2.1 with complete_ := true, state_ := Data_state.Init }, r2.2)
  else (d, [])

end Bus_decoder

/-- Snapshots that take a freshly constructed decoder to the state
`OverflowUnit`: two snapshots of positions outside 0 .. 6, the digit
samples of a pass over 1 .. 6 with the decimal strobe at position 3, and
one snapshot of position 0. -/
def safety_example : List Input_state :=
  [⟨-3, 200, true, true, true, true⟩, ⟨9, -7, true, false, false, false⟩]
    ++ digit_samples (digits_of 1 2 3 4 5 6) 3 (fun _ => idle) [6, 5, 4, 3, 2, 1]
    ++ [unit_sample idle false false false]

/-! ## util.hpp: the variadic print with two strings -/

/-- The variadic `print(buffer, buffer_length, head, tail)` instantiated
with two C strings. -/
def print_string_string (mem : List Nat) (off : Nat) (buffer_length : Int)
    (head tail : List Nat) : List Nat × Int :=
  let r := print_string mem off buffer_length head
  let used_characters := r.2
  if used_characters < 0 ∨ used_characters ≥ buffer_length then
    (r.1, -1)
  else
    let t := print_string r.1 (off + used_characters.toNat) (buffer_length - used_characters) tail
    (t.1, t.2 + used_characters)

/-- The number of characters of a buffer that are not NUL. -/
def non_nul_count (mem : List Nat) : Nat := (mem.filter fun c => c != 0).length

/-! ## msp430.cpp: one iteration of the main loop of `run` -/

/-- What the main loop does that is visible from outside, in program order. -/
inductive Event where
  | transit (inp : Input_state)
  | disable_nmup_interrupt
  | timer_start_up
  | go_to_sleep
  | store_tx (value : Nat)
  | timer_stop
  | reset_decoder
  | enable_nmup_interrupt
  deriving DecidableEq, Repr

/-- The objects the main loop works on: the two singletons and the value
of the output port register. -/
structure Machine where
  serial : Serial_transmitter
  decoder : Bus_decoder
  p1out : Nat
  deriving DecidableEq, Repr

/-- The loop `while (serial.get_next_bit(bit)) { go_to_sleep(); store(...); }`.
The first argument bounds the number of iterations; `none` means that the
bound was reached before `get_next_bit` returned false. -/
def send_bits : Nat → Serial_transmitter → Nat → Nat →
    Option (Serial_transmitter × Nat × Nat × List Event)
  | 0, _, _, _ => none
  | fuel + 1, s, bit, port =>
    let r := s.get_next_bit bit
    if r.1 then
      let port1 := store_tx_bit port r.2.1
      (send_bits fuel r.2.2 r.2.1 port1).map fun x =>
        (x.1, x.2.1, x.2.2.1, Event.go_to_sleep :: Event.store_tx port1 :: x.2.2.2)
    else some (r.2.2, r.2.1, port, [])

/-- The body of the loop over the characters of the reading: load the
transmitter, drain the bits to the port, then wait and store the stop
level. The bound handed to `send_bits` is one more than the bit counter.
The character is given by its byte value; the nine bits that are drained
are the same whether `char` is signed or not. -/
def send_character (s : Serial_transmitter) (port : Nat) (character : Nat) :
    Option (Serial_transmitter × Nat × List Event) :=
  let s1 := s.init_transmission (character : Int)
  (send_bits (s1.bits_to_transmit_.toNat + 1) s1 0 port).map fun x =>
    (x.1, store_tx_stop x.2.2.1,
      x.2.2.2 ++ [Event.go_to_sleep, Event.store_tx (store_tx_stop x.2.2.1)])

/-- The loop `for (const auto &character : buffer)`. -/
def send_reading : List Nat → Serial_transmitter → Nat →
    Option (Serial_transmitter × Nat × List Event)
  | [], s, port => some (s, port, [])
  | c :: cs, s, port =>
    (send_character s port c).bind fun x =>
      (send_reading cs x.1 x.2.1).map fun y => (y.1, y.2.1, x.2.2 ++ y.2.2)

/-- One iteration of `while (true)` in `run`, for the sampled values of the
two input ports: the objects afterwards and what happened. -/
def loop_iteration (m : Machine) (port1 port2 : Nat) : Option (Machine × List Event) :=
  let update_memory := decide (u8_and port2 nmup_mask_ = 0)
  let input_state := decode_signals port1 port2
  if update_memory then
    some ({ m with decoder := m.decoder.transit input_state }, [Event.transit input_state])
  else
    let buffer := m.decoder.reading
    (send_reading buffer m.serial m.p1out).map fun x =>
      ({ serial := x.1, decoder := {}, p1out := x.2.1 },
        [Event.disable_nmup_interrupt, Event.timer_start_up] ++ x.2.2
          ++ [Event.timer_stop, Event.reset_decoder, Event.enable_nmup_interrupt,
              Event.go_to_sleep])

/-- The event is a store to the output port. -/
def Event.is_store : Event → Bool
  | .store_tx _ => true
  | _ => false

/-- The event is a call of `transit`. -/
def Event.is_transit : Event → Bool
  | .transit _ => true
  | _ => false

/-- The line a pass leaves when the decimal strobe was asserted at the two
positions `n1 > n2`: the `.` written for `n1` stays, and the `.` written
for `n2` takes the cell of the digit of position `n2 + 1`. -/
def two_point_line (overflow : Bool) (digit_chars : List Nat) (n1 n2 : Nat) (unit : Unit) :
    List Nat :=
  indicator overflow
    :: (digit_chars.take (6 - n1) ++ [46] ++ (digit_chars.drop (6 - n1)).take (n1 - n2 - 1)
        ++ [46] ++ digit_chars.drop (6 - n2))
    ++ unit_text unit ++ [13, 10]

/-- The events are those of a transmission: waits and stores to the output port. -/
def tx_events (ev : List Event) : Prop :=
  ∀ e ∈ ev, e = Event.go_to_sleep ∨ e.is_store = true

/-- The number of stores to the output port among the events. -/
def store_count (ev : List Event) : Nat := (ev.filter Event.is_store).length

open Bus_decoder

/-! ## print -/

/-- The iteration bound of `print_loop` is never the reason the loop ends:
once it covers the distance from `i` to `buffer_length`, a larger bound
gives the same result. -/
theorem print_loop_fuel (string : List Nat) (off : Nat) (buffer_length : Int) (extra : Nat) :
    ∀ (fuel i : Nat) (mem : List Nat), buffer_length ≤ (i : Int) + fuel →
      print_loop string off buffer_length (fuel + extra) i mem
        = print_loop string off buffer_length fuel i mem := by
  intro fuel
  induction fuel with
  | zero =>
    intro i mem h
    have hi : ¬ (i : Int) < buffer_length := by simpa using h
    cases extra with
    | zero => rfl
    | succ e => simp [print_loop, hi]
  | succ fuel ih =>
    intro i mem h
    have hf : fuel + 1 + extra = (fuel + extra) + 1 := by omega
    rw [hf]
    simp only [print_loop]
    have hnext : buffer_length ≤ ((i + 1 : Nat) : Int) + fuel := by
      push_cast at h ⊢; omega
    split_ifs
    all_goals first | rfl | exact ih _ _ hnext

/-! ## Bus decoder: one `transit` call on an explicit decoder value -/

theorem transit_mk_init (buf : List Nat) (dp : Int) (c : Bool) (inp : Input_state) :
    transit ⟨⟨7⟩, buf, dp, c⟩ inp
      = if inp.digit_strobe = 6 then ⟨⟨6⟩, buf, 0, c⟩ else ⟨⟨7⟩, buf, dp, c⟩ := by
  simp [transit, Data_state.Init, Data_state.Digit6, Data_state.to_integral]

theorem transit_mk_digit (n : Int) (h1 : 1 ≤ n) (h6 : n ≤ 6) (buf : List Nat) (dp : Int)
    (c : Bool) (inp : Input_state) :
    transit ⟨⟨n⟩, buf, dp, c⟩ inp
      = if inp.digit_strobe = n then
          set_digit ⟨⟨n⟩, buf, if inp.decimal_strobe then n else dp, c⟩ n inp.out
        else if inp.digit_strobe = n - 1 then ⟨⟨n - 1⟩, buf, dp, c⟩
        else ⟨⟨n⟩, buf, dp, c⟩ := by
  have h7 : n ≠ 7 := by omega
  have hd : n = 6 ∨ n = 5 ∨ n = 4 ∨ n = 3 ∨ n = 2 ∨ n = 1 := by omega
  simp only [transit, Data_state.Init, Data_state.Digit6, Data_state.Digit5, Data_state.Digit4,
    Data_state.Digit3, Data_state.Digit2, Data_state.Digit1, Data_state.to_integral,
    Data_state.sub, Data_state.mk.injEq, h7, hd, if_true, if_false]
  split_ifs <;> simp_all

theorem transit_mk_overflow (buf : List Nat) (dp : Int) (c : Bool) (inp : Input_state) :
    transit ⟨⟨0⟩, buf, dp, c⟩ inp
      = { (set_unit (set_overflow ⟨⟨0⟩, buf, dp, c⟩ inp.overflow)
            (get_unit inp.nml inp.rng_2 (decide (dp ≠ 0)))) with
          complete_ := true, state_ := ⟨7⟩ } := by
  simp [transit, Data_state.Init, Data_state.Digit6, Data_state.Digit5, Data_state.Digit4,
    Data_state.Digit3, Data_state.Digit2, Data_state.Digit1, Data_state.OverflowUnit,
    set_overflow, has_decimal_point]
  cases inp.overflow <;> simp

theorem set_digit_mk (s : Data_state) (buf : List Nat) (dp : Int) (c : Bool) (n out : Int) :
    set_digit ⟨s, buf, dp, c⟩ n out
      = ⟨s, store_at (if n = dp then store_at buf (7 - n) 46 else buf)
              (7 + (if dp ≠ 0 then 1 else 0) - n) (to_char (48 + out)), dp, c⟩ := by
  unfold set_digit
  by_cases h : n = dp
  · subst h
    by_cases h0 : n = 0 <;> simp [get_index, has_decimal_point, number_of_digits, h0]
  · simp only [h, if_false]
    by_cases h0 : dp = 0 <;> simp [get_index, has_decimal_point, number_of_digits, h0]

theorem set_overflow_mk (s : Data_state) (c0 : Nat) (buf : List Nat) (dp : Int) (c : Bool)
    (overflow : Bool) :
    set_overflow ⟨s, c0 :: buf, dp, c⟩ overflow = ⟨s, indicator overflow :: buf, dp, c⟩ := by
  cases overflow <;> simp [set_overflow, store_at, indicator]

theorem unit_text_ms : unit_text Unit.ms = [109, 115] := by decide
theorem unit_text_us : unit_text Unit.us = [117, 115] := by decide
theorem unit_text_MHz : unit_text Unit.MHz = [77, 72, 122] := by decide
theorem unit_text_kHz : unit_text Unit.kHz = [107, 72, 122] := by decide
theorem unit_text_None : unit_text Unit.None = [] := by decide

theorem print_unit_string_at_7 (c0 c1 c2 c3 c4 c5 c6 c7 c8 c9 c10 c11 c12 c13 c14 : Nat)
    (unit : Unit) :
    (print_unit_string [c0, c1, c2, c3, c4, c5, c6, c7, c8, c9, c10, c11, c12, c13, c14]
        7 8 unit crlf).1
      = [c0, c1, c2, c3, c4, c5, c6] ++ unit_text unit ++ [13, 10, 0]
          ++ [c7, c8, c9, c10, c11, c12, c13, c14].drop ((unit_text unit).length + 3) := by
  cases unit <;> rfl

theorem print_unit_string_at_8 (c0 c1 c2 c3 c4 c5 c6 c7 c8 c9 c10 c11 c12 c13 c14 : Nat)
    (unit : Unit) :
    (print_unit_string [c0, c1, c2, c3, c4, c5, c6, c7, c8, c9, c10, c11, c12, c13, c14]
        8 7 unit crlf).1
      = [c0, c1, c2, c3, c4, c5, c6, c7] ++ unit_text unit ++ [13, 10, 0]
          ++ [c8, c9, c10, c11, c12, c13, c14].drop ((unit_text unit).length + 3) := by
  cases unit <;> rfl

theorem set_unit_mk (s : Data_state) (c0 c1 c2 c3 c4 c5 c6 c7 c8 c9 c10 c11 c12 c13 c14 : Nat)
    (dp : Int) (c : Bool) (unit : Unit) :
    set_unit ⟨s, [c0, c1, c2, c3, c4, c5, c6, c7, c8, c9, c10, c11, c12, c13, c14], dp, c⟩ unit
      = ⟨s, if dp ≠ 0 then
              [c0, c1, c2, c3, c4, c5, c6, c7] ++ unit_text unit ++ [13, 10, 0]
                ++ [c8, c9, c10, c11, c12, c13, c14].drop ((unit_text unit).length + 3)
            else
              [c0, c1, c2, c3, c4, c5, c6] ++ unit_text unit ++ [13, 10, 0]
                ++ [c7, c8, c9, c10, c11, c12, c13, c14].drop ((unit_text unit).length + 3),
          dp, c⟩ := by
  by_cases h0 : dp = 0
  · subst h0
    have := print_unit_string_at_7 c0 c1 c2 c3 c4 c5 c6 c7 c8 c9 c10 c11 c12 c13 c14 unit
    simp [set_unit, get_index, has_decimal_point, number_of_digits, max_reading_size,
      max_unit_length, this]
  · have := print_unit_string_at_8 c0 c1 c2 c3 c4 c5 c6 c7 c8 c9 c10 c11 c12 c13 c14 unit
    simp [set_unit, get_index, has_decimal_point, number_of_digits, max_reading_size,
      max_unit_length, h0]
    simpa using this

/-! ## Bus decoder: a well-formed pass -/

set_option maxHeartbeats 8000000 in
/-- A well-formed pass, started in `Init` or in `Digit6` with no decimal
point recorded, rewrites the front of the buffer with its line and a NUL
and ends in `Init` with the completion flag set. -/
theorem run_pass_mk (st : Int) (c0 c1 c2 c3 c4 c5 c6 c7 c8 c9 c10 c11 c12 c13 c14 : Nat)
    (dp : Int) (c : Bool) (hst : st = 7 ∨ (st = 6 ∧ dp = 0))
    (digit : Nat → Int) (p : Nat) (overflow nml rng_2 : Bool)
    (aux : Nat → Input_state) (hp : p ≤ 6) :
    run ⟨⟨st⟩, [c0, c1, c2, c3, c4, c5, c6, c7, c8, c9, c10, c11, c12, c13, c14], dp, c⟩
        (pass digit p overflow nml rng_2 aux)
      = ⟨Data_state.Init,
         pass_line digit p overflow nml rng_2 ++ [0]
           ++ [c0, c1, c2, c3, c4, c5, c6, c7, c8, c9, c10, c11, c12, c13, c14].drop
                ((pass_line digit p overflow nml rng_2).length + 1),
         (p : Int), true⟩ := by
  simp only [run, pass, digit_samples, List.cons_append, List.nil_append, List.foldl_cons,
    List.foldl_nil, digit_sample, unit_sample, pass_line, reading_line, Data_state.Init]
  rcases hst with rfl | ⟨rfl, rfl⟩ <;> interval_cases p <;> cases nml <;> cases rng_2 <;>
    simp [transit_mk_digit, transit_mk_init, transit_mk_overflow, set_digit_mk,
      set_overflow_mk, set_unit_mk, store_at, get_unit, Unit.of_integral, unit_text_ms,
      unit_text_us, unit_text_MHz, unit_text_kHz, unit_text_None]

theorem list_length_15 (l : List Nat) (h : l.length = 15) :
    ∃ c0 c1 c2 c3 c4 c5 c6 c7 c8 c9 c10 c11 c12 c13 c14,
      l = [c0, c1, c2, c3, c4, c5, c6, c7, c8, c9, c10, c11, c12, c13, c14] := by
  match l, h with
  | [c0, c1, c2, c3, c4, c5, c6, c7, c8, c9, c10, c11, c12, c13, c14], _ =>
    exact ⟨c0, c1, c2, c3, c4, c5, c6, c7, c8, c9, c10, c11, c12, c13, c14, rfl⟩

theorem unit_text_length_le (unit : Unit) : (unit_text unit).length ≤ 3 := by
  cases unit <;> decide

theorem unit_text_ne_zero (unit : Unit) : ∀ x ∈ unit_text unit, x ≠ 0 := by
  cases unit <;> decide

theorem reading_line_length (overflow : Bool) (cs : List Nat) (p : Nat) (unit : Unit)
    (hcs : cs.length = 6) :
    (reading_line overflow cs p unit).length
      = 9 + (if p = 0 then 0 else 1) + (unit_text unit).length := by
  unfold reading_line
  by_cases hp : p = 0
  · simp [hp, hcs]; omega
  · simp [hp, hcs]; omega

theorem pass_line_length_le (digit : Nat → Int) (p : Nat) (overflow nml rng_2 : Bool) :
    (pass_line digit p overflow nml rng_2).length ≤ 13 := by
  unfold pass_line
  rw [reading_line_length _ _ _ _ (by simp)]
  have := unit_text_length_le (get_unit nml rng_2 (decide (p ≠ 0)))
  split_ifs <;> omega

theorem run_pass (d : Bus_decoder) (hlen : d.reading_.length = 15)
    (hst : d.state_ = Data_state.Init
      ∨ (d.state_ = Data_state.Digit6 ∧ d.decimal_point_digit_ = 0))
    (digit : Nat → Int) (p : Nat) (overflow nml rng_2 : Bool)
    (aux : Nat → Input_state) (hp : p ≤ 6) :
    run d (pass digit p overflow nml rng_2 aux)
      = ⟨Data_state.Init,
         pass_line digit p overflow nml rng_2 ++ [0]
           ++ d.reading_.drop ((pass_line digit p overflow nml rng_2).length + 1),
         (p : Int), true⟩ := by
  obtain ⟨⟨st⟩, buf, dp, c⟩ := d
  obtain ⟨c0, c1, c2, c3, c4, c5, c6, c7, c8, c9, c10, c11, c12, c13, c14, rfl⟩ :=
    list_length_15 buf hlen
  apply run_pass_mk _ _ _ _ _ _ _ _ _ _ _ _ _ _ _ _ _ _ _ _ _ _ _ _ _ hp
  simpa [Data_state.Init, Data_state.Digit6] using hst

theorem c_str_append_nul (l r : List Nat) (h : ∀ x ∈ l, x ≠ 0) : c_str (l ++ 0 :: r) = l := by
  induction l with
  | nil => simp [c_str]
  | cons a l ih =>
    have ha : a ≠ 0 := h a (by simp)
    have := ih (fun x hx => h x (by simp [hx]))
    have hb : (a != 0) = true := by simpa using ha
    simp only [c_str] at this ⊢
    simp [List.takeWhile_cons, hb, this]

theorem to_char_digit (d : Nat) (h : d ≤ 9) : to_char (48 + (d : Int)) = 48 + d := by
  unfold to_char; omega

theorem reading_line_ne_zero (overflow : Bool) (cs : List Nat) (p : Nat) (unit : Unit)
    (hcs : ∀ x ∈ cs, x ≠ 0) : ∀ x ∈ reading_line overflow cs p unit, x ≠ 0 := by
  intro x hx
  simp only [reading_line, List.mem_cons, List.mem_append, List.mem_singleton] at hx
  rcases hx with ((rfl | (h | h) | h) | h) | h
  · cases overflow <;> simp [indicator]
  · exact hcs x (List.mem_of_mem_take h)
  · split_ifs at h <;> simp_all
  · exact hcs x (List.mem_of_mem_drop h)
  · exact unit_text_ne_zero unit x h
  · rcases h with rfl | h <;> simp_all

theorem fresh_reading_length : fresh.reading_.length = 15 := by decide

theorem reading_after_pass (d : Bus_decoder) (hlen : d.reading_.length = 15)
    (hst : d.state_ = Data_state.Init
      ∨ (d.state_ = Data_state.Digit6 ∧ d.decimal_point_digit_ = 0))
    (digit : Nat → Int) (p : Nat) (overflow nml rng_2 : Bool)
    (aux : Nat → Input_state) (hp : p ≤ 6)
    (hd : ∀ n, to_char (48 + digit n) ≠ 0) :
    (run d (pass digit p overflow nml rng_2 aux)).reading
      = pass_line digit p overflow nml rng_2 := by
  rw [run_pass d hlen hst digit p overflow nml rng_2 aux hp]
  simp only [reading, if_true, List.append_assoc, List.singleton_append]
  apply c_str_append_nul
  apply reading_line_ne_zero
  intro x hx
  simp only [List.mem_map] at hx
  obtain ⟨n, _, rfl⟩ := hx
  exact hd n

/-! ## Serial transmitter -/

open Serial_transmitter in
theorem get_next_bit_of_pos (s : Serial_transmitter) (bit : Nat) (h : 0 < s.bits_to_transmit_) :
    s.get_next_bit bit
      = (true, s.transmit_data_ % 2,
          ⟨u16_shr s.transmit_data_ 1, s.bits_to_transmit_ - 1⟩) := by
  have hc : s.transmit_complete = false := by
    simp [transmit_complete, h]
  have hb : u16_and_u8 s.transmit_data_ 1 = s.transmit_data_ % 2 := by
    simp only [u16_and_u8, Nat.reduceMod, Nat.and_one_is_mod]
    omega
  simp [get_next_bit, hc, hb]

open Serial_transmitter in
theorem get_next_bit_of_complete (s : Serial_transmitter) (bit : Nat)
    (h : s.transmit_complete = true) : s.get_next_bit bit = (false, bit, s) := by
  simp [get_next_bit, h]

theorem drain_of_complete (s : Serial_transmitter) (h : s.transmit_complete = true) :
    ∀ (n bit : Nat), drain n s bit = (List.replicate n (false, bit), bit, s) := by
  intro n
  induction n with
  | zero => intro bit; rfl
  | succ n ih =>
    intro bit
    simp [drain, get_next_bit_of_complete s bit h, ih, List.replicate_succ]

theorem drain_counter (n : Nat) :
    ∀ (s : Serial_transmitter) (bit : Nat), (n : Int) ≤ s.bits_to_transmit_ →
      (drain n s bit).2.2.bits_to_transmit_ = s.bits_to_transmit_ - n := by
  induction n with
  | zero => intro s bit _; simp [drain]
  | succ n ih =>
    intro s bit h
    have hpos : 0 < s.bits_to_transmit_ := by omega
    simp only [drain, get_next_bit_of_pos s bit hpos]
    rw [ih]
    · push_cast; ring
    · show (n : Int) ≤ s.bits_to_transmit_ - 1
      omega

theorem init_counter (s : Serial_transmitter) (c : Int) :
    (s.init_transmission c).bits_to_transmit_ = 9 := rfl

/-- The bits drained after `init_transmission` depend neither on the
previous transmitter nor on the previous value of the reference argument. -/
theorem drain_init_indep (s : Serial_transmitter) (c : Int) (bit : Nat) (n : Nat) :
    drain (n + 1) (s.init_transmission c) bit
      = drain (n + 1) (Serial_transmitter.init_transmission {} c) 0 := by
  simp only [drain]
  rw [get_next_bit_of_pos _ bit (by rw [init_counter]; decide)]
  rw [get_next_bit_of_pos _ 0 (by rw [init_counter]; decide)]
  rfl

/-- The frames of the 7-bit characters, checked one by one. -/
theorem frames_of_7_bit_characters : ∀ k : Nat, k < 128 →
    (drain 10 (Serial_transmitter.init_transmission {} (k : Int)) 0).1.map Prod.fst
        = [true, true, true, true, true, true, true, true, true, false]
      ∧ ((drain 9 (Serial_transmitter.init_transmission {} (k : Int)) 0).1.map
          Prod.snd).getD 0 1 = 0
      ∧ ((drain 9 (Serial_transmitter.init_transmission {} (k : Int)) 0).1.map
          Prod.snd).getD 8 0 = 1
      ∧ ((List.range 7).map fun i =>
          ((drain 9 (Serial_transmitter.init_transmission {} (k : Int)) 0).1.map
            Prod.snd).getD (i + 1) 0 * 2 ^ i).sum = k := by
  decide

set_option maxRecDepth 100000 in
/-- The frames of all `char` values, signed or unsigned, checked one by one. -/
theorem frames_of_all_characters : ∀ k : Nat, k < 384 →
    (drain 9 (Serial_transmitter.init_transmission {} ((k : Int) - 128)) 0).1.map Prod.fst
        = List.replicate 9 true
      ∧ ((drain 9 (Serial_transmitter.init_transmission {} ((k : Int) - 128)) 0).1.map
          Prod.snd).getD 0 1 = 0
      ∧ ((drain 9 (Serial_transmitter.init_transmission {} ((k : Int) - 128)) 0).1.map
          Prod.snd).getD 8 0 = 1 := by
  decide

/-! ## Bus decoder: sequences of snapshots -/

theorem transit_complete_of_not_overflow (d : Bus_decoder) (inp : Input_state)
    (h : d.state_ ≠ Data_state.OverflowUnit) : (transit d inp).complete_ = d.complete_ := by
  unfold transit
  split_ifs <;> simp_all [set_digit]
  all_goals split_ifs <;> rfl

theorem run_cons (d : Bus_decoder) (a : Input_state) (l : List Input_state) :
    run d (a :: l) = run (transit d a) l := rfl

theorem run_append (d : Bus_decoder) (l r : List Input_state) :
    run d (l ++ r) = run (run d l) r := by
  simp [run, List.foldl_append]

theorem run_complete_of_no_overflow_state (inps : List Input_state) :
    ∀ d : Bus_decoder,
      (∀ k : Nat, k < inps.length → (run d (inps.take k)).state ≠ Data_state.OverflowUnit) →
      (run d inps).complete_ = d.complete_ := by
  induction inps with
  | nil => intro d _; rfl
  | cons a l ih =>
    intro d h
    rw [run_cons, ih (transit d a), transit_complete_of_not_overflow]
    · exact h 0 (by simp)
    · intro k hk
      have := h (k + 1) (by simpa using hk)
      simpa [run_cons] using this

theorem line_format_length (r : List Nat) (h : line_format r) : 9 ≤ r.length := by
  obtain ⟨ind, body, suffix, rfl, _, _, h6, _, _⟩ := h
  have := List.length_filter_le (fun x => x != 46) body
  simp only [List.cons_append, List.length_cons, List.length_append, List.length_nil]
  omega

theorem passes_append (qs rs : List Pass) : passes (qs ++ rs) = passes qs ++ passes rs := by
  induction qs with
  | nil => rfl
  | cons q qs ih => simp [passes, List.foldr_cons] at ih ⊢; rw [ih]

theorem ready_fresh : ready fresh := ⟨by decide, Or.inr ⟨rfl, rfl⟩⟩

theorem ready_run_pass (d : Bus_decoder) (h : ready d) (q : Pass) (hq : q.well_formed) :
    ready (run d q.samples) := by
  unfold Pass.samples
  rw [run_pass d h.1 h.2 _ q.p q.overflow q.nml q.rng_2 q.aux hq.1]
  refine ⟨?_, Or.inl rfl⟩
  have hl := pass_line_length_le (fun n => (q.digit n : Int)) q.p q.overflow q.nml q.rng_2
  simp only [List.length_append, List.length_drop, List.length_cons, List.length_nil, h.1]
  omega

theorem ready_run_passes (qs : List Pass) :
    ∀ d : Bus_decoder, ready d → (∀ q ∈ qs, q.well_formed) → ready (run d (passes qs)) := by
  induction qs with
  | nil => intro d h _; exact h
  | cons q qs ih =>
    intro d h hq
    have : passes (q :: qs) = q.samples ++ passes qs := rfl
    rw [this, run_append]
    exact ih _ (ready_run_pass d h q (hq q (by simp))) (fun r hr => hq r (by simp [hr]))

theorem filter_dot_insert (cs : List Nat) (k p : Nat) (h : ∀ x ∈ cs, x ≠ 46) :
    (cs.take k ++ (if p = 0 then [] else [46]) ++ cs.drop k).filter (fun x => x != 46) = cs := by
  have ht : (cs.take k).filter (fun x => x != 46) = cs.take k :=
    List.filter_eq_self.2 fun x hx => by simpa using h x (List.mem_of_mem_take hx)
  have hd : (cs.drop k).filter (fun x => x != 46) = cs.drop k :=
    List.filter_eq_self.2 fun x hx => by simpa using h x (List.mem_of_mem_drop hx)
  have hm : (if p = 0 then [] else [46]).filter (fun x => x != 46) = [] := by
    split_ifs <;> simp
  rw [List.filter_append, List.filter_append, ht, hd, hm, List.append_nil,
    List.take_append_drop]

theorem count_dot_insert (cs : List Nat) (k p : Nat) (h : ∀ x ∈ cs, x ≠ 46) :
    (cs.take k ++ (if p = 0 then [] else [46]) ++ cs.drop k).count 46 ≤ 1 := by
  have ht : (cs.take k).count 46 = 0 :=
    List.count_eq_zero.2 fun hx => h 46 (List.mem_of_mem_take hx) rfl
  have hd : (cs.drop k).count 46 = 0 :=
    List.count_eq_zero.2 fun hx => h 46 (List.mem_of_mem_drop hx) rfl
  rw [List.count_append, List.count_append, ht, hd]
  split_ifs <;> simp

theorem line_format_pass_line (q : Pass) (hq : q.well_formed) :
    line_format (pass_line (fun n => (q.digit n : Int)) q.p q.overflow q.nml q.rng_2) := by
  obtain ⟨_, hd⟩ := hq
  have hcs : ∀ x ∈ [6, 5, 4, 3, 2, 1].map (fun n => 48 + q.digit n), 48 ≤ x ∧ x ≤ 57 := by
    intro x hx
    simp only [List.mem_map] at hx
    obtain ⟨n, _, rfl⟩ := hx
    have := hd n
    omega
  have hne : ∀ x ∈ [6, 5, 4, 3, 2, 1].map (fun n => 48 + q.digit n), x ≠ 46 :=
    fun x hx => by have := hcs x hx; omega
  refine ⟨indicator q.overflow,
    ([6, 5, 4, 3, 2, 1].map fun n => 48 + q.digit n).take (6 - q.p)
      ++ (if q.p = 0 then [] else [46])
      ++ ([6, 5, 4, 3, 2, 1].map fun n => 48 + q.digit n).drop (6 - q.p),
    unit_text (get_unit q.nml q.rng_2 (decide (q.p ≠ 0))), ?_, ?_, ?_, ?_, ?_, ?_⟩
  · simp [pass_line, reading_line, to_char_digit, hd]
  · cases q.overflow <;> simp [indicator]
  · intro x hx
    simp only [List.mem_append] at hx
    rcases hx with (hx | hx) | hx
    · exact Or.inr (hcs x (List.mem_of_mem_take hx))
    · split_ifs at hx <;> simp_all
    · exact Or.inr (hcs x (List.mem_of_mem_drop hx))
  · rw [filter_dot_insert _ _ _ hne]; rfl
  · exact count_dot_insert _ _ _ hne
  · cases q.nml <;> cases q.rng_2 <;> by_cases h : q.p = 0 <;>
      simp [h, get_unit, Unit.of_integral] <;> decide

set_option maxHeartbeats 16000000 in
/-- After a well-formed pass, the samples of the positions 6 down to k of a
further pass with the decimal strobe at the same position overwrite the
digit characters of those positions and nothing else. -/
theorem run_partial_pass (d e : Nat → Int) (p k : Nat) (overflow nml rng_2 : Bool)
    (aux aux2 : Nat → Input_state) (hp : p ≤ 6) (hk1 : 1 ≤ k) (hk6 : k ≤ 6) :
    run (run fresh (pass d p overflow nml rng_2 aux))
        (digit_samples e p aux2 (positions_down_to k))
      = ⟨⟨(k : Int)⟩,
         pass_line (fun n => if k ≤ n then e n else d n) p overflow nml rng_2 ++ [0]
           ++ fresh.reading_.drop ((pass_line d p overflow nml rng_2).length + 1),
         if k ≤ p then (p : Int) else 0, true⟩ := by
  rw [run_pass fresh fresh_reading_length (Or.inr ⟨rfl, rfl⟩) _ p overflow nml rng_2 aux hp]
  simp only [pass_line, reading_line, fresh, Data_state.Init, positions_down_to]
  interval_cases p <;> interval_cases k <;>
    simp [run, digit_samples, digit_sample, transit_mk_digit, transit_mk_init, set_digit_mk,
      store_at, get_unit]

/-! ## Bus decoder: what a completed reading requires -/

theorem strobes_append (l : List Input_state) (a : Input_state) :
    strobes (l ++ [a]) = strobes l ++ [a.digit_strobe] := by
  simp [strobes]

theorem seen_positions_pred (v : Int) (h1 : 1 ≤ v) (h7 : v ≤ 7) :
    seen_positions (v - 1) = seen_positions v ++ [v - 1] := by
  have : v = 1 ∨ v = 2 ∨ v = 3 ∨ v = 4 ∨ v = 5 ∨ v = 6 ∨ v = 7 := by omega
  rcases this with rfl | rfl | rfl | rfl | rfl | rfl | rfl <;> decide

theorem set_digit_state (d : Bus_decoder) (n out : Int) :
    (set_digit d n out).state_ = d.state_ := by
  unfold set_digit; split_ifs <;> rfl

theorem set_digit_complete (d : Bus_decoder) (n out : Int) :
    (set_digit d n out).complete_ = d.complete_ := by
  unfold set_digit; split_ifs <;> rfl

theorem backed_congr (d e : Bus_decoder) (inps : List Input_state)
    (hs : e.state_ = d.state_) (hc : e.complete_ = d.complete_) (h : backed d inps) :
    backed e inps := by
  unfold backed at h ⊢
  rw [hs, hc]
  exact h

theorem backed_snoc (d : Bus_decoder) (inps : List Input_state) (a : Input_state)
    (h : backed d inps) : backed d (inps ++ [a]) := by
  unfold backed at h ⊢
  split_ifs at h ⊢ with hc
  · obtain ⟨l1, b, l2, rfl, hs⟩ := h
    exact ⟨l1, b, l2 ++ [a], by simp, hs⟩
  · rw [strobes_append]
    exact ⟨h.1, h.2.1, h.2.2.trans (List.sublist_append_left _ _)⟩

theorem backed_transit (d : Bus_decoder) (inps : List Input_state) (a : Input_state)
    (h : backed d inps) : backed (transit d a) (inps ++ [a]) := by
  by_cases hc : d.complete_ = true
  · have hc2 : (transit d a).complete_ = true := by
      unfold transit
      split_ifs <;> simp_all [set_digit_complete]
    have := backed_snoc d inps a h
    unfold backed at this ⊢
    rw [hc2]
    rw [hc] at this
    exact this
  · obtain ⟨⟨v⟩, buf, dp, c⟩ := d
    have hcf : c = false := by simpa using hc
    subst hcf
    have h' := h
    simp only [backed, Bool.false_eq_true, if_false] at h'
    obtain ⟨h0, h7, hs⟩ := h'
    have hv : v = 7 ∨ (1 ≤ v ∧ v ≤ 6) ∨ v = 0 := by omega
    rcases hv with rfl | ⟨h1, h6⟩ | rfl
    · rw [transit_mk_init]
      split_ifs with h6
      · simp only [backed, Bool.false_eq_true, if_false, strobes_append, h6]
        exact ⟨by decide, by decide, List.sublist_append_right (strobes inps) [6]⟩
      · exact backed_snoc _ inps a h
    · rw [transit_mk_digit v h1 h6]
      by_cases hs1 : a.digit_strobe = v
      · rw [if_pos hs1]
        exact backed_congr _ _ _ (set_digit_state _ _ _) (set_digit_complete _ _ _)
          (backed_snoc _ inps a h)
      · rw [if_neg hs1]
        by_cases hs2 : a.digit_strobe = v - 1
        · rw [if_pos hs2]
          simp only [backed, Bool.false_eq_true, if_false, strobes_append, hs2]
          refine ⟨by omega, by omega, ?_⟩
          rw [seen_positions_pred v h1 (by omega)]
          exact List.Sublist.append hs (List.Sublist.refl _)
        · rw [if_neg hs2]
          exact backed_snoc _ inps a h
    · rw [transit_mk_overflow]
      simp only [backed, if_true]
      exact ⟨inps, a, [], rfl, hs⟩

theorem backed_run (l : List Input_state) :
    ∀ (d : Bus_decoder) (inps : List Input_state), backed d inps →
      backed (run d l) (inps ++ l) := by
  induction l with
  | nil => intro d inps h; simpa [run] using h
  | cons a l ih =>
    intro d inps h
    have := ih (transit d a) (inps ++ [a]) (backed_transit d inps a h)
    simpa [run_cons] using this

/-- A decoder that starts in `Init` with the completion flag clear completes
only after the positions 6, 5, 4, 3, 2, 1, 0, in this order, and one further
snapshot. -/
theorem complete_from_init_requires_full_pass (d : Bus_decoder) (inps : List Input_state)
    (hs : d.state_ = Data_state.Init) (hc : d.complete_ = false)
    (h : (run d inps).is_complete = true) :
    ∃ l1 a l2, inps = l1 ++ a :: l2 ∧ [6, 5, 4, 3, 2, 1, 0].Sublist (strobes l1) := by
  have hb : backed d [] := by
    simp only [backed, hc, Bool.false_eq_true, if_false, hs, Data_state.Init]
    exact ⟨by decide, by decide, by decide⟩
  have := backed_run inps d [] hb
  simp only [is_complete] at h
  simpa [backed, h] using this

/-! ## Bus decoder: repeated samples -/

theorem store_at_idem (mem : List Nat) (i : Int) (c : Nat) :
    store_at (store_at mem i c) i c = store_at mem i c := by
  unfold store_at
  split_ifs
  · rw [List.set_set]
  · rfl

theorem store_at_comm (mem : List Nat) (i j : Int) (a b : Nat) (hi : 0 ≤ i) (hj : 0 ≤ j)
    (hij : i ≠ j) :
    store_at (store_at mem i a) j b = store_at (store_at mem j b) i a := by
  simp only [store_at, if_pos hi, if_pos hj]
  have hne : i.toNat ≠ j.toNat := by
    intro h
    apply hij
    have := Int.toNat_of_nonneg hi
    have := Int.toNat_of_nonneg hj
    omega
  exact List.set_comm a b mem hne

theorem set_digit_idem (d : Bus_decoder) (n out : Int) (hn : 1 ≤ n) (h6 : n ≤ 6) :
    set_digit (set_digit d n out) n out = set_digit d n out := by
  obtain ⟨s, buf, dp, c⟩ := d
  rw [set_digit_mk, set_digit_mk]
  by_cases h : n = dp
  · subst h
    have h0 : n ≠ 0 := by omega
    simp only [if_true, h0, ne_eq, not_false_eq_true]
    rw [store_at_comm _ (7 + 1 - n) (7 - n) _ _ (by omega) (by omega) (by omega),
      store_at_idem, store_at_idem]
  · simp only [if_neg h, store_at_idem]

/-! ## Signal decoder and transmit stores -/

/-- The priority chain of `decode_signals`, in terms of the six strobe lines. -/
theorem digit_strobe_eq (port1 port2 : Nat) :
    (decode_signals port1 port2).digit_strobe
      = if as_active port1 port2 1 then 1
        else if as_active port1 port2 2 then 2
        else if as_active port1 port2 3 then 3
        else if as_active port1 port2 4 then 4
        else if as_active port1 port2 5 then 5
        else if as_active port1 port2 6 then 6
        else 0 := by
  simp [decode_signals, as_active]

theorem priority_chain :
    ∀ b1 b2 b3 b4 b5 b6 : Bool, ∀ k : Fin 7,
      ((if b1 then 1 else if b2 then 2 else if b3 then 3 else if b4 then 4
          else if b5 then 5 else if b6 then 6 else 0 : Int) = ((k : Nat) : Int)
        ↔ (k.val ≠ 0 → ([b1, b2, b3, b4, b5, b6].getD (k.val - 1) false = true))
          ∧ ∀ j : Fin 7, j.val < (if k.val = 0 then 7 else k.val) → j.val ≠ 0 →
              [b1, b2, b3, b4, b5, b6].getD (j.val - 1) false = false) := by
  decide

theorem as_active_eq_getD (port1 port2 : Nat) (k : Nat) (h1 : k ≠ 0) :
    as_active port1 port2 k
      = [as_active port1 port2 1, as_active port1 port2 2, as_active port1 port2 3,
          as_active port1 port2 4, as_active port1 port2 5, as_active port1 port2 6].getD
            (k - 1) false := by
  rcases k with _ | _ | _ | _ | _ | _ | _ | k
  · exact absurd rfl h1
  all_goals rfl

theorem u8_and_of_agree (p q m k : Nat) (h : p &&& k = q &&& k) (hm : k &&& m = m) :
    u8_and p m = u8_and q m := by
  unfold u8_and
  rw [← hm, ← Nat.and_assoc, ← Nat.and_assoc, h]

theorem bcd_sum : ∀ a b c d : Bool,
    u8_or (u8_or (u8_or (if a then 1 else 0) (if b then 2 else 0)) (if c then 4 else 0))
        (if d then 8 else 0)
      = (if a then 1 else 0) + 2 * (if b then 1 else 0) + 4 * (if c then 1 else 0)
          + 8 * (if d then 1 else 0) := by
  decide

set_option maxRecDepth 100000 in
/-- The transmit stores, checked for every port value. -/
theorem store_tx_bit_cases : ∀ p : Nat, p < 256 → ∀ bit : Bool,
    (store_tx_bit p (if bit then 1 else 0) &&& tx_mask_ = if bit then 0 else tx_mask_)
      ∧ store_tx_bit p (if bit then 1 else 0) &&& 0xFB = p &&& 0xFB
      ∧ store_tx_stop p &&& tx_mask_ = 0
      ∧ store_tx_stop p &&& 0xFB = p &&& 0xFB
      ∧ store_tx_stop (store_tx_bit p 1) = store_tx_bit p 1 := by
  decide

/-! ## Printing a unit -/

theorem print_unit_cells (a b c d : Nat) (rest : List Nat) (k : Nat) (unit : Unit) :
    print_unit (a :: b :: c :: d :: rest) 0 ((k + 4 : Nat) : Int) unit
      = (unit_text unit ++ [0] ++ (a :: b :: c :: d :: rest).drop ((unit_text unit).length + 1),
          ((unit_text unit).length : Int)) := by
  have h0 : (0 : Int) < (k : Int) + 4 := by omega
  have h1 : (0 : Int) < (k : Int) + 4 - 1 := by omega
  have h2 : (1 : Int) < (k : Int) + 4 := by omega
  have h3 : (1 : Int) < (k : Int) + 4 - 1 := by omega
  have h4 : (2 : Int) < (k : Int) + 4 := by omega
  have h5 : (2 : Int) < (k : Int) + 4 - 1 := by omega
  have h6 : (3 : Int) < (k : Int) + 4 := by omega
  have ht : ((k + 4 : Nat) : Int).toNat = k + 4 := Int.toNat_ofNat _
  cases unit <;>
    simp [print_unit, print_string, ht, print_loop, char_at, unit_texts_, Unit.to_integral,
      unit_text_ms, unit_text_us, unit_text_MHz, unit_text_kHz, unit_text_None,
      h0, h1, h2, h3, h4, h5, h6]

/-! ## Bus decoder: single steps and buffer cells -/

theorem digit_state_val (d : Bus_decoder)
    (hs : d.state ∈ [Data_state.Digit6, Data_state.Digit5, Data_state.Digit4,
      Data_state.Digit3, Data_state.Digit2, Data_state.Digit1]) :
    1 ≤ d.state_.val ∧ d.state_.val ≤ 6 := by
  obtain ⟨⟨v⟩, buf, dp, c⟩ := d
  simp only [state, Data_state.Digit6, Data_state.Digit5, Data_state.Digit4,
    Data_state.Digit3, Data_state.Digit2, Data_state.Digit1, List.mem_cons,
    Data_state.mk.injEq, List.mem_singleton, List.not_mem_nil, or_false] at hs
  show 1 ≤ v ∧ v ≤ 6
  omega

theorem store_at_length (mem : List Nat) (i : Int) (c : Nat) :
    (store_at mem i c).length = mem.length := by
  unfold store_at; split_ifs <;> simp

theorem store_at_getD_self (mem : List Nat) (i : Nat) (c : Nat) (h : i < mem.length) :
    (store_at mem (i : Int) c).getD i 0 = c := by
  simp [store_at, List.getD_eq_getElem?_getD, List.getElem?_set, h]

theorem store_at_getD_ne (mem : List Nat) (i : Int) (j : Nat) (c : Nat) (h : (j : Int) ≠ i) :
    (store_at mem i c).getD j 0 = mem.getD j 0 := by
  unfold store_at
  split_ifs with h0
  · have hne : i.toNat ≠ j := by
      intro he
      apply h
      have := Int.toNat_of_nonneg h0
      omega
    simp [List.getD_eq_getElem?_getD, List.getElem?_set, hne]
  · rfl

theorem recorded_cells (buf : List Nat) (dp n : Int) (c : Nat) (h1 : 1 ≤ n) (h6 : n ≤ 6)
    (hlen : buf.length = 15) :
    (store_at (if dp = n then store_at buf (7 - n) 46 else buf)
          (if dp = 0 then 7 - n else 8 - n) c).getD
        (if dp = 0 then 7 - n else 8 - n).toNat 0 = c
      ∧ (dp = n →
          (store_at (if dp = n then store_at buf (7 - n) 46 else buf)
            (if dp = 0 then 7 - n else 8 - n) c).getD (7 - n).toNat 0 = 46)
      ∧ ∀ i : Nat, (i : Int) ≠ (if dp = 0 then 7 - n else 8 - n) →
          ¬ (dp = n ∧ (i : Int) = 7 - n) →
          (store_at (if dp = n then store_at buf (7 - n) 46 else buf)
            (if dp = 0 then 7 - n else 8 - n) c).getD i 0 = buf.getD i 0 := by
  have hidx : ∀ k : Int, 0 ≤ k → ((k.toNat : Nat) : Int) = k := fun k hk => Int.toNat_of_nonneg hk
  refine ⟨?_, ?_, ?_⟩
  · have hk : 0 ≤ (if dp = 0 then 7 - n else 8 - n) := by split_ifs <;> omega
    have hlt : (if dp = 0 then 7 - n else 8 - n).toNat
        < (if dp = n then store_at buf (7 - n) 46 else buf).length := by
      have : (if dp = n then store_at buf (7 - n) 46 else buf).length = 15 := by
        split_ifs <;> simp [store_at_length, hlen]
      rw [this]
      split_ifs <;> omega
    have := store_at_getD_self (if dp = n then store_at buf (7 - n) 46 else buf)
      (if dp = 0 then 7 - n else 8 - n).toNat c hlt
    rw [hidx _ hk] at this
    exact this
  · intro hdp
    have h0 : dp ≠ 0 := by omega
    rw [if_pos hdp, if_neg h0]
    rw [store_at_getD_ne _ _ _ _ (by rw [hidx _ (by omega)]; omega)]
    have := store_at_getD_self buf (7 - n).toNat 46 (by rw [hlen]; omega)
    rw [hidx _ (by omega)] at this
    exact this
  · intro i hi hdot
    rw [store_at_getD_ne _ _ _ _ hi]
    by_cases hdp : dp = n
    · rw [if_pos hdp]
      exact store_at_getD_ne _ _ _ _ (fun h => hdot ⟨hdp, h⟩)
    · rw [if_neg hdp]

/-! ## Bus decoder: two decimal strobes in one pass -/

set_option maxHeartbeats 8000000 in
/-- A pass with the decimal strobe at two positions, fed to a fresh decoder. -/
theorem run_pass_two_points (digit : Nat → Int) (n1 n2 : Nat) (overflow nml rng_2 : Bool)
    (aux : Nat → Input_state) (h2 : 1 ≤ n2) (h12 : n2 < n1) (h1 : n1 ≤ 6) :
    run fresh (pass_marked digit [n1, n2] overflow nml rng_2 aux)
      = ⟨Data_state.Init,
         two_point_line overflow ([6, 5, 4, 3, 2, 1].map fun n => to_char (48 + digit n)) n1 n2
             (get_unit nml rng_2 true) ++ [0]
           ++ fresh.reading_.drop
              ((two_point_line overflow ([6, 5, 4, 3, 2, 1].map fun n => to_char (48 + digit n))
                n1 n2 (get_unit nml rng_2 true)).length + 1),
         (n2 : Int), true⟩ := by
  simp only [run, pass_marked, digit_samples_marked, List.cons_append, List.nil_append,
    List.foldl_cons, List.foldl_nil, digit_sample, unit_sample, two_point_line, fresh,
    Data_state.Init, Data_state.Digit6]
  interval_cases n1 <;> interval_cases n2
  all_goals cases nml <;> cases rng_2 <;>
    simp [transit_mk_digit, transit_mk_overflow, set_digit_mk,
      set_overflow_mk, set_unit_mk, store_at, get_unit, Unit.of_integral, unit_text_ms,
      unit_text_us, unit_text_MHz, unit_text_kHz]

/-! ## Bus decoder: reachable decoders -/

theorem safe_fresh : safe fresh := by
  refine ⟨by decide, by decide, by decide, by decide⟩

theorem safe_state_val (d : Bus_decoder) (h : safe d) : 0 ≤ d.state_.val ∧ d.state_.val ≤ 7 := by
  obtain ⟨⟨v⟩, buf, dp, c⟩ := d
  have hs := h.1
  simp only [Data_state.OverflowUnit, Data_state.Digit6, Data_state.Digit5, Data_state.Digit4,
    Data_state.Digit3, Data_state.Digit2, Data_state.Digit1, Data_state.Init, List.mem_cons,
    Data_state.mk.injEq, List.mem_singleton, List.not_mem_nil, or_false] at hs
  show 0 ≤ v ∧ v ≤ 7
  omega

theorem state_mem_of_val (v : Int) (h0 : 0 ≤ v) (h7 : v ≤ 7) :
    (⟨v⟩ : Data_state) ∈ [Data_state.OverflowUnit, Data_state.Digit1, Data_state.Digit2,
      Data_state.Digit3, Data_state.Digit4, Data_state.Digit5, Data_state.Digit6,
      Data_state.Init] := by
  simp only [Data_state.OverflowUnit, Data_state.Digit6, Data_state.Digit5, Data_state.Digit4,
    Data_state.Digit3, Data_state.Digit2, Data_state.Digit1, Data_state.Init, List.mem_cons,
    Data_state.mk.injEq, List.mem_singleton, List.not_mem_nil, or_false]
  omega

theorem set_digit_length (d : Bus_decoder) (n out : Int) :
    (set_digit d n out).reading_.length = d.reading_.length := by
  obtain ⟨s, buf, dp, c⟩ := d
  rw [set_digit_mk]
  show (store_at _ _ _).length = buf.length
  rw [store_at_length]
  split_ifs
  · rw [store_at_length]
  · rfl

theorem set_digit_dp (d : Bus_decoder) (n out : Int) :
    (set_digit d n out).decimal_point_digit_ = d.decimal_point_digit_ := by
  obtain ⟨s, buf, dp, c⟩ := d
  rw [set_digit_mk]

theorem set_unit_length_15 (s : Data_state) (buf : List Nat) (dp : Int) (c : Bool) (unit : Unit)
    (hlen : buf.length = 15) :
    (set_unit ⟨s, buf, dp, c⟩ unit).reading_.length = 15 := by
  obtain ⟨c0, c1, c2, c3, c4, c5, c6, c7, c8, c9, c10, c11, c12, c13, c14, rfl⟩ :=
    list_length_15 buf hlen
  rw [set_unit_mk]
  cases unit <;> by_cases h0 : dp = 0 <;>
    simp [h0, unit_text_ms, unit_text_us, unit_text_MHz, unit_text_kHz, unit_text_None]

theorem safe_transit (d : Bus_decoder) (inp : Input_state) (h : safe d) :
    safe (transit d inp) := by
  have hv := safe_state_val d h
  obtain ⟨⟨v⟩, buf, dp, c⟩ := d
  obtain ⟨_, hd0, hd6, hlen⟩ := h
  simp only at hv hd0 hd6 hlen
  have hcase : v = 7 ∨ (1 ≤ v ∧ v ≤ 6) ∨ v = 0 := by omega
  rcases hcase with rfl | ⟨h1, h6⟩ | rfl
  · rw [transit_mk_init]
    split_ifs
    · exact ⟨state_mem_of_val 6 (by decide) (by decide), le_refl 0, by show (0 : Int) ≤ 6; decide, hlen⟩
    · exact ⟨state_mem_of_val 7 (by decide) (by decide), hd0, hd6, hlen⟩
  · rw [transit_mk_digit v h1 h6]
    by_cases hs1 : inp.digit_strobe = v
    · rw [if_pos hs1]
      refine ⟨?_, ?_, ?_, ?_⟩
      · rw [set_digit_state]; exact state_mem_of_val v (by omega) (by omega)
      · rw [set_digit_dp]; show 0 ≤ (if inp.decimal_strobe = true then v else dp)
        split_ifs <;> omega
      · rw [set_digit_dp]; show (if inp.decimal_strobe = true then v else dp) ≤ 6
        split_ifs <;> omega
      · rw [set_digit_length]; exact hlen
    · rw [if_neg hs1]
      split_ifs
      · exact ⟨state_mem_of_val (v - 1) (by omega) (by omega), hd0, hd6, hlen⟩
      · exact ⟨state_mem_of_val v (by omega) (by omega), hd0, hd6, hlen⟩
  · obtain ⟨c0, c1, c2, c3, c4, c5, c6, c7, c8, c9, c10, c11, c12, c13, c14, rfl⟩ :=
      list_length_15 buf hlen
    rw [transit_mk_overflow, set_overflow_mk]
    refine ⟨state_mem_of_val 7 (by decide) (by decide), ?_, ?_, ?_⟩
    · rw [set_unit_mk]; exact hd0
    · rw [set_unit_mk]; exact hd6
    · exact set_unit_length_15 _ _ _ _ _ rfl

theorem safe_run (inps : List Input_state) : ∀ d : Bus_decoder, safe d → safe (run d inps) := by
  induction inps with
  | nil => intro d h; exact h
  | cons a l ih => intro d h; rw [run_cons]; exact ih _ (safe_transit d a h)

theorem print_unit_string_writes_at_7 (c0 c1 c2 c3 c4 c5 c6 c7 c8 c9 c10 c11 c12 c13 c14 : Nat)
    (unit : Unit) :
    print_unit_string_writes
        [c0, c1, c2, c3, c4, c5, c6, c7, c8, c9, c10, c11, c12, c13, c14] 7 8 unit crlf
      = List.range' 7 ((unit_text unit).length + 1)
          ++ List.range' (7 + (unit_text unit).length) 3 := by
  cases unit <;> rfl

theorem print_unit_string_writes_at_8 (c0 c1 c2 c3 c4 c5 c6 c7 c8 c9 c10 c11 c12 c13 c14 : Nat)
    (unit : Unit) :
    print_unit_string_writes
        [c0, c1, c2, c3, c4, c5, c6, c7, c8, c9, c10, c11, c12, c13, c14] 8 7 unit crlf
      = List.range' 8 ((unit_text unit).length + 1)
          ++ List.range' (8 + (unit_text unit).length) 3 := by
  cases unit <;> rfl

theorem transit_writes_in_bounds (d : Bus_decoder) (inp : Input_state) (h : safe d) :
    ∀ i ∈ transit_writes d inp, 0 ≤ i ∧ i ≤ 14 := by
  have hv := safe_state_val d h
  obtain ⟨⟨v⟩, buf, dp, c⟩ := d
  obtain ⟨_, hd0, hd6, hlen⟩ := h
  simp only at hv hd0 hd6 hlen
  have hcase : v = 7 ∨ (1 ≤ v ∧ v ≤ 6) ∨ v = 0 := by omega
  intro i hi
  rcases hcase with rfl | ⟨h1, h6⟩ | rfl
  · simp [transit_writes, Data_state.Init] at hi
  · have h7 : v ≠ 7 := by omega
    have hdig : v = 6 ∨ v = 5 ∨ v = 4 ∨ v = 3 ∨ v = 2 ∨ v = 1 := by omega
    simp only [transit_writes, Data_state.Init, Data_state.Digit6, Data_state.Digit5,
      Data_state.Digit4, Data_state.Digit3, Data_state.Digit2, Data_state.Digit1,
      Data_state.to_integral, Data_state.mk.injEq, h7, hdig, if_true, if_false] at hi
    by_cases hs : inp.digit_strobe = v
    · simp only [hs, if_true, get_index, has_decimal_point, number_of_digits,
        List.mem_append, List.mem_singleton] at hi
      rcases hi with hi | hi
      · split_ifs at hi <;> simp at hi <;> omega
      · subst hi
        split_ifs <;> omega
    · simp [hs] at hi
  · obtain ⟨c0, c1, c2, c3, c4, c5, c6, c7, c8, c9, c10, c11, c12, c13, c14, rfl⟩ :=
      list_length_15 buf hlen
    have hlu := unit_text_length_le (get_unit inp.nml inp.rng_2 false)
    have hlv := unit_text_length_le (get_unit inp.nml inp.rng_2 true)
    simp only [transit_writes, Data_state.Init, Data_state.Digit6, Data_state.Digit5,
      Data_state.Digit4, Data_state.Digit3, Data_state.Digit2, Data_state.Digit1,
      Data_state.OverflowUnit, Data_state.mk.injEq, set_overflow_mk, get_index,
      has_decimal_point, number_of_digits, max_reading_size, max_unit_length] at hi
    by_cases h0 : dp = 0
    · subst h0
      simp [print_unit_string_writes_at_7, List.mem_range'_1] at hi
      rcases hi with rfl | ⟨j, hj, rfl⟩ | ⟨j, hj, rfl⟩ <;> omega
    · simp [h0, print_unit_string_writes_at_8, List.mem_range'_1] at hi
      rcases hi with rfl | ⟨j, hj, rfl⟩ | ⟨j, hj, rfl⟩ <;> omega


theorem overflow_transit_text (d : Bus_decoder) (inp : Input_state)
    (hs : d.state_ = Data_state.OverflowUnit) (hlen : d.reading_.length = 15) :
    (((transit d inp).reading_.drop (if d.has_decimal_point then 8 else 7)).take
        ((unit_text (get_unit inp.nml inp.rng_2 d.has_decimal_point)).length + 3)
        = unit_text (get_unit inp.nml inp.rng_2 d.has_decimal_point) ++ [13, 10, 0])
      ∧ (if d.has_decimal_point then 8 else 7)
          + (unit_text (get_unit inp.nml inp.rng_2 d.has_decimal_point)).length + 3 ≤ 15
      ∧ (transit d inp).state_ = Data_state.Init := by
  obtain ⟨⟨v⟩, buf, dp, c⟩ := d
  simp only [Data_state.OverflowUnit, Data_state.mk.injEq] at hs
  subst hs
  obtain ⟨c0, c1, c2, c3, c4, c5, c6, c7, c8, c9, c10, c11, c12, c13, c14, rfl⟩ :=
    list_length_15 buf hlen
  rw [transit_mk_overflow, set_overflow_mk, set_unit_mk]
  by_cases h0 : dp = 0
  · subst h0
    simp [has_decimal_point, get_unit, unit_text_None, Data_state.Init]
  · cases hn : inp.nml <;> cases hr : inp.rng_2 <;>
      simp [has_decimal_point, h0, get_unit, Unit.of_integral, unit_text_ms,
        unit_text_us, unit_text_MHz, unit_text_kHz, Data_state.Init]

/-! ## Main loop -/

theorem store_count_append (a b : List Event) :
    store_count (a ++ b) = store_count a + store_count b := by
  simp [store_count, List.filter_append]

theorem tx_events_append (a b : List Event) (ha : tx_events a) (hb : tx_events b) :
    tx_events (a ++ b) := by
  intro e he
  rcases List.mem_append.1 he with h | h
  · exact ha e h
  · exact hb e h

theorem send_bits_total (fuel : Nat) :
    ∀ (s : Serial_transmitter) (bit port : Nat), s.bits_to_transmit_.toNat < fuel →
      ∃ r, send_bits fuel s bit port = some r ∧ tx_events r.2.2.2
        ∧ store_count r.2.2.2 = s.bits_to_transmit_.toNat
        ∧ r.1.transmit_complete = true := by
  induction fuel with
  | zero => intro s bit port h; omega
  | succ fuel ih =>
    intro s bit port h
    by_cases hpos : 0 < s.bits_to_transmit_
    · have hg := get_next_bit_of_pos s bit hpos
      simp only [send_bits, hg, if_true]
      obtain ⟨r, hr, he, hc, hd⟩ := ih ⟨u16_shr s.transmit_data_ 1, s.bits_to_transmit_ - 1⟩
        (s.transmit_data_ % 2) (store_tx_bit port (s.transmit_data_ % 2))
        (by show (s.bits_to_transmit_ - 1).toNat < fuel; omega)
      rw [hr]
      refine ⟨_, rfl, ?_, ?_, hd⟩
      · intro e hm
        simp only [Option.map_some', List.mem_cons] at hm
        rcases hm with rfl | rfl | hm
        · exact Or.inl rfl
        · exact Or.inr rfl
        · exact he e hm
      · simp only [store_count, List.filter_cons, Event.is_store] at hc ⊢
        simp only [Bool.false_eq_true, if_false, if_true, List.length_cons, hc]
        show (s.bits_to_transmit_ - 1).toNat + 1 = s.bits_to_transmit_.toNat
        omega
    · have hcomp : s.transmit_complete = true := by
        simp only [Serial_transmitter.transmit_complete, decide_eq_true_eq]; omega
      have hg := get_next_bit_of_complete s bit hcomp
      simp only [send_bits, hg, Bool.false_eq_true, if_false]
      refine ⟨_, rfl, ?_, ?_, hcomp⟩
      · intro e hm; simp at hm
      · simp only [store_count, List.filter_nil, List.length_nil]; omega

theorem send_character_total (s : Serial_transmitter) (port character : Nat) :
    ∃ r, send_character s port character = some r ∧ tx_events r.2.2
      ∧ store_count r.2.2 = 10 := by
  obtain ⟨r, hr, he, hc, _⟩ := send_bits_total
    ((s.init_transmission (character : Int)).bits_to_transmit_.toNat + 1)
    (s.init_transmission (character : Int)) 0 port (Nat.lt_succ_self _)
  simp only [send_character, hr, Option.map_some']
  refine ⟨_, rfl, ?_, ?_⟩
  · apply tx_events_append _ _ he
    intro e hm
    simp only [List.mem_cons, List.mem_singleton, List.not_mem_nil, or_false] at hm
    rcases hm with rfl | rfl
    · exact Or.inl rfl
    · exact Or.inr rfl
  · rw [store_count_append, hc, init_counter]
    rfl

theorem send_reading_total (cs : List Nat) :
    ∀ (s : Serial_transmitter) (port : Nat),
      ∃ r, send_reading cs s port = some r ∧ tx_events r.2.2
        ∧ store_count r.2.2 = 10 * cs.length := by
  induction cs with
  | nil =>
    intro s port
    exact ⟨_, rfl, fun e hm => by simp at hm, rfl⟩
  | cons c cs ih =>
    intro s port
    obtain ⟨r, hr, he, hc⟩ := send_character_total s port c
    obtain ⟨q, hq, hqe, hqc⟩ := ih r.1 r.2.1
    simp only [send_reading, hr, Option.some_bind, hq, Option.map_some']
    refine ⟨_, rfl, tx_events_append _ _ he hqe, ?_⟩
    rw [store_count_append, hc, hqc, List.length_cons]
    ring

theorem tx_event_not_transit (e : Event) (h : e = Event.go_to_sleep ∨ e.is_store = true) :
    e.is_transit = false := by
  rcases h with rfl | h
  · rfl
  · cases e <;> first | rfl | simp [Event.is_store] at h

/-! ## Bus decoder: scans -/

theorem store_at_overwrite (mem : List Nat) (i : Int) (a b : Nat) :
    store_at (store_at mem i b) i a = store_at mem i a := by
  unfold store_at
  split_ifs
  · rw [List.set_set]
  · rfl

theorem transit_digit_congr (d : Bus_decoder) (a b : Input_state)
    (h1 : 1 ≤ d.state_.val) (h6 : d.state_.val ≤ 6)
    (hs : a.digit_strobe = b.digit_strobe) (ho : a.out = b.out)
    (hd : a.decimal_strobe = b.decimal_strobe) :
    transit d a = transit d b := by
  obtain ⟨⟨v⟩, buf, dp, c⟩ := d
  rw [transit_mk_digit v h1 h6, transit_mk_digit v h1 h6, hs, ho, hd]

theorem store_at_dot_digit_twice (mem : List Nat) (i j : Int) (x a b : Nat) (hi : 0 ≤ i)
    (hj : 0 ≤ j) (hij : i ≠ j) :
    store_at (store_at (store_at (store_at mem i x) j a) i x) j b
      = store_at (store_at mem i x) j b := by
  rw [store_at_comm (store_at mem i x) j i a x hj hi (Ne.symm hij), store_at_overwrite,
    store_at_overwrite]

/-- Two samples of the awaited position in a row come to one sample with
the digit value of the second and the decimal strobe of either. -/
theorem transit_record_twice (n : Int) (h1 : 1 ≤ n) (h6 : n ≤ 6) (buf : List Nat) (dp : Int)
    (c : Bool) (a b : Input_state) (ha : a.digit_strobe = n) (hb : b.digit_strobe = n) :
    transit (transit ⟨⟨n⟩, buf, dp, c⟩ a) b
      = transit ⟨⟨n⟩, buf, dp, c⟩
          ⟨n, b.out, a.decimal_strobe || b.decimal_strobe, false, false, false⟩ := by
  rw [transit_mk_digit n h1 h6, if_pos ha, set_digit_mk, transit_mk_digit n h1 h6, if_pos hb,
    set_digit_mk, transit_mk_digit n h1 h6, if_pos rfl, set_digit_mk]
  have hn0 : n ≠ 0 := by omega
  have hij : (7 : Int) - n ≠ 7 + 1 - n := by omega
  have hi : (0 : Int) ≤ 7 - n := by omega
  have hj : (0 : Int) ≤ 7 + 1 - n := by omega
  have h4 := store_at_dot_digit_twice buf (7 - n) (7 + 1 - n) 46 (to_char (48 + a.out))
    (to_char (48 + b.out)) hi hj hij
  have h3 : store_at (store_at (store_at buf (7 + 1 - n) (to_char (48 + a.out))) (7 - n) 46)
      (7 + 1 - n) (to_char (48 + b.out))
      = store_at (store_at buf (7 - n) 46) (7 + 1 - n) (to_char (48 + b.out)) := by
    rw [store_at_comm buf (7 + 1 - n) (7 - n) _ 46 hj hi (Ne.symm hij), store_at_overwrite]
  by_cases hpn : n = dp
  · subst hpn
    cases hda : a.decimal_strobe <;> cases hdb : b.decimal_strobe <;>
      simp only [hn0, Bool.false_eq_true, if_false, if_true, ne_eq,
        not_false_eq_true, Bool.or_false, Bool.or_true, Bool.or_self, h4]
  · by_cases hp0 : dp = 0
    · subst hp0
      cases hda : a.decimal_strobe <;> cases hdb : b.decimal_strobe <;>
        simp only [hn0, hpn, Bool.false_eq_true, if_false, if_true, ne_eq, not_true_eq_false,
          not_false_eq_true, Bool.or_false, Bool.or_true, Bool.or_self, add_zero,
          store_at_overwrite, h4, h3]
    · cases hda : a.decimal_strobe <;> cases hdb : b.decimal_strobe <;>
        simp only [hn0, hpn, hp0, Bool.false_eq_true, if_false, if_true, ne_eq,
          not_true_eq_false, not_false_eq_true, Bool.or_false, Bool.or_true, Bool.or_self,
          store_at_overwrite, h4, h3]

theorem transit_record_state (n : Int) (h1 : 1 ≤ n) (h6 : n ≤ 6) (x : Bus_decoder)
    (hx : x.state_ = ⟨n⟩) (a : Input_state) (ha : a.digit_strobe = n) :
    (transit x a).state_ = ⟨n⟩ := by
  obtain ⟨⟨v⟩, buf, dp, c⟩ := x
  simp only [Data_state.mk.injEq] at hx
  subst hx
  rw [transit_mk_digit v h1 h6, if_pos ha, set_digit_state]

/-- A snapshot of a position that is neither the awaited one nor the next
leaves the decoder as it is. -/
theorem transit_glitch (n : Int) (h1 : 1 ≤ n) (h6 : n ≤ 6) (x : Bus_decoder)
    (hx : x.state_ = ⟨n⟩) (a : Input_state) (ha : a.digit_strobe ≠ n)
    (hb : a.digit_strobe ≠ n - 1) : transit x a = x := by
  obtain ⟨⟨v⟩, buf, dp, c⟩ := x
  simp only [Data_state.mk.injEq] at hx
  subst hx
  rw [transit_mk_digit v h1 h6, if_neg ha, if_neg hb]

/-- A snapshot of the next position moves the decoder on and changes
nothing else. -/
theorem transit_advance (n : Int) (h1 : 1 ≤ n) (h6 : n ≤ 6) (x : Bus_decoder)
    (hx : x.state_ = ⟨n⟩) (a : Input_state) (ha : a.digit_strobe = n - 1) :
    transit x a = { x with state_ := ⟨n - 1⟩ } := by
  obtain ⟨⟨v⟩, buf, dp, c⟩ := x
  simp only [Data_state.mk.injEq] at hx
  subst hx
  rw [transit_mk_digit v h1 h6, if_neg (by omega), if_pos ha]

theorem run_stay_filter (n : Int) (h1 : 1 ≤ n) (h6 : n ≤ 6) (l : List Input_state) :
    ∀ x : Bus_decoder, x.state_ = ⟨n⟩ → (∀ s ∈ l, s.digit_strobe ≠ n - 1) →
      run x l = run x (l.filter fun s => decide (s.digit_strobe = n)) := by
  induction l with
  | nil => intro x _ _; rfl
  | cons a l ih =>
    intro x hx hl
    have hl2 : ∀ s ∈ l, s.digit_strobe ≠ n - 1 := fun s hs => hl s (by simp [hs])
    by_cases ha : a.digit_strobe = n
    · rw [List.filter_cons_of_pos (by simpa using ha), run_cons, run_cons]
      exact ih _ (transit_record_state n h1 h6 x hx a ha) hl2
    · rw [List.filter_cons_of_neg (by simpa using ha), run_cons,
        transit_glitch n h1 h6 x hx a ha (hl a (by simp))]
      exact ih x hx hl2

theorem run_recorded (n : Int) (h1 : 1 ≤ n) (h6 : n ≤ 6) (buf : List Nat) (dp : Int) (c : Bool)
    (l : List Input_state) :
    ∀ a : Input_state, (∀ s ∈ a :: l, s.digit_strobe = n) →
      run ⟨⟨n⟩, buf, dp, c⟩ (a :: l)
        = transit ⟨⟨n⟩, buf, dp, c⟩
            ⟨n, (((a :: l).getLast?).map fun s => s.out).getD 0,
              (a :: l).any fun s => s.decimal_strobe, false, false, false⟩ := by
  induction l with
  | nil =>
    intro a ha
    rw [run_cons]
    show transit _ a = _
    apply transit_digit_congr _ _ _ h1 h6
    · exact ha a (by simp)
    · simp
    · simp
  | cons b l ih =>
    intro a ha
    have hb : b.digit_strobe = n := ha b (by simp)
    rw [run_cons, run_cons, transit_record_twice n h1 h6 buf dp c a b (ha a (by simp)) hb,
      ← run_cons, ih]
    · congr 1
      cases l <;> simp [Bool.or_assoc]
    · intro s hs
      rcases List.mem_cons.1 hs with rfl | hs
      · rfl
      · exact ha s (by simp [hs])

/-- The snapshots fed in the state of position `n` come to one sample of
position `n` with the last recorded digit value and the decimal strobe of
any recorded sample. -/
theorem run_window (q : Scan) (n : Nat) (h1 : 1 ≤ n) (h6 : n ≤ 6)
    (hno : ∀ s ∈ q.stay n, s.digit_strobe ≠ (n : Int) - 1) (hrec : q.recorded n ≠ [])
    (x : Bus_decoder) (hx : x.state_ = ⟨(n : Int)⟩) (aux : Input_state) :
    run x (q.stay n) = transit x (digit_sample aux n (q.digit n) (q.decimal n)) := by
  have hn1 : (1 : Int) ≤ n := by omega
  have hn6 : (n : Int) ≤ 6 := by omega
  rw [run_stay_filter n hn1 hn6 _ x hx hno]
  obtain ⟨⟨v⟩, buf, dp, c⟩ := x
  simp only [Data_state.mk.injEq] at hx
  subst hx
  have hall : ∀ s ∈ q.recorded n, s.digit_strobe = (n : Int) := by
    intro s hs
    simpa using (List.mem_filter.1 hs).2
  unfold Scan.digit Scan.decimal
  change run _ (q.recorded n) = _
  cases hr : q.recorded n with
  | nil => exact absurd hr hrec
  | cons a l =>
    rw [hr] at hall
    rw [run_recorded n hn1 hn6 buf dp c l a hall]
    apply transit_digit_congr _ _ _ hn1 hn6 <;> rfl

theorem scan_p_le (q : Scan) : q.p ≤ 6 := by
  unfold Scan.p
  cases h6 : q.decimal 6 <;> cases h5 : q.decimal 5 <;> cases h4 : q.decimal 4 <;>
    cases h3 : q.decimal 3 <;> cases h2 : q.decimal 2 <;> cases h1 : q.decimal 1 <;>
    simp [List.find?, h6, h5, h4, h3, h2, h1]

theorem scan_decimal_eq (q : Scan) (h : ([6, 5, 4, 3, 2, 1].filter q.decimal).length ≤ 1) :
    ∀ n ∈ [6, 5, 4, 3, 2, 1], decide (n = q.p) = q.decimal n := by
  unfold Scan.p
  cases h6 : q.decimal 6 <;> cases h5 : q.decimal 5 <;> cases h4 : q.decimal 4 <;>
    cases h3 : q.decimal 3 <;> cases h2 : q.decimal 2 <;> cases h1 : q.decimal 1 <;>
    simp [List.find?, List.filter, h6, h5, h4, h3, h2, h1] at h ⊢

theorem run_window_step (q : Scan) (n : Nat) (h1 : 1 ≤ n) (h6 : n ≤ 6)
    (hno : ∀ s ∈ q.stay n, s.digit_strobe ≠ (n : Int) - 1)
    (hadv : (q.advance (n - 1)).digit_strobe = (n : Int) - 1)
    (hrec : q.recorded n ≠ [])
    (aux s : Input_state) (hs : s.digit_strobe = (n : Int) - 1)
    (rest rest2 : List Input_state)
    (hrest : ∀ y : Bus_decoder, y.state_ = ⟨(n : Int) - 1⟩ → run y rest = run y rest2)
    (x : Bus_decoder) (hx : x.state_ = ⟨(n : Int)⟩) :
    run x (q.stay n ++ q.advance (n - 1) :: rest)
      = run x (digit_sample aux n (q.digit n) (q.decimal n) :: s :: rest2) := by
  have hn1 : (1 : Int) ≤ n := by omega
  have hn6 : (n : Int) ≤ 6 := by omega
  rw [run_append, run_window q n h1 h6 hno hrec x hx aux, run_cons, run_cons, run_cons]
  have hy : (transit x (digit_sample aux n (q.digit n) (q.decimal n))).state_ = ⟨(n : Int)⟩ :=
    transit_record_state n hn1 hn6 x hx _ rfl
  rw [transit_advance n hn1 hn6 _ hy _ hadv, transit_advance n hn1 hn6 _ hy _ hs]
  exact hrest _ rfl

theorem run_final (q : Scan) (aux : Input_state) (y : Bus_decoder) (hy : y.state_ = ⟨0⟩) :
    run y [q.final]
      = run y [unit_sample aux q.final.overflow q.final.nml q.final.rng_2] := by
  obtain ⟨⟨v⟩, buf, dp, c⟩ := y
  simp only [Data_state.mk.injEq] at hy
  subst hy
  rw [run_cons, run_cons, transit_mk_overflow, transit_mk_overflow]
  rfl

/-- From `Digit6`, the windows and the final snapshot of a regular scan
that records every position come to the well-formed pass with the scan's
digits, decimal position and final lines, less its first sample. -/
theorem run_scan_windows (q : Scan) (hq : q.regular) (hf : q.records_all) (aux : Nat → Input_state)
    (x : Bus_decoder) (hx : x.state_ = ⟨6⟩) :
    run x (q.windows [6, 5, 4, 3, 2, 1] ++ [q.final])
      = run x (pass q.digit q.p q.final.overflow q.final.nml q.final.rng_2 aux).tail := by
  obtain ⟨hw, hdp⟩ := hq
  have hdec := scan_decimal_eq q hdp
  have e1 : q.windows [6, 5, 4, 3, 2, 1] ++ [q.final]
      = q.stay 6 ++ q.advance (6 - 1) :: (q.stay 5 ++ q.advance (5 - 1) :: (q.stay 4
          ++ q.advance (4 - 1) :: (q.stay 3 ++ q.advance (3 - 1) :: (q.stay 2
          ++ q.advance (2 - 1) :: (q.stay 1 ++ q.advance (1 - 1) :: [q.final]))))) := by
    simp [Scan.windows]
  have e2 : (pass q.digit q.p q.final.overflow q.final.nml q.final.rng_2 aux).tail
      = digit_sample (aux (2 * 6)) 6 (q.digit 6) (decide (6 = q.p))
        :: digit_sample (aux (2 * 5 + 1)) 5 (q.digit 5) (decide (5 = q.p))
        :: digit_sample (aux (2 * 5)) 5 (q.digit 5) (decide (5 = q.p))
        :: digit_sample (aux (2 * 4 + 1)) 4 (q.digit 4) (decide (4 = q.p))
        :: digit_sample (aux (2 * 4)) 4 (q.digit 4) (decide (4 = q.p))
        :: digit_sample (aux (2 * 3 + 1)) 3 (q.digit 3) (decide (3 = q.p))
        :: digit_sample (aux (2 * 3)) 3 (q.digit 3) (decide (3 = q.p))
        :: digit_sample (aux (2 * 2 + 1)) 2 (q.digit 2) (decide (2 = q.p))
        :: digit_sample (aux (2 * 2)) 2 (q.digit 2) (decide (2 = q.p))
        :: digit_sample (aux (2 * 1 + 1)) 1 (q.digit 1) (decide (1 = q.p))
        :: digit_sample (aux (2 * 1)) 1 (q.digit 1) (decide (1 = q.p))
        :: unit_sample (aux 1) q.final.overflow q.final.nml q.final.rng_2
        :: [unit_sample (aux 0) q.final.overflow q.final.nml q.final.rng_2] := rfl
  rw [e1, e2, hdec 6 (by simp), hdec 5 (by simp), hdec 4 (by simp), hdec 3 (by simp),
    hdec 2 (by simp), hdec 1 (by simp)]
  obtain ⟨a6, b6, _⟩ := hw 6 (by simp)
  have c6 := hf 6 (by simp)
  obtain ⟨a5, b5, _⟩ := hw 5 (by simp)
  have c5 := hf 5 (by simp)
  obtain ⟨a4, b4, _⟩ := hw 4 (by simp)
  have c4 := hf 4 (by simp)
  obtain ⟨a3, b3, _⟩ := hw 3 (by simp)
  have c3 := hf 3 (by simp)
  obtain ⟨a2, b2, _⟩ := hw 2 (by simp)
  have c2 := hf 2 (by simp)
  obtain ⟨a1, b1, _⟩ := hw 1 (by simp)
  have c1 := hf 1 (by simp)
  refine run_window_step q 6 (by norm_num) (by norm_num) a6 b6 c6 _ _ rfl _ _ ?_ x
    (by simpa using hx)
  intro y hy
  refine run_window_step q 5 (by norm_num) (by norm_num) a5 b5 c5 _ _ rfl _ _ ?_ y
    (by rw [hy]; norm_num)
  intro y hy
  refine run_window_step q 4 (by norm_num) (by norm_num) a4 b4 c4 _ _ rfl _ _ ?_ y
    (by rw [hy]; norm_num)
  intro y hy
  refine run_window_step q 3 (by norm_num) (by norm_num) a3 b3 c3 _ _ rfl _ _ ?_ y
    (by rw [hy]; norm_num)
  intro y hy
  refine run_window_step q 2 (by norm_num) (by norm_num) a2 b2 c2 _ _ rfl _ _ ?_ y
    (by rw [hy]; norm_num)
  intro y hy
  refine run_window_step q 1 (by norm_num) (by norm_num) a1 b1 c1 _ _ rfl _ _ ?_ y
    (by rw [hy]; norm_num)
  intro y hy
  exact run_final q _ y (by rw [hy]; norm_num)

theorem run_pass_head_digit6 (digit : Nat → Int) (p : Nat) (overflow nml rng_2 : Bool)
    (aux : Nat → Input_state) (x : Bus_decoder) (hx : x.state_ = ⟨6⟩) :
    run x (pass digit p overflow nml rng_2 aux)
      = run x (pass digit p overflow nml rng_2 aux).tail := by
  obtain ⟨⟨v⟩, buf, dp, c⟩ := x
  simp only [Data_state.mk.injEq] at hx
  subst hx
  have e : pass digit p overflow nml rng_2 aux
      = digit_sample (aux (2 * 6 + 1)) 6 (digit 6) (decide (6 = p))
        :: digit_sample (aux (2 * 6)) 6 (digit 6) (decide (6 = p))
        :: (pass digit p overflow nml rng_2 aux).tail.tail := rfl
  have e2 : (pass digit p overflow nml rng_2 aux).tail
      = digit_sample (aux (2 * 6)) 6 (digit 6) (decide (6 = p))
        :: (pass digit p overflow nml rng_2 aux).tail.tail := rfl
  rw [e2]
  nth_rewrite 1 [e]
  rw [run_cons, run_cons, run_cons,
    transit_record_twice 6 (by norm_num) (by norm_num) buf dp c _ _ rfl rfl]
  congr 1
  apply transit_digit_congr _ _ _ (by norm_num) (by norm_num)
  · rfl
  · rfl
  · simp [digit_sample]

theorem run_pass_head_init (digit : Nat → Int) (p : Nat) (overflow nml rng_2 : Bool)
    (aux : Nat → Input_state) (buf : List Nat) (dp : Int) (c : Bool) :
    run ⟨⟨7⟩, buf, dp, c⟩ (pass digit p overflow nml rng_2 aux)
      = run ⟨⟨6⟩, buf, 0, c⟩ (pass digit p overflow nml rng_2 aux).tail := by
  have e : pass digit p overflow nml rng_2 aux
      = digit_sample (aux (2 * 6 + 1)) 6 (digit 6) (decide (6 = p))
        :: (pass digit p overflow nml rng_2 aux).tail := rfl
  nth_rewrite 1 [e]
  rw [run_cons, transit_mk_init]
  rfl

theorem run_ignored (buf : List Nat) (dp : Int) (c : Bool) (l : List Input_state)
    (h : ∀ s ∈ l, s.digit_strobe ≠ 6) : run ⟨⟨7⟩, buf, dp, c⟩ l = ⟨⟨7⟩, buf, dp, c⟩ := by
  induction l with
  | nil => rfl
  | cons a l ih =>
    rw [run_cons, transit_mk_init, if_neg (h a (by simp))]
    exact ih fun s hs => h s (by simp [hs])

theorem run_lead (q : Scan) (ht : q.triggered) (buf : List Nat) (dp : Int) (c : Bool) :
    run ⟨⟨7⟩, buf, dp, c⟩ q.lead = ⟨⟨6⟩, buf, 0, c⟩ := by
  obtain ⟨hl, hi⟩ := ht
  cases hg : q.lead.getLast? with
  | none => rw [hg] at hl; simp at hl
  | some a =>
    rw [hg] at hl
    have ha : a.digit_strobe = 6 := by simpa using hl
    have e := List.dropLast_append_getLast? a hg
    rw [← e, run_append, run_ignored buf dp c _ hi, run_cons, transit_mk_init, if_pos ha]
    rfl

/-- A regular scan without lead that records every position, fed in
`Digit6`, leaves the decoder the well-formed pass with its digits leaves. -/
theorem run_scan_first (q : Scan) (hl : q.lead = []) (hq : q.regular) (hf : q.records_all)
    (aux : Nat → Input_state) (x : Bus_decoder) (hx : x.state_ = Data_state.Digit6) :
    run x q.samples = run x (pass q.digit q.p q.final.overflow q.final.nml q.final.rng_2 aux) := by
  rw [run_pass_head_digit6 _ _ _ _ _ _ x hx, ← run_scan_windows q hq hf aux x hx]
  simp [Scan.samples, hl]

/-- A regular scan that records every position, fed in `Init`, leaves the
decoder the well-formed pass with its digits leaves. -/
theorem run_scan_triggered (q : Scan) (ht : q.triggered) (hq : q.regular) (hf : q.records_all)
    (aux : Nat → Input_state) (x : Bus_decoder) (hx : x.state_ = Data_state.Init) :
    run x q.samples = run x (pass q.digit q.p q.final.overflow q.final.nml q.final.rng_2 aux) := by
  obtain ⟨⟨v⟩, buf, dp, c⟩ := x
  simp only [Data_state.Init, Data_state.mk.injEq] at hx
  subst hx
  rw [run_pass_head_init, ← run_scan_windows q hq hf aux _ rfl]
  simp only [Scan.samples, List.append_assoc, run_append, run_lead q ht]

theorem reading_after_pass_of (d : Bus_decoder) (hlen : d.reading_.length = 15)
    (hst : d.state_ = Data_state.Init
      ∨ (d.state_ = Data_state.Digit6 ∧ d.decimal_point_digit_ = 0))
    (digit : Nat → Int) (p : Nat) (overflow nml rng_2 : Bool)
    (aux : Nat → Input_state) (hp : p ≤ 6)
    (hd : ∀ n ∈ [6, 5, 4, 3, 2, 1], to_char (48 + digit n) ≠ 0) :
    (run d (pass digit p overflow nml rng_2 aux)).reading
      = pass_line digit p overflow nml rng_2 := by
  rw [run_pass d hlen hst digit p overflow nml rng_2 aux hp]
  simp only [reading, if_true, List.append_assoc, List.singleton_append]
  apply c_str_append_nul
  apply reading_line_ne_zero
  intro x hx
  simp only [List.mem_map] at hx
  obtain ⟨n, hn, rfl⟩ := hx
  exact hd n hn

theorem line_format_pass_line_of (digit : Nat → Int) (p : Nat) (overflow nml rng_2 : Bool)
    (hp : p ≤ 6) (hd : ∀ n ∈ [6, 5, 4, 3, 2, 1], 0 ≤ digit n ∧ digit n ≤ 9) :
    line_format (pass_line digit p overflow nml rng_2) := by
  have e : pass_line digit p overflow nml rng_2
      = pass_line (fun n => ((min 9 (digit n).toNat : Nat) : Int)) p overflow nml rng_2 := by
    unfold pass_line
    congr 1
    apply List.map_congr_left
    intro n hn
    have := hd n hn
    show to_char (48 + digit n) = to_char (48 + ((min 9 (digit n).toNat : Nat) : Int))
    congr 2
    omega
  rw [e]
  exact line_format_pass_line ⟨fun n => min 9 (digit n).toNat, p, overflow, nml, rng_2,
    fun _ => idle⟩ ⟨hp, fun n => Nat.min_le_left _ _⟩

/-! ## Bus decoder: a line kept by further scans -/

theorem pass_line_eq (g : Nat → Int) (p : Nat) (ov nml rng : Bool) (rest : List Nat) :
    pass_line g p ov nml rng ++ rest
      = indicator ov :: line_body g p
          ++ (unit_text (get_unit nml rng (decide (p ≠ 0))) ++ [13, 10] ++ rest) := by
  simp [pass_line, reading_line, line_body]

theorem line_body_length (g : Nat → Int) (p : Nat) (hp : p ≤ 6) :
    (line_body g p).length = if p = 0 then 6 else 7 := by
  interval_cases p <;> rfl

set_option maxHeartbeats 4000000 in
/-- Recording a sample of the awaited position `n` whose decimal strobe is
asserted exactly if `n` is the position `P` of the decimal point of the
line in the buffer rewrites one digit character of that line. -/
theorem record_keeps_line (n P : Nat) (h1 : 1 ≤ n) (h6 : n ≤ 6) (hP : P ≤ 6) (g : Nat → Int)
    (ov nml rng : Bool) (rest : List Nat) (dp : Int) (c : Bool) (out : Int)
    (hdp : dp = 0 ∨ (dp = (P : Int) ∧ n < P)) :
    transit ⟨⟨(n : Int)⟩, pass_line g P ov nml rng ++ 0 :: rest, dp, c⟩
        ⟨n, out, decide (n = P), false, false, false⟩
      = ⟨⟨(n : Int)⟩,
          pass_line (Function.update g (if n = P ∨ dp ≠ 0 ∨ P < n then n else n + 1) out) P ov
              nml rng ++ 0 :: rest,
          if n = P then (P : Int) else dp, c⟩ := by
  rw [transit_mk_digit (n : Int) (by omega) (by omega), if_pos rfl, set_digit_mk]
  interval_cases n <;> interval_cases P <;> rcases hdp with rfl | ⟨rfl, h⟩ <;>
    first
    | omega
    | simp [pass_line, reading_line, store_at, Function.update_apply]

set_option maxHeartbeats 4000000 in
/-- A call in `OverflowUnit` with the recorded index at the decimal point of
the line in the buffer rewrites the indicator and the unit text, CR, LF,
NUL behind the digits. -/
theorem finalize_body (P : Nat) (hP : P ≤ 6) (g : Nat → Int) (ov : Bool) (T : List Nat)
    (c : Bool) (s : Input_state) (hT : T.length = if P = 0 then 8 else 7) :
    transit ⟨⟨0⟩, indicator ov :: line_body g P ++ T, (P : Int), c⟩ s
      = ⟨⟨7⟩, indicator s.overflow :: line_body g P
            ++ (unit_text (get_unit s.nml s.rng_2 (decide (P ≠ 0))) ++ [13, 10]
              ++ 0 :: T.drop ((unit_text (get_unit s.nml s.rng_2 (decide (P ≠ 0)))).length + 3)),
          (P : Int), true⟩ := by
  rw [transit_mk_overflow]
  by_cases h0 : P = 0
  · subst h0
    simp only [if_true] at hT
    match T, hT with
    | [t0, t1, t2, t3, t4, t5, t6, t7], _ =>
      simp [line_body, set_overflow_mk, set_unit_mk]
  · simp only [if_neg h0] at hT
    match T, hT with
    | [t0, t1, t2, t3, t4, t5, t6], _ =>
      interval_cases P <;> first | omega | simp [line_body, set_overflow_mk, set_unit_mk]

/-- A buffer that holds a line has a C string of the line format. -/
theorem holds_line_format (buf : List Nat) (P : Nat) (hP : P ≤ 6) (h : holds_line buf P) :
    line_format (c_str buf) := by
  obtain ⟨_, g, ov, nml, rng, rest, hg, rfl⟩ := h
  rw [c_str_append_nul]
  · exact line_format_pass_line_of g P ov nml rng hP hg
  · unfold pass_line
    apply reading_line_ne_zero
    intro x hx
    simp only [List.mem_map] at hx
    obtain ⟨n, hn, rfl⟩ := hx
    have := hg n hn
    simp only [to_char]
    omega

theorem finalize_keeps_line (P : Nat) (hP : P ≤ 6) (buf : List Nat) (hbuf : holds_line buf P)
    (c : Bool) (s : Input_state) :
    ∃ buf', holds_line buf' P
      ∧ transit ⟨⟨0⟩, buf, (P : Int), c⟩ s = ⟨⟨7⟩, buf', (P : Int), true⟩ := by
  obtain ⟨hlen, g, ov, nml, rng, rest, hg, rfl⟩ := hbuf
  rw [pass_line_eq] at hlen ⊢
  have hb := line_body_length g P hP
  have hu := unit_text_length_le (get_unit s.nml s.rng_2 (decide (P ≠ 0)))
  have hT : (unit_text (get_unit nml rng (decide (P ≠ 0))) ++ [13, 10] ++ 0 :: rest).length
      = if P = 0 then 8 else 7 := by
    simp only [List.length_cons, List.length_append, List.length_nil] at hlen
    simp only [List.length_cons, List.length_append, List.length_nil]
    split_ifs at hb ⊢ <;> omega
  rw [finalize_body P hP g ov _ c s hT]
  refine ⟨_, ⟨?_, g, s.overflow, s.nml, s.rng_2, _, hg, (pass_line_eq _ _ _ _ _ _).symm⟩, rfl⟩
  simp only [List.length_cons, List.length_append, List.length_drop, List.length_nil]
    at hlen hT ⊢
  split_ifs at hb hT <;> omega

theorem transit_digit_length (n : Int) (h1 : 1 ≤ n) (h6 : n ≤ 6) (buf : List Nat) (dp : Int)
    (c : Bool) (s : Input_state) :
    (transit ⟨⟨n⟩, buf, dp, c⟩ s).reading_.length = buf.length := by
  rw [transit_mk_digit n h1 h6]
  by_cases h : s.digit_strobe = n
  · rw [if_pos h, set_digit_length]
  · rw [if_neg h]
    split_ifs <;> rfl

/-- The snapshots fed in the state of position `n` keep a line in the
buffer when the digit value they record is in 0 .. 9 and their decimal
strobe is asserted exactly at the position of its decimal point. -/
theorem window_keeps_line (q : Scan) (n P : Nat) (h1 : 1 ≤ n) (h6 : n ≤ 6) (hP : P ≤ 6)
    (hno : ∀ s ∈ q.stay n, s.digit_strobe ≠ (n : Int) - 1)
    (hok : q.recorded n ≠ [] →
      0 ≤ q.digit n ∧ q.digit n ≤ 9 ∧ q.decimal n = decide (n = P))
    (buf : List Nat) (hbuf : holds_line buf P) (dp : Int) (c : Bool)
    (hdp : dp = 0 ∨ (dp = (P : Int) ∧ n < P)) :
    ∃ buf', holds_line buf' P
      ∧ run ⟨⟨(n : Int)⟩, buf, dp, c⟩ (q.stay n)
          = ⟨⟨(n : Int)⟩, buf', if q.recorded n ≠ [] ∧ n = P then (P : Int) else dp, c⟩ := by
  by_cases hr : q.recorded n = []
  · refine ⟨buf, hbuf, ?_⟩
    rw [run_stay_filter n (by omega) (by omega) _ _ rfl hno]
    change run _ (q.recorded n) = _
    rw [hr, if_neg (fun h => h.1 rfl)]
    rfl
  · obtain ⟨h0, h9, hd⟩ := hok hr
    obtain ⟨hlen, g, ov, nml, rng, rest, hg, rfl⟩ := hbuf
    have hrun := run_window q n h1 h6 hno hr
      ⟨⟨(n : Int)⟩, pass_line g P ov nml rng ++ 0 :: rest, dp, c⟩ rfl idle
    have hk := record_keeps_line n P h1 h6 hP g ov nml rng rest dp c (q.digit n) hdp
    have hs : digit_sample idle n (q.digit n) (decide (n = P))
        = ⟨n, q.digit n, decide (n = P), false, false, false⟩ := rfl
    have hl := transit_digit_length (n : Int) (by omega) (by omega)
      (pass_line g P ov nml rng ++ 0 :: rest) dp c
      ⟨n, q.digit n, decide (n = P), false, false, false⟩
    rw [hd, hs, hk] at hrun
    rw [hk] at hl
    refine ⟨_, ⟨hl.trans hlen, _, ov, nml, rng, rest, ?_, rfl⟩, ?_⟩
    · intro m hm
      rw [Function.update_apply]
      by_cases hm2 : m = if n = P ∨ dp ≠ 0 ∨ P < n then n else n + 1
      · rw [if_pos hm2]
        exact ⟨h0, h9⟩
      · rw [if_neg hm2]
        exact hg m hm
    · rw [hrun]
      simp [hr]

/-- The windows of consecutive positions keep a line in the buffer; the
recorded index is 0 or, below the decimal point of the line, its position,
and it is that position once the position has been recorded. -/
theorem windows_keep_line (q : Scan) (P : Nat) (hP : P ≤ 6) (ns : List Nat) :
    ∀ (n : Nat) (buf : List Nat) (dp : Int) (c : Bool),
      List.Chain (fun a b => a = b + 1) (n + 1) ns →
      (∀ m ∈ ns, 1 ≤ m ∧ m ≤ 6
        ∧ (∀ s ∈ q.stay m, s.digit_strobe ≠ (m : Int) - 1)
        ∧ (q.advance (m - 1)).digit_strobe = (m : Int) - 1
        ∧ (q.recorded m ≠ [] →
            0 ≤ q.digit m ∧ q.digit m ≤ 9 ∧ q.decimal m = decide (m = P))) →
      holds_line buf P →
      (dp = 0 ∨ (dp = (P : Int) ∧ n < P)) →
      (P ≠ 0 → n < P → q.recorded P ≠ [] → dp = (P : Int)) →
      ∃ (buf2 : List Nat) (dp2 : Int), holds_line buf2 P
        ∧ (dp2 = 0 ∨ (dp2 = (P : Int) ∧ n - ns.length < P))
        ∧ (P ≠ 0 → n - ns.length < P → q.recorded P ≠ [] → dp2 = (P : Int))
        ∧ run ⟨⟨(n : Int)⟩, buf, dp, c⟩ (q.windows ns)
            = ⟨⟨(n : Int) - ns.length⟩, buf2, dp2, c⟩ := by
  induction ns with
  | nil =>
    intro n buf dp c _ _ hbuf hdp hrec
    refine ⟨buf, dp, hbuf, by simpa using hdp, by simpa using hrec, ?_⟩
    simp [Scan.windows, run]
  | cons m ms ih =>
    intro n buf dp c hch hall hbuf hdp hrec
    rw [List.chain_cons] at hch
    obtain ⟨hmn, hch⟩ := hch
    have hmn : m = n := by omega
    subst hmn
    obtain ⟨h1, h6, hno, hadv, hok⟩ := hall m (by simp)
    obtain ⟨buf1, hbuf1, hrun1⟩ := window_keeps_line q m P h1 h6 hP hno hok buf hbuf dp c hdp
    have hdp1 : (if q.recorded m ≠ [] ∧ m = P then (P : Int) else dp) = 0
        ∨ ((if q.recorded m ≠ [] ∧ m = P then (P : Int) else dp) = (P : Int) ∧ m - 1 < P) := by
      split_ifs with hc
      · exact Or.inr ⟨rfl, by omega⟩
      · rcases hdp with h | ⟨h, h2⟩
        · exact Or.inl h
        · exact Or.inr ⟨h, by omega⟩
    have hrec1 : P ≠ 0 → m - 1 < P → q.recorded P ≠ [] →
        (if q.recorded m ≠ [] ∧ m = P then (P : Int) else dp) = (P : Int) := by
      intro hp0 hlt hrP
      split_ifs with hc
      · rfl
      · have hne : m ≠ P := fun he => hc ⟨he ▸ hrP, he⟩
        exact hrec hp0 (by omega) hrP
    have hch2 : List.Chain (fun a b => a = b + 1) (m - 1 + 1) ms := by
      rw [Nat.sub_add_cancel h1]
      exact hch
    obtain ⟨buf2, dp2, hbuf2, hdp2, hrec2, hrun2⟩ :=
      ih (m - 1) buf1 _ c hch2 (fun k hk => hall k (by simp [hk])) hbuf1 hdp1 hrec1
    refine ⟨buf2, dp2, hbuf2, ?_, ?_, ?_⟩
    · rcases hdp2 with h | ⟨h, h2⟩
      · exact Or.inl h
      · exact Or.inr ⟨h, by simp only [List.length_cons]; omega⟩
    · intro hp0 hlt hrP
      exact hrec2 hp0 (by simp only [List.length_cons] at hlt; omega) hrP
    · have e : q.windows (m :: ms) = q.stay m ++ q.advance (m - 1) :: q.windows ms := rfl
      rw [e, run_append, hrun1, run_cons,
        transit_advance (m : Int) (by omega) (by omega) _ rfl _ hadv]
      have e2 : ((m : Int) - 1) = ((m - 1 : Nat) : Int) := by omega
      simp only [e2]
      rw [hrun2]
      simp only [List.length_cons]
      congr 2
      push_cast
      omega

theorem recorded_of_decimal (q : Scan) (n : Nat) (h : q.decimal n = true) : q.recorded n ≠ [] := by
  intro he
  simp [Scan.decimal, he] at h

/-- A regular scan with the decimal point of the line in the buffer, fed
in `Init`, keeps a line with that decimal point, whatever positions it
records. -/
theorem rescan_keeps_line (q : Scan) (P : Nat) (ht : q.triggered) (hs : q.regular) (hp : q.p = P)
    (buf : List Nat) (hbuf : holds_line buf P) (dp : Int) (c : Bool) :
    ∃ buf2, holds_line buf2 P
      ∧ run ⟨⟨7⟩, buf, dp, c⟩ q.samples = ⟨⟨7⟩, buf2, (P : Int), true⟩ := by
  have hP : P ≤ 6 := hp ▸ scan_p_le q
  have hdec := scan_decimal_eq q hs.2
  obtain ⟨buf1, dp1, hbuf1, hdp1, hrec1, hrun1⟩ :=
    windows_keep_line q P hP [6, 5, 4, 3, 2, 1] 6 buf 0 c (by simp)
      (fun m hm => by
        obtain ⟨a, b, d⟩ := hs.1 m hm
        have hm1 : 1 ≤ m ∧ m ≤ 6 := by
          simp only [List.mem_cons, List.mem_singleton, List.not_mem_nil, or_false] at hm
          omega
        exact ⟨hm1.1, hm1.2, a, b, fun hr => ⟨(d hr).1, (d hr).2, by rw [← hdec m hm, hp]⟩⟩)
      hbuf (Or.inl rfl) (fun _ h => absurd h (by omega))
  have hdpP : dp1 = (P : Int) := by
    by_cases h0 : P = 0
    · rcases hdp1 with h | ⟨h, _⟩
      · rw [h, h0]; rfl
      · exact h
    · have hPm : P ∈ [6, 5, 4, 3, 2, 1] := by
        simp only [List.mem_cons, List.mem_singleton, List.not_mem_nil, or_false]
        omega
      have hd : q.decimal P = true := by
        rw [← hdec P hPm, hp]
        simp
      exact hrec1 h0 (by simp only [List.length_cons, List.length_nil]; omega)
        (recorded_of_decimal q P hd)
  subst hdpP
  obtain ⟨buf2, hbuf2, hfin⟩ := finalize_keeps_line P hP buf1 hbuf1 c q.final
  refine ⟨buf2, hbuf2, ?_⟩
  have hrun6 : run ⟨⟨6⟩, buf, 0, c⟩ (q.windows [6, 5, 4, 3, 2, 1]) = ⟨⟨0⟩, buf1, (P : Int), c⟩ := by
    simpa using hrun1
  simp only [Scan.samples, run_append, run_lead q ht, hrun6]
  exact hfin

/-- The beginning of a scan keeps the completion flag and a line in the
buffer. -/
theorem begun_keeps_line (q : Scan) (k P : Nat) (hP : P ≤ 6) (hb : q.begun_regular k P)
    (buf : List Nat) (hbuf : holds_line buf P) (dp : Int) (c : Bool) :
    (run ⟨⟨7⟩, buf, dp, c⟩ (q.begun k)).complete_ = c
      ∧ holds_line (run ⟨⟨7⟩, buf, dp, c⟩ (q.begun k)).reading_ P := by
  obtain ⟨hk6, ht, hwin, hno, hok⟩ := hb
  have hmem : ∀ m ∈ positions_down_to (k + 1), 1 ≤ m ∧ m ≤ 6 ∧ m ∈ positions_down_to k := by
    intro m hm
    interval_cases k <;>
      simp only [positions_down_to, List.take, List.mem_cons, List.mem_singleton,
        List.not_mem_nil, or_false] at hm ⊢ <;> omega
  have hch : List.Chain (fun a b => a = b + 1) (6 + 1) (positions_down_to (k + 1)) := by
    interval_cases k <;> simp [positions_down_to]
  have hlen : (positions_down_to (k + 1)).length = 6 - k := by
    interval_cases k <;> rfl
  obtain ⟨buf1, dp1, hbuf1, hdp1, _, hrun1⟩ :=
    windows_keep_line q P hP (positions_down_to (k + 1)) 6 buf 0 c hch
      (fun m hm => ⟨(hmem m hm).1, (hmem m hm).2.1, (hwin m hm).1, (hwin m hm).2,
        hok m (hmem m hm).2.2⟩)
      hbuf (Or.inl rfl) (fun _ h => absurd h (by omega))
  rw [hlen] at hdp1 hrun1
  have e6 : (6 : Nat) - (6 - k) = k := by omega
  have e6i : ((6 : Nat) : Int) - ((6 - k : Nat) : Int) = (k : Int) := by omega
  rw [e6] at hdp1
  rw [e6i] at hrun1
  have hrun6 : run ⟨⟨6⟩, buf, 0, c⟩ (q.windows (positions_down_to (k + 1)))
      = ⟨⟨(k : Int)⟩, buf1, dp1, c⟩ := by
    simpa using hrun1
  simp only [Scan.begun, run_append, run_lead q ht]
  rw [hrun6]
  by_cases hk0 : k = 0
  · rw [if_pos hk0] at hno
    subst hk0
    rw [hno]
    exact ⟨rfl, hbuf1⟩
  · rw [if_neg hk0] at hno
    have hk1 : 1 ≤ k := by omega
    have hkm : k ∈ positions_down_to k := by
      interval_cases k <;> simp [positions_down_to]
    obtain ⟨buf2, hbuf2, hrun2⟩ :=
      window_keeps_line q k P hk1 hk6 hP hno (hok k hkm) buf1 hbuf1 dp1 c
        (by
          rcases hdp1 with h | ⟨h, h2⟩
          · exact Or.inl h
          · exact Or.inr ⟨h, h2⟩)
    rw [hrun2]
    exact ⟨rfl, hbuf2⟩

/-- A regular scan that records every position leaves its own line in the
buffer. -/
theorem full_scan_keeps_line (q : Scan) (hs : q.regular) (hf : q.records_all) (x : Bus_decoder)
    (hlen : x.reading_.length = 15)
    (hst : x.state_ = Data_state.Init
      ∨ (x.state_ = Data_state.Digit6 ∧ x.decimal_point_digit_ = 0))
    (hrun : run x q.samples
      = run x (pass q.digit q.p q.final.overflow q.final.nml q.final.rng_2 fun _ => idle)) :
    ∃ buf2, holds_line buf2 q.p ∧ run x q.samples = ⟨⟨7⟩, buf2, (q.p : Int), true⟩ := by
  have hp := scan_p_le q
  have hd : ∀ n ∈ [6, 5, 4, 3, 2, 1], 0 ≤ q.digit n ∧ q.digit n ≤ 9 :=
    fun n hn => (hs.1 n hn).2.2 (hf n hn)
  have hr := run_pass x hlen hst q.digit q.p q.final.overflow q.final.nml q.final.rng_2
    (fun _ => idle) hp
  rw [hrun, hr]
  refine ⟨_, ⟨?_, q.digit, q.final.overflow, q.final.nml, q.final.rng_2,
    x.reading_.drop ((pass_line q.digit q.p q.final.overflow q.final.nml q.final.rng_2).length + 1),
    hd, ?_⟩, rfl⟩
  · have hl := pass_line_length_le q.digit q.p q.final.overflow q.final.nml q.final.rng_2
    simp only [List.length_append, List.length_drop, List.length_cons, List.length_nil, hlen]
    omega
  · simp

/-- Further scans, each recording every position or keeping the decimal
point of the scan before, leave a line with the decimal point of the last
scan in the buffer. -/
theorem scans_keep_line (later : List Scan) :
    ∀ (prev : Scan) (buf : List Nat) (dp : Int), holds_line buf prev.p →
      (∀ q ∈ later, q.triggered ∧ q.regular) →
      List.Chain (fun a b : Scan => b.records_all ∨ b.p = a.p) prev later →
      ∃ (buf2 : List Nat) (dp2 : Int),
        holds_line buf2 ((prev :: later).getLast (List.cons_ne_nil _ _)).p
          ∧ run ⟨⟨7⟩, buf, dp, true⟩ (scans later) = ⟨⟨7⟩, buf2, dp2, true⟩ := by
  induction later with
  | nil => intro prev buf dp h _ _; exact ⟨buf, dp, h, rfl⟩
  | cons q qs ih =>
    intro prev buf dp h hq hch
    rw [List.chain_cons] at hch
    obtain ⟨hr, hch⟩ := hch
    obtain ⟨ht, hs⟩ := hq q (by simp)
    have e : scans (q :: qs) = q.samples ++ scans qs := rfl
    have hstep : ∃ buf1, holds_line buf1 q.p
        ∧ run ⟨⟨7⟩, buf, dp, true⟩ q.samples = ⟨⟨7⟩, buf1, (q.p : Int), true⟩ := by
      rcases hr with hf | hp
      · exact full_scan_keeps_line q hs hf _ h.1 (Or.inl rfl)
          (run_scan_triggered q ht hs hf _ _ rfl)
      · exact rescan_keeps_line q q.p ht hs rfl buf (hp ▸ h) dp true
    obtain ⟨buf1, hbuf1, hrun1⟩ := hstep
    obtain ⟨buf2, dp2, hbuf2, hrun2⟩ :=
      ih q buf1 (q.p : Int) hbuf1 (fun r hr => hq r (by simp [hr])) hch
    refine ⟨buf2, dp2, ?_, ?_⟩
    · rw [List.getLast_cons (List.cons_ne_nil _ _)]
      exact hbuf2
    · rw [e, run_append, hrun1, hrun2]

/-! ## Bus decoder: what the line format excludes, and what completes -/

/-- A reading of the line format has exactly six decimal digit characters. -/
theorem line_format_digit_count (r : List Nat) (h : line_format r) :
    r.countP (fun x => decide (48 ≤ x ∧ x ≤ 57)) = 6 := by
  obtain ⟨ind, body, suffix, rfl, hind, hbody, h6, _, hsuf⟩ := h
  have hb : body.countP (fun x => decide (48 ≤ x ∧ x ≤ 57)) = 6 := by
    rw [List.countP_eq_length_filter, ← h6]
    congr 1
    apply List.filter_congr
    intro x hx
    rcases hbody x hx with rfl | hd
    · rfl
    · have : x ≠ 46 := by omega
      simp [hd, this]
  have hs : suffix.countP (fun x => decide (48 ≤ x ∧ x ≤ 57)) = 0 := by
    simp only [List.mem_cons, List.mem_singleton, List.not_mem_nil, or_false] at hsuf
    rcases hsuf with rfl | rfl | rfl | rfl | rfl <;> decide
  have hi : [ind].countP (fun x => decide (48 ≤ x ∧ x ≤ 57)) = 0 := by
    rcases hind with rfl | rfl <;> decide
  have e : ind :: body ++ suffix ++ [13, 10] = [ind] ++ body ++ suffix ++ [13, 10] := rfl
  rw [e, List.countP_append, List.countP_append, List.countP_append, hb, hs, hi]
  rfl

/-- Three snapshot sequences with positions in 0 .. 6 and digit values in
0 .. 9 that leave the completion flag set and a reading that is not of the
line format: a pass with the decimal strobe at the positions 4 and 2; a
well-formed pass followed by two samples of position 6 that carry the
decimal strobe; a well-formed pass without decimal strobe followed by a
scan with the decimal strobe at position 3 that does not record
position 1. -/
theorem line_format_exclusions :
    ((∀ s ∈ pass_marked (digits_of 1 2 3 4 5 6) [4, 2] false false false fun _ => idle,
          0 ≤ s.digit_strobe ∧ s.digit_strobe ≤ 6 ∧ 0 ≤ s.out ∧ s.out ≤ 9)
        ∧ (run fresh (pass_marked (digits_of 1 2 3 4 5 6) [4, 2] false false false
            fun _ => idle)).is_complete = true
        ∧ (run fresh (pass_marked (digits_of 1 2 3 4 5 6) [4, 2] false false false
            fun _ => idle)).reading = ascii " 12.3.56ms\r\n"
        ∧ ¬ line_format (run fresh (pass_marked (digits_of 1 2 3 4 5 6) [4, 2] false false
            false fun _ => idle)).reading)
      ∧ ((∀ s ∈ pass (digits_of 1 2 3 4 5 6) 0 false false false (fun _ => idle)
              ++ [digit_sample idle 6 9 true, digit_sample idle 6 9 true],
          0 ≤ s.digit_strobe ∧ s.digit_strobe ≤ 6 ∧ 0 ≤ s.out ∧ s.out ≤ 9)
        ∧ (run fresh (pass (digits_of 1 2 3 4 5 6) 0 false false false (fun _ => idle)
            ++ [digit_sample idle 6 9 true, digit_sample idle 6 9 true])).is_complete = true
        ∧ (run fresh (pass (digits_of 1 2 3 4 5 6) 0 false false false (fun _ => idle)
            ++ [digit_sample idle 6 9 true, digit_sample idle 6 9 true])).reading
            = ascii " .93456\r\n"
        ∧ ¬ line_format (run fresh (pass (digits_of 1 2 3 4 5 6) 0 false false false
              (fun _ => idle)
            ++ [digit_sample idle 6 9 true, digit_sample idle 6 9 true])).reading)
      ∧ ((∀ s ∈ pass (digits_of 1 2 3 4 5 6) 0 false false false (fun _ => idle)
              ++ scan_moving_point,
          0 ≤ s.digit_strobe ∧ s.digit_strobe ≤ 6 ∧ 0 ≤ s.out ∧ s.out ≤ 9)
        ∧ (run fresh (pass (digits_of 1 2 3 4 5 6) 0 false false false (fun _ => idle)
            ++ scan_moving_point)).is_complete = true
        ∧ (run fresh (pass (digits_of 1 2 3 4 5 6) 0 false false false (fun _ => idle)
            ++ scan_moving_point)).reading = ascii " 123.45\rms\r\n"
        ∧ ¬ line_format (run fresh (pass (digits_of 1 2 3 4 5 6) 0 false false false
              (fun _ => idle) ++ scan_moving_point)).reading) := by
  refine ⟨⟨by decide, by decide, by decide, fun h => ?_⟩,
    ⟨by decide, by decide, by decide, fun h => ?_⟩,
    ⟨by decide, by decide, by decide, fun h => ?_⟩⟩
  · have := line_format_digit_count _ h
    revert this
    decide
  · have := line_format_digit_count _ h
    revert this
    decide
  · have := line_format_digit_count _ h
    revert this
    decide

theorem transit_digit_complete (n : Int) (h1 : 1 ≤ n) (h6 : n ≤ 6) (x : Bus_decoder)
    (hx : x.state_ = ⟨n⟩) (a : Input_state) : (transit x a).complete_ = x.complete_ := by
  obtain ⟨⟨v⟩, buf, dp, c⟩ := x
  simp only [Data_state.mk.injEq] at hx
  subst hx
  rw [transit_mk_digit v h1 h6]
  by_cases h : a.digit_strobe = v
  · rw [if_pos h, set_digit_complete]
  · rw [if_neg h]
    split_ifs <;> rfl

/-- Snapshots that take a decoder in the state of position `n` to a set
completion flag contain a snapshot of position `n - 1`; up to the first
such snapshot the flag stays clear. -/
theorem window_split (n : Int) (h1 : 1 ≤ n) (h6 : n ≤ 6) (l : List Input_state) :
    ∀ x : Bus_decoder, x.state_ = ⟨n⟩ → x.complete_ = false → (run x l).complete_ = true →
      ∃ (stay : List Input_state) (adv : Input_state) (rest : List Input_state),
        l = stay ++ adv :: rest ∧ (∀ s ∈ stay, s.digit_strobe ≠ n - 1)
          ∧ adv.digit_strobe = n - 1
          ∧ (run x (stay ++ [adv])).state_ = ⟨n - 1⟩
          ∧ (run x (stay ++ [adv])).complete_ = false := by
  induction l with
  | nil =>
    intro x _ hc h
    rw [show run x [] = x from rfl, hc] at h
    exact absurd h Bool.false_ne_true
  | cons a l ih =>
    intro x hx hc h
    by_cases ha : a.digit_strobe = n - 1
    · refine ⟨[], a, l, rfl, fun s hs => absurd hs (List.not_mem_nil _), ha, ?_, ?_⟩
      · show (transit x a).state_ = _
        rw [transit_advance n h1 h6 x hx a ha]
      · show (transit x a).complete_ = _
        rw [transit_advance n h1 h6 x hx a ha]
        exact hc
    · have hs : (transit x a).state_ = ⟨n⟩ := by
        by_cases hr : a.digit_strobe = n
        · exact transit_record_state n h1 h6 x hx a hr
        · rw [transit_glitch n h1 h6 x hx a hr ha]
          exact hx
      have hc2 : (transit x a).complete_ = false := by
        rw [transit_digit_complete n h1 h6 x hx a]
        exact hc
      obtain ⟨stay, adv, rest, e, hno, hadv, hst, hcc⟩ := ih (transit x a) hs hc2 h
      refine ⟨a :: stay, adv, rest, by rw [e]; rfl, ?_, hadv, hst, hcc⟩
      intro s hs
      rcases List.mem_cons.1 hs with rfl | hs
      · exact ha
      · exact hno s hs

/-- Every snapshot sequence that takes a freshly constructed decoder to a
set completion flag begins with the snapshots of a scan: for each position
`n` of 6 .. 1 a window of snapshots that are not of position `n - 1`,
closed by a snapshot of position `n - 1`, and one further snapshot. -/
theorem completing_snapshots_begin_with_a_scan (inps : List Input_state)
    (h : (run fresh inps).is_complete = true) :
    ∃ (q : Scan) (rest : List Input_state),
      q.lead = [] ∧ inps = q.samples ++ rest
        ∧ ∀ n ∈ [6, 5, 4, 3, 2, 1],
            (∀ s ∈ q.stay n, s.digit_strobe ≠ (n : Int) - 1)
              ∧ (q.advance (n - 1)).digit_strobe = (n : Int) - 1 := by
  obtain ⟨s6, a5, r6, e6, n6, d6, t6, c6⟩ :=
    window_split 6 (by norm_num) (by norm_num) inps fresh rfl rfl h
  rw [e6, show s6 ++ a5 :: r6 = (s6 ++ [a5]) ++ r6 by simp, run_append] at h
  obtain ⟨s5, a4, r5, e5, n5, d5, t5, c5⟩ :=
    window_split 5 (by norm_num) (by norm_num) r6 _ (by rw [t6]; norm_num) c6 h
  rw [e5, show s5 ++ a4 :: r5 = (s5 ++ [a4]) ++ r5 by simp, run_append] at h
  obtain ⟨s4, a3, r4, e4, n4, d4, t4, c4⟩ :=
    window_split 4 (by norm_num) (by norm_num) r5 _ (by rw [t5]; norm_num) c5 h
  rw [e4, show s4 ++ a3 :: r4 = (s4 ++ [a3]) ++ r4 by simp, run_append] at h
  obtain ⟨s3, a2, r3, e3, n3, d3, t3, c3⟩ :=
    window_split 3 (by norm_num) (by norm_num) r4 _ (by rw [t4]; norm_num) c4 h
  rw [e3, show s3 ++ a2 :: r3 = (s3 ++ [a2]) ++ r3 by simp, run_append] at h
  obtain ⟨s2, a1, r2, e2, n2, d2, t2, c2⟩ :=
    window_split 2 (by norm_num) (by norm_num) r3 _ (by rw [t3]; norm_num) c3 h
  rw [e2, show s2 ++ a1 :: r2 = (s2 ++ [a1]) ++ r2 by simp, run_append] at h
  obtain ⟨s1, a0, r1, e1, n1, d1, t1, c1⟩ :=
    window_split 1 (by norm_num) (by norm_num) r2 _ (by rw [t2]; norm_num) c2 h
  rw [e1, show s1 ++ a0 :: r1 = (s1 ++ [a0]) ++ r1 by simp, run_append] at h
  cases r1 with
  | nil => exact absurd (c1.symm.trans h) Bool.false_ne_true
  | cons f rest =>
    refine ⟨⟨[], fun n => if n = 6 then s6 else if n = 5 then s5 else if n = 4 then s4
        else if n = 3 then s3 else if n = 2 then s2 else s1,
      fun k => if k = 5 then a5 else if k = 4 then a4 else if k = 3 then a3
        else if k = 2 then a2 else if k = 1 then a1 else a0, f⟩, rest, rfl, ?_, ?_⟩
    · rw [e6, e5, e4, e3, e2, e1]
      simp [Scan.samples, Scan.windows]
    · intro n hn
      simp only [List.mem_cons, List.mem_singleton, List.not_mem_nil, or_false] at hn
      rcases hn with rfl | rfl | rfl | rfl | rfl | rfl
      · exact ⟨by simpa using n6, by simpa using d6⟩
      · exact ⟨by simpa using n5, by simpa using d5⟩
      · exact ⟨by simpa using n4, by simpa using d4⟩
      · exact ⟨by simpa using n3, by simpa using d3⟩
      · exact ⟨by simpa using n2, by simpa using d2⟩
      · exact ⟨by simpa using n1, by simpa using d1⟩

/-! ## Bus decoder: the record of stores -/

/-- The loop of `print` with recorded stores returns what the loop returns,
and records the indices listed by `print_loop_writes`. -/
theorem print_loop_logged_eq (string : List Nat) (off : Nat) (buffer_length : Int) (fuel : Nat) :
    ∀ (i : Nat) (mem log : List Nat),
      print_loop_logged string off buffer_length fuel i mem log
        = (print_loop string off buffer_length fuel i mem,
            log ++ print_loop_writes string off buffer_length fuel i) := by
  induction fuel with
  | zero => intro i mem log; simp [print_loop_logged, print_loop, print_loop_writes]
  | succ fuel ih =>
    intro i mem log
    simp only [print_loop_logged, print_loop, print_loop_writes]
    by_cases h : (i : Int) < buffer_length
    · simp only [h, if_true]
      by_cases hc : char_at string i = 0
      · simp [hc]
      · simp only [hc, if_false]
        rw [ih]
        simp
    · simp [h]

theorem print_string_logged_eq (mem : List Nat) (off : Nat) (buffer_length : Int)
    (string log : List Nat) :
    print_string_logged mem off buffer_length string log
      = (print_string mem off buffer_length string,
          log ++ print_string_writes off buffer_length string) :=
  print_loop_logged_eq _ _ _ _ _ _ _

theorem print_unit_string_logged_eq (mem : List Nat) (off : Nat) (buffer_length : Int)
    (head : Unit) (tail log : List Nat) :
    print_unit_string_logged mem off buffer_length head tail log
      = (print_unit_string mem off buffer_length head tail,
          log ++ print_unit_string_writes mem off buffer_length head tail) := by
  simp only [print_unit_string_logged, print_unit_logged, print_unit_string,
    print_unit_string_writes, print_unit, print_string_logged_eq]
  split_ifs <;> simp

theorem set_digit_logged_eq (d : Bus_decoder) (digit_strobe out : Int) (log : List Int) :
    d.set_digit_logged digit_strobe out log
      = (d.set_digit digit_strobe out,
          log ++ (if digit_strobe = d.decimal_point_digit_ then
                [number_of_digits + 1 - digit_strobe] else [])
            ++ [d.get_index digit_strobe]) := by
  simp only [set_digit_logged, set_digit, store_logged]
  split_ifs <;> simp [get_index, has_decimal_point]

theorem set_overflow_logged_eq (d : Bus_decoder) (overflow : Bool) (log : List Int) :
    d.set_overflow_logged overflow log = (d.set_overflow overflow, log ++ [0]) := by
  simp only [set_overflow_logged, set_overflow, store_logged]
  split_ifs <;> rfl

theorem set_unit_logged_eq (d : Bus_decoder) (unit : Unit) (log : List Int) :
    d.set_unit_logged unit log
      = (d.set_unit unit,
          log ++ (print_unit_string_writes d.reading_ (d.get_index 0).toNat
            (max_reading_size - d.get_index 0) unit crlf).map fun i => (i : Int)) := by
  simp only [set_unit_logged, set_unit, print_unit_string_logged_eq, List.nil_append]

theorem set_overflow_get_index (d : Bus_decoder) (overflow : Bool) (n : Int) :
    (d.set_overflow overflow).get_index n = d.get_index n
      ∧ (d.set_overflow overflow).has_decimal_point = d.has_decimal_point := by
  cases overflow <;> exact ⟨rfl, rfl⟩

/-- The call `transit` with recorded stores returns the decoder `transit`
returns, and records the indices listed by `transit_writes`. -/
theorem transit_logged_eq (d : Bus_decoder) (inp : Input_state) :
    transit_logged d inp = (transit d inp, transit_writes d inp) := by
  simp only [transit_logged, transit, transit_writes, set_digit_logged_eq,
    set_overflow_logged_eq, set_unit_logged_eq, List.nil_append,
    (set_overflow_get_index _ _ _).1, (set_overflow_get_index d inp.overflow 0).2]
  split_ifs <;> rfl

/-- The loop of `print` changes no cell outside `print_loop_writes`. -/
theorem print_loop_frame (string : List Nat) (off : Nat) (buffer_length : Int) (fuel : Nat) :
    ∀ (i : Nat) (mem : List Nat) (k : Nat),
      k ∉ print_loop_writes string off buffer_length fuel i →
      (print_loop string off buffer_length fuel i mem).1.getD k 0 = mem.getD k 0 := by
  induction fuel with
  | zero => intro i mem k _; rfl
  | succ fuel ih =>
    intro i mem k hk
    simp only [print_loop, print_loop_writes] at hk ⊢
    by_cases h : (i : Int) < buffer_length
    · simp only [h, if_true, List.mem_cons, not_or] at hk ⊢
      obtain ⟨hne, hk⟩ := hk
      have hset : ∀ c, (mem.set (off + i) c).getD k 0 = mem.getD k 0 := by
        intro c
        simp [List.getD_eq_getElem?_getD, List.getElem?_set, Ne.symm hne]
      by_cases hc : char_at string i = 0
      · simp only [hc, if_true]
        split_ifs <;> exact hset _
      · simp only [hc, if_false] at hk ⊢
        rw [ih _ _ _ hk]
        split_ifs <;> exact hset _
    · simp only [h, if_false]

theorem print_unit_string_frame (mem : List Nat) (off : Nat) (buffer_length : Int)
    (head : Unit) (tail : List Nat) (k : Nat)
    (hk : k ∉ print_unit_string_writes mem off buffer_length head tail) :
    (print_unit_string mem off buffer_length head tail).1.getD k 0 = mem.getD k 0 := by
  simp only [print_unit_string, print_unit_string_writes, print_unit, print_string,
    print_string_writes, List.mem_append, not_or] at hk ⊢
  obtain ⟨h1, h2⟩ := hk
  split_ifs with hu
  · exact print_loop_frame _ _ _ _ _ _ _ h1
  · rw [if_neg hu] at h2
    rw [print_loop_frame _ _ _ _ _ _ _ h2]
    exact print_loop_frame _ _ _ _ _ _ _ h1

theorem set_digit_frame (d : Bus_decoder) (n out : Int) (k : Nat)
    (h1 : n = d.decimal_point_digit_ → (k : Int) ≠ number_of_digits + 1 - n)
    (h2 : (k : Int) ≠ d.get_index n) :
    (d.set_digit n out).reading_.getD k 0 = d.reading_.getD k 0 := by
  unfold set_digit
  by_cases h : n = d.decimal_point_digit_
  · simp only [if_pos h]
    exact (store_at_getD_ne _ _ _ _ h2).trans (store_at_getD_ne _ _ _ _ (h1 h))
  · simp only [if_neg h]
    exact store_at_getD_ne _ _ _ _ h2

/-- A call of `transit` changes no cell outside `transit_writes`. -/
theorem transit_frame (d : Bus_decoder) (inp : Input_state) (k : Nat)
    (hk : (k : Int) ∉ transit_writes d inp) :
    (transit d inp).reading_.getD k 0 = d.reading_.getD k 0 := by
  unfold transit
  unfold transit_writes at hk
  by_cases hi : d.state_ = Data_state.Init
  · rw [if_pos hi]
    split_ifs <;> rfl
  · rw [if_neg hi] at hk ⊢
    by_cases hd : d.state_ = Data_state.Digit6 ∨ d.state_ = Data_state.Digit5
        ∨ d.state_ = Data_state.Digit4 ∨ d.state_ = Data_state.Digit3
        ∨ d.state_ = Data_state.Digit2 ∨ d.state_ = Data_state.Digit1
    · rw [if_pos hd] at hk ⊢
      by_cases hs : inp.digit_strobe = d.state_.to_integral
      · rw [if_pos hs] at hk ⊢
        simp only [List.mem_append, List.mem_singleton, not_or] at hk
        obtain ⟨ha, hb⟩ := hk
        rw [set_digit_frame _ _ _ _ ?_ hb]
        · split_ifs <;> rfl
        · intro he
          rw [if_pos he] at ha
          simpa using ha
      · rw [if_neg hs]
        split_ifs <;> rfl
    · rw [if_neg hd] at hk ⊢
      by_cases ho : d.state_ = Data_state.OverflowUnit
      · rw [if_pos ho] at hk ⊢
        have h0 : (k : Int) ≠ 0 := fun he => hk (by rw [he]; exact List.mem_cons_self _ _)
        have hp2 : k ∉ print_unit_string_writes (d.set_overflow inp.overflow).reading_
            (d.get_index 0).toNat (max_reading_size - d.get_index 0)
            (get_unit inp.nml inp.rng_2 d.has_decimal_point) crlf :=
          fun hm => hk (by
            refine List.mem_cons_of_mem _ (List.mem_map.2 ⟨(k : Int), ?_, rfl⟩)
            simp only [List.bind_eq_flatMap, List.mem_flatMap, List.pure_def,
              List.mem_singleton]
            exact ⟨k, hm, rfl⟩)
        show ((d.set_overflow inp.overflow).set_unit _).reading_.getD k 0 = _
        simp only [set_unit, (set_overflow_get_index d inp.overflow 0).1,
          (set_overflow_get_index d inp.overflow 0).2]
        rw [print_unit_string_frame _ _ _ _ _ _ hp2]
        unfold set_overflow
        split_ifs <;> exact store_at_getD_ne _ _ _ _ h0
      · rw [if_neg ho]

/-! ## Claims -/

/-- C1: a well-formed pass over the digits d6 .. d1 with the decimal strobe
asserted at position p (1 .. 6), fed to a freshly constructed decoder,
leaves the completion flag set, the state `Init`, and the reading
indicator, d6 .. d(p+1), '.', dp .. d1, unit text, CR, LF, where the unit
text is one of "ms", "us", "MHz", "kHz". -/
theorem full_pass_reading (d6 d5 d4 d3 d2 d1 p : Nat) (overflow nml rng_2 : Bool)
    (aux : Nat → Input_state)
    (h6 : d6 ≤ 9) (h5 : d5 ≤ 9) (h4 : d4 ≤ 9) (h3 : d3 ≤ 9) (h2 : d2 ≤ 9) (h1 : d1 ≤ 9)
    (hp1 : 1 ≤ p) (hp6 : p ≤ 6) :
    (run fresh (pass (digits_of d6 d5 d4 d3 d2 d1) p overflow nml rng_2 aux)).is_complete = true
      ∧ (run fresh (pass (digits_of d6 d5 d4 d3 d2 d1) p overflow nml rng_2 aux)).state
          = Data_state.Init
      ∧ (run fresh (pass (digits_of d6 d5 d4 d3 d2 d1) p overflow nml rng_2 aux)).reading
          = (if overflow then 62 else 32)
              :: ([48 + d6, 48 + d5, 48 + d4, 48 + d3, 48 + d2, 48 + d1].take (6 - p)
                  ++ [46]
                  ++ [48 + d6, 48 + d5, 48 + d4, 48 + d3, 48 + d2, 48 + d1].drop (6 - p))
              ++ unit_text (get_unit nml rng_2 true) ++ [13, 10]
      ∧ unit_text (get_unit nml rng_2 true)
          ∈ [ascii "ms", ascii "us", ascii "MHz", ascii "kHz"] := by
  have hd : ∀ n, to_char (48 + digits_of d6 d5 d4 d3 d2 d1 n) ≠ 0 := by
    intro n
    unfold digits_of to_char
    split_ifs <;> omega
  have hp0 : p ≠ 0 := by omega
  refine ⟨?_, ?_, ?_, ?_⟩
  · rw [run_pass fresh fresh_reading_length (Or.inr ⟨rfl, rfl⟩) _ p overflow nml rng_2 aux hp6]
    rfl
  · rw [run_pass fresh fresh_reading_length (Or.inr ⟨rfl, rfl⟩) _ p overflow nml rng_2 aux hp6]
    rfl
  · rw [reading_after_pass fresh fresh_reading_length (Or.inr ⟨rfl, rfl⟩) _ p overflow nml rng_2
      aux hp6 hd]
    simp [pass_line, reading_line, digits_of, to_char_digit, indicator, hp0, *]
  · cases nml <;> cases rng_2 <;> decide

/-- C1, at the digits 1 .. 6 with the decimal strobe at position 3 and the
mode lines low: the reading is " 123.456ms" CR LF, and ">123.456ms" CR LF
with the overflow line set. -/
theorem full_pass_reading_witness :
    (run fresh (pass (digits_of 1 2 3 4 5 6) 3 false false false fun _ => idle)).reading
        = ascii " 123.456ms\r\n"
      ∧ (run fresh (pass (digits_of 1 2 3 4 5 6) 3 true false false fun _ => idle)).reading
        = ascii ">123.456ms\r\n" :=
  ⟨(full_pass_reading 1 2 3 4 5 6 3 false false false (fun _ => idle) (by decide) (by decide)
      (by decide) (by decide) (by decide) (by decide) (by decide) (by decide)).2.2.1.trans
      (by decide),
   (full_pass_reading 1 2 3 4 5 6 3 true false false (fun _ => idle) (by decide) (by decide)
      (by decide) (by decide) (by decide) (by decide) (by decide) (by decide)).2.2.1.trans
      (by decide)⟩

/-- C2: counter mode. A well-formed pass over the digits d6 .. d1 in which
the decimal strobe is never asserted, fed to a freshly constructed decoder,
leaves the completion flag set and the reading indicator, d6 .. d1, CR, LF,
with no '.' and no unit text, whatever the mode lines are. -/
theorem counter_mode_reading (d6 d5 d4 d3 d2 d1 : Nat) (overflow nml rng_2 : Bool)
    (aux : Nat → Input_state)
    (h6 : d6 ≤ 9) (h5 : d5 ≤ 9) (h4 : d4 ≤ 9) (h3 : d3 ≤ 9) (h2 : d2 ≤ 9) (h1 : d1 ≤ 9) :
    (∀ s ∈ pass (digits_of d6 d5 d4 d3 d2 d1) 0 overflow nml rng_2 aux,
        s.decimal_strobe = true → s.digit_strobe = 0)
      ∧ (run fresh (pass (digits_of d6 d5 d4 d3 d2 d1) 0 overflow nml rng_2 aux)).is_complete
          = true
      ∧ (run fresh (pass (digits_of d6 d5 d4 d3 d2 d1) 0 overflow nml rng_2 aux)).reading
          = (if overflow then 62 else 32)
              :: [48 + d6, 48 + d5, 48 + d4, 48 + d3, 48 + d2, 48 + d1] ++ [13, 10] := by
  have hd : ∀ n, to_char (48 + digits_of d6 d5 d4 d3 d2 d1 n) ≠ 0 := by
    intro n
    unfold digits_of to_char
    split_ifs <;> omega
  refine ⟨?_, ?_, ?_⟩
  · intro s hs
    simp only [pass, digit_samples, List.cons_append, List.nil_append, List.mem_cons,
      List.mem_singleton, List.not_mem_nil, or_false] at hs
    rcases hs with h | h | h | h | h | h | h | h | h | h | h | h | h | h <;> subst h <;>
      simp [digit_sample, unit_sample]
  · rw [run_pass fresh fresh_reading_length (Or.inr ⟨rfl, rfl⟩) _ 0 overflow nml rng_2 aux
      (by decide)]
    rfl
  · rw [reading_after_pass fresh fresh_reading_length (Or.inr ⟨rfl, rfl⟩) _ 0 overflow nml rng_2
      aux (by decide) hd]
    cases nml <;> cases rng_2 <;>
      simp [pass_line, reading_line, digits_of, to_char_digit, indicator, get_unit,
        unit_text_None, *]

/-- C2, at the digits 1 .. 6 with no line set: the reading is " 123456" CR LF. -/
theorem counter_mode_reading_witness :
    (run fresh (pass (digits_of 1 2 3 4 5 6) 0 false false false fun _ => idle)).reading
      = ascii " 123456\r\n" :=
  (counter_mode_reading 1 2 3 4 5 6 false false false (fun _ => idle) (by decide) (by decide)
    (by decide) (by decide) (by decide) (by decide)).2.2.trans (by decide)

/-- C3: with a decimal point the mode lines (nml, rng_2) select us, ms, kHz
and MHz as tabulated, and the result is never `None`. -/
theorem get_unit_with_decimal_point :
    get_unit true false true = Unit.us ∧ get_unit false false true = Unit.ms
      ∧ get_unit true true true = Unit.kHz ∧ get_unit false true true = Unit.MHz
      ∧ ∀ nml rng_2 : Bool, get_unit nml rng_2 true ≠ Unit.None := by
  decide

/-- C4: without a decimal point the unit is `None` for every pair of mode lines. -/
theorem get_unit_without_decimal_point :
    ∀ nml rng_2 : Bool, get_unit nml rng_2 false = Unit.None := by
  decide

/-- C5: for every 7-bit character c, the nine calls of `get_next_bit` after
`init_transmission(c)` succeed and a tenth fails; the first bit is 0, the
ninth is 1, and the seven bits in between, least significant first, add up
to c. -/
theorem transmitter_round_trip (s : Serial_transmitter) (c : Nat) (bit : Nat) (hc : c ≤ 127) :
    drained_flags 10 (s.init_transmission c) bit
        = [true, true, true, true, true, true, true, true, true, false]
      ∧ (drained_bits 9 (s.init_transmission c) bit).getD 0 1 = 0
      ∧ (drained_bits 9 (s.init_transmission c) bit).getD 8 0 = 1
      ∧ ((List.range 7).map fun i =>
            (drained_bits 9 (s.init_transmission c) bit).getD (i + 1) 0 * 2 ^ i).sum = c := by
  simp only [drained_flags, drained_bits, drain_init_indep]
  exact frames_of_7_bit_characters c (by omega)

/-- C5, at the character 'U' (0x55). -/
theorem transmitter_round_trip_witness :
    drained_bits 9 (Serial_transmitter.init_transmission {} 85) 0 = [0, 1, 0, 1, 0, 1, 0, 1, 1]
      ∧ ((List.range 7).map fun i =>
            (drained_bits 9 (Serial_transmitter.init_transmission {} ((85 : Nat) : Int)) 0).getD
              (i + 1) 0 * 2 ^ i).sum = 85 :=
  ⟨by decide, (transmitter_round_trip {} 85 0 (by decide)).2.2.2⟩

/-- C6: for every `char` value c, signed or unsigned, `init_transmission(c)`
sets the counter to `serial_data_bits + 2 = 9`; the next nine calls of
`get_next_bit` return true, each handing back the lowest bit of the shift
register, shifting it right and decrementing the counter; the first bit is
0 and the ninth 1; `transmit_complete()` is false before each of the nine
calls and true after the ninth; every later call returns false and changes
neither the transmitter nor the reference argument. -/
theorem transmitter_frame (s : Serial_transmitter) (c : Int) (bit : Nat)
    (hlo : -128 ≤ c) (hhi : c ≤ 255) :
    (s.init_transmission c).bits_to_transmit_ = serial_data_bits + 2
      ∧ serial_data_bits + 2 = 9
      ∧ drained_flags 9 (s.init_transmission c) bit = List.replicate 9 true
      ∧ (∀ k : Nat, k < 9 → ∀ b : Nat,
          ((drain k (s.init_transmission c) bit).2.2).transmit_complete = false
            ∧ ((drain k (s.init_transmission c) bit).2.2).get_next_bit b
                = (true, ((drain k (s.init_transmission c) bit).2.2).transmit_data_ % 2,
                    ⟨u16_shr ((drain k (s.init_transmission c) bit).2.2).transmit_data_ 1,
                      ((drain k (s.init_transmission c) bit).2.2).bits_to_transmit_ - 1⟩))
      ∧ (drained_bits 9 (s.init_transmission c) bit).getD 0 1 = 0
      ∧ (drained_bits 9 (s.init_transmission c) bit).getD 8 0 = 1
      ∧ ((drain 9 (s.init_transmission c) bit).2.2).transmit_complete = true
      ∧ ∀ n b : Nat, drain n ((drain 9 (s.init_transmission c) bit).2.2) b
          = (List.replicate n (false, b), b, (drain 9 (s.init_transmission c) bit).2.2) := by
  have hcnt : ∀ k : Nat, k ≤ 9 →
      ((drain k (s.init_transmission c) bit).2.2).bits_to_transmit_ = 9 - k := by
    intro k hk
    rw [drain_counter k _ bit (by rw [init_counter]; omega), init_counter]
  have hdone : ((drain 9 (s.init_transmission c) bit).2.2).transmit_complete = true := by
    simp [Serial_transmitter.transmit_complete, hcnt 9 (le_refl 9)]
  have hk := frames_of_all_characters (c + 128).toNat (by omega)
  have hcast : (((c + 128).toNat : Nat) : Int) - 128 = c := by omega
  rw [hcast] at hk
  refine ⟨rfl, rfl, ?_, ?_, ?_, ?_, hdone, drain_of_complete _ hdone⟩
  · simp only [drained_flags, drain_init_indep]; exact hk.1
  · intro k hk9 b
    have hpos : 0 < ((drain k (s.init_transmission c) bit).2.2).bits_to_transmit_ := by
      rw [hcnt k (by omega)]; omega
    refine ⟨?_, get_next_bit_of_pos _ b hpos⟩
    simp [Serial_transmitter.transmit_complete, hpos]
  · simp only [drained_bits, drain_init_indep]; exact hk.2.1
  · simp only [drained_bits, drain_init_indep]; exact hk.2.2

/-- C6, at the character value -1 (0xFF as an unsigned char): first bit 0, ninth bit 1. -/
theorem transmitter_frame_witness :
    (drained_bits 9 (Serial_transmitter.init_transmission {} (-1)) 7).getD 0 1 = 0
      ∧ (drained_bits 9 (Serial_transmitter.init_transmission {} (-1)) 7).getD 8 0 = 1 :=
  ⟨(transmitter_frame {} (-1) 7 (by decide) (by decide)).2.2.2.2.1,
   (transmitter_frame {} (-1) 7 (by decide) (by decide)).2.2.2.2.2.1⟩

/-- C7: only complete readings are returned. `reading()` is empty whenever
the completion flag is clear, whatever the buffer holds; it is empty for a
freshly constructed decoder, for one reset by the assignment of a default
decoder, and after every snapshot sequence fed to a fresh decoder in which
no `transit` call was made in state `OverflowUnit`. -/
theorem only_complete_readings :
    (∀ d : Bus_decoder, d.is_complete = false → d.reading = [])
      ∧ fresh.reading = []
      ∧ (∀ d : Bus_decoder, (assign_default d).reading = [])
      ∧ ∀ inps : List Input_state,
          (∀ k : Nat, k < inps.length →
            (run fresh (inps.take k)).state ≠ Data_state.OverflowUnit) →
          (run fresh inps).reading = [] := by
  refine ⟨?_, rfl, fun _ => rfl, ?_⟩
  · intro d h
    simp only [is_complete] at h
    simp [reading, h]
  · intro inps h
    have hc : (run fresh inps).complete_ = false :=
      (run_complete_of_no_overflow_state inps fresh h).trans rfl
    simp [reading, hc]

/-- C7, at a decoder whose buffer holds a full line but whose completion
flag is clear, and at the samples of the positions 6 .. 1 of a pass. -/
theorem only_complete_readings_witness :
    (Bus_decoder.mk Data_state.Init (ascii " 123456\r\n" ++ [0, 0, 0, 0, 0, 0]) 0 false).reading
        = []
      ∧ (run fresh (digit_samples (digits_of 1 2 3 4 5 6) 3 (fun _ => idle)
          (positions_down_to 1))).reading = [] :=
  ⟨only_complete_readings.1 _ rfl, only_complete_readings.2.2.2 _ (by decide)⟩

/-- C8: evaluation at the failing input. A freshly constructed decoder fed
the strobe positions 5, 4, 3, 2, 1, 0, 0 ends with the completion flag
set, although position 6 was never strobed; its reading is a single blank. -/
theorem complete_without_msd_strobe :
    (run fresh pass_without_msd).is_complete = true
      ∧ ¬ [6, 5, 4, 3, 2, 1, 0].Sublist (pass_without_msd.map fun s => s.digit_strobe)
      ∧ (∀ s ∈ pass_without_msd, s.digit_strobe ≠ 6)
      ∧ (run fresh pass_without_msd).reading = ascii " " := by
  decide

/-- C9, as stated, fails: the snapshots of a pass over the digits 1 .. 6 in
which position 3 is sampled once have positions in 0 .. 6 and digit values
in 0 .. 9 and leave the completion flag set, but the reading is " 123",
which is not of the form indicator, six digits, unit, CR, LF. -/
theorem line_format_counterexample :
    (∀ s ∈ pass_with_single_sample,
        0 ≤ s.digit_strobe ∧ s.digit_strobe ≤ 6 ∧ 0 ≤ s.out ∧ s.out ≤ 9)
      ∧ (run fresh pass_with_single_sample).is_complete = true
      ∧ (run fresh pass_with_single_sample).reading = ascii " 123"
      ∧ ¬ line_format (run fresh pass_with_single_sample).reading := by
  refine ⟨by decide, by decide, by decide, fun h => ?_⟩
  have := line_format_length _ h
  revert this
  decide

/-- C9, amended: a freshly constructed decoder is fed a first scan, any
number of further scans, and then either snapshots of positions other than
6 or the beginning of one more scan. A scan may sample a position any
number of times and hold glitch snapshots. The first scan records every
position 6 .. 1; a further scan records every position or has its decimal
point at the position of the scan before; in every scan the last digit
value recorded for a position is in 0 .. 9 and the decimal strobe is
asserted on recorded samples of at most one position; the scan that has
only begun asserts it exactly at the position of the last whole scan.
Then the completion flag is set and the reading has the form indicator,
six digits with at most one '.', unit text or nothing, CR, LF. -/
theorem line_format_of_scans (first : Scan) (later : List Scan) (tail : List Input_state)
    (hfirst : first.lead = [] ∧ first.regular ∧ first.records_all)
    (hlater : ∀ q ∈ later, q.triggered ∧ q.regular)
    (hchain : List.Chain (fun a b : Scan => b.records_all ∨ b.p = a.p) first later)
    (htail : (∀ s ∈ tail, s.digit_strobe ≠ 6)
      ∨ ∃ (q : Scan) (k : Nat), tail = q.begun k
          ∧ q.begun_regular k ((first :: later).getLast (List.cons_ne_nil _ _)).p) :
    (run fresh (first.samples ++ scans later ++ tail)).is_complete = true
      ∧ line_format (run fresh (first.samples ++ scans later ++ tail)).reading := by
  obtain ⟨buf1, h1, hrun1⟩ := full_scan_keeps_line first hfirst.2.1 hfirst.2.2 fresh
    fresh_reading_length (Or.inr ⟨rfl, rfl⟩)
    (run_scan_first first hfirst.1 hfirst.2.1 hfirst.2.2 _ fresh rfl)
  obtain ⟨buf2, dp2, h2, hrun2⟩ := scans_keep_line later first buf1 first.p h1 hlater hchain
  have hP := scan_p_le ((first :: later).getLast (List.cons_ne_nil _ _))
  rw [run_append, run_append, hrun1, hrun2]
  rcases htail with hi | ⟨q, k, rfl, hb⟩
  · rw [run_ignored buf2 dp2 true tail hi]
    exact ⟨rfl, holds_line_format buf2 _ hP h2⟩
  · obtain ⟨hc, hl⟩ := begun_keeps_line q k _ hP hb buf2 h2 dp2 true
    refine ⟨hc, ?_⟩
    simp only [reading, hc, if_true]
    exact holds_line_format _ _ hP hl

/-- C9, amended, at a scan of 22 snapshots with three samples of every
position and two glitches (reading " 123.456ms" CR LF), a further scan
that does not record position 5 (" 929.999us" CR LF), a further scan
without a decimal point, and the beginning of a scan down to position 4
(">888456" CR LF). -/
theorem line_format_of_scans_witness :
    scan_with_glitches.samples.length = 22
      ∧ (run fresh scan_with_glitches.samples).reading = ascii " 123.456ms\r\n"
      ∧ (run fresh (scan_with_glitches.samples ++ scans [rescan_with_skip])).reading
          = ascii " 929.999us\r\n"
      ∧ (run fresh (scan_with_glitches.samples ++ scans [rescan_with_skip, scan_without_point]
          ++ scan_cut_short.begun 4)).reading = ascii ">888456\r\n"
      ∧ (run fresh (scan_with_glitches.samples ++ scans [rescan_with_skip, scan_without_point]
          ++ scan_cut_short.begun 4)).is_complete = true
      ∧ line_format (run fresh (scan_with_glitches.samples
          ++ scans [rescan_with_skip, scan_without_point] ++ scan_cut_short.begun 4)).reading :=
  ⟨by decide, by decide, by decide, by decide,
    line_format_of_scans scan_with_glitches [rescan_with_skip, scan_without_point]
      (scan_cut_short.begun 4)
      ⟨rfl, by unfold Scan.regular; decide, by unfold Scan.records_all; decide⟩
      (by
        intro q hq
        simp only [List.mem_cons, List.mem_singleton, List.not_mem_nil, or_false] at hq
        rcases hq with rfl | rfl
        · exact ⟨by unfold Scan.triggered; decide, by unfold Scan.regular; decide⟩
        · exact ⟨by unfold Scan.triggered; decide, by unfold Scan.regular; decide⟩)
      (List.Chain.cons (Or.inr (by decide))
        (List.Chain.cons (Or.inl (by unfold Scan.records_all; decide)) List.Chain.nil))
      (Or.inr ⟨scan_cut_short, 4, rfl, by unfold Scan.begun_regular Scan.triggered; decide⟩)⟩

/-- C10, as stated, fails: after a complete counter-mode pass over the
digits 1 .. 6 the reading is " 123456" CR LF; two samples of position 6
with the digit value 9, the beginning of a further pass, change it to
" 923456" CR LF. -/
theorem reading_changes_during_next_pass :
    (run fresh (pass (digits_of 1 2 3 4 5 6) 0 false false false fun _ => idle)).is_complete
        = true
      ∧ (run fresh (pass (digits_of 1 2 3 4 5 6) 0 false false false fun _ => idle)).reading
        = ascii " 123456\r\n"
      ∧ (run (run fresh (pass (digits_of 1 2 3 4 5 6) 0 false false false fun _ => idle))
          (digit_samples (fun _ => 9) 0 (fun _ => idle) (positions_down_to 6))).reading
        = ascii " 923456\r\n"
      ∧ (run (run fresh (pass (digits_of 1 2 3 4 5 6) 0 false false false fun _ => idle))
          (digit_samples (fun _ => 9) 0 (fun _ => idle) (positions_down_to 6))).reading
        ≠ (run fresh (pass (digits_of 1 2 3 4 5 6) 0 false false false fun _ => idle)).reading := by
  decide

/-- C10, amended: after a complete well-formed pass (digits d, decimal
strobe at position p or nowhere) the samples of the positions 6 down to k
of a further pass with digits e and the decimal strobe at the same
position leave the completion flag set and overwrite the digit characters
in place: the reading keeps the indicator, the place of the '.', the unit
text and the digits of the positions below k, and shows the digits of the
further pass at the positions 6 .. k. It equals the reading of the first
pass when the further pass repeats the digit values of those positions. -/
theorem partial_pass_overwrites_in_place (d e : Nat → Nat) (p k : Nat)
    (overflow nml rng_2 : Bool) (aux aux2 : Nat → Input_state)
    (hd : ∀ n, d n ≤ 9) (he : ∀ n, e n ≤ 9) (hp : p ≤ 6) (hk1 : 1 ≤ k) (hk6 : k ≤ 6) :
    (run fresh (pass (fun n => (d n : Int)) p overflow nml rng_2 aux)).reading
        = reading_line overflow ([6, 5, 4, 3, 2, 1].map fun n => 48 + d n) p
            (get_unit nml rng_2 (decide (p ≠ 0)))
      ∧ (run (run fresh (pass (fun n => (d n : Int)) p overflow nml rng_2 aux))
          (digit_samples (fun n => (e n : Int)) p aux2 (positions_down_to k))).is_complete = true
      ∧ (run (run fresh (pass (fun n => (d n : Int)) p overflow nml rng_2 aux))
          (digit_samples (fun n => (e n : Int)) p aux2 (positions_down_to k))).reading
        = reading_line overflow ([6, 5, 4, 3, 2, 1].map fun n => 48 + if k ≤ n then e n else d n)
            p (get_unit nml rng_2 (decide (p ≠ 0)))
      ∧ ((∀ n, k ≤ n → e n = d n) →
          (run (run fresh (pass (fun n => (d n : Int)) p overflow nml rng_2 aux))
            (digit_samples (fun n => (e n : Int)) p aux2 (positions_down_to k))).reading
          = (run fresh (pass (fun n => (d n : Int)) p overflow nml rng_2 aux)).reading) := by
  have hfirst : (run fresh (pass (fun n => (d n : Int)) p overflow nml rng_2 aux)).reading
      = reading_line overflow ([6, 5, 4, 3, 2, 1].map fun n => 48 + d n) p
          (get_unit nml rng_2 (decide (p ≠ 0))) := by
    rw [reading_after_pass fresh fresh_reading_length (Or.inr ⟨rfl, rfl⟩) _ p overflow nml rng_2
      aux hp (fun n => by have := hd n; simp only [to_char]; omega)]
    simp [pass_line, to_char_digit, hd]
  have hlater : (run (run fresh (pass (fun n => (d n : Int)) p overflow nml rng_2 aux))
          (digit_samples (fun n => (e n : Int)) p aux2 (positions_down_to k))).reading
        = reading_line overflow ([6, 5, 4, 3, 2, 1].map fun n => 48 + if k ≤ n then e n else d n)
            p (get_unit nml rng_2 (decide (p ≠ 0))) := by
    rw [run_partial_pass _ _ p k overflow nml rng_2 aux aux2 hp hk1 hk6]
    have hc : ([6, 5, 4, 3, 2, 1].map fun n =>
          to_char (48 + if k ≤ n then (e n : Int) else (d n : Int)))
        = [6, 5, 4, 3, 2, 1].map fun n => 48 + if k ≤ n then e n else d n := by
      apply List.map_congr_left
      intro n _
      have := hd n
      have := he n
      unfold to_char
      split_ifs <;> omega
    simp only [reading, if_true, List.append_assoc, List.singleton_append, pass_line, hc]
    apply c_str_append_nul
    apply reading_line_ne_zero
    intro x hx
    simp only [List.mem_map] at hx
    obtain ⟨n, _, rfl⟩ := hx
    omega
  refine ⟨hfirst, ?_, hlater, ?_⟩
  · rw [run_partial_pass _ _ p k overflow nml rng_2 aux aux2 hp hk1 hk6]
    rfl
  · intro hsame
    have hmap : ([6, 5, 4, 3, 2, 1].map fun n => 48 + if k ≤ n then e n else d n)
        = [6, 5, 4, 3, 2, 1].map fun n => 48 + d n := by
      apply List.map_congr_left
      intro n _
      split_ifs with h
      · rw [hsame n h]
      · rfl
    rw [hlater, hfirst, hmap]

/-- C10, amended, at a pass over 1 .. 6 with the decimal strobe at position
3 and the unit ms, followed by the samples of the positions 6 and 5 with
the digit value 9: the reading becomes " 993.456ms" CR LF. -/
theorem partial_pass_overwrites_in_place_witness :
    (run (run fresh (pass (fun n => ((7 - n : Nat) : Int)) 3 false false false fun _ => idle))
        (digit_samples (fun n => (((fun _ => 9) n : Nat) : Int)) 3 (fun _ => idle)
          (positions_down_to 5))).reading
      = ascii " 993.456ms\r\n" :=
  (partial_pass_overwrites_in_place (fun n => 7 - n) (fun _ => 9) 3 5 false false false
    (fun _ => idle) (fun _ => idle) (fun n => by show 7 - n ≤ 9; omega) (fun _ => Nat.le_refl 9)
    (by decide) (by decide) (by decide)).2.2.1.trans (by decide)

/-- C11: the latest pass wins. For any two well-formed passes, the reading
of a fresh decoder after the first followed by the second equals the
reading of a fresh decoder after the second alone: the line of the second
pass, with nothing of the first. -/
theorem latest_pass_wins (q1 q2 : Pass) (h1 : q1.well_formed) (h2 : q2.well_formed) :
    (run fresh (q1.samples ++ q2.samples)).reading = (run fresh q2.samples).reading
      ∧ (run fresh (q1.samples ++ q2.samples)).reading
          = reading_line q2.overflow ([6, 5, 4, 3, 2, 1].map fun n => 48 + q2.digit n) q2.p
              (get_unit q2.nml q2.rng_2 (decide (q2.p ≠ 0))) := by
  have hd : ∀ n, to_char (48 + (fun n => (q2.digit n : Int)) n) ≠ 0 := by
    intro n
    have := h2.2 n
    simp only [to_char]
    omega
  have hr := ready_run_pass fresh ready_fresh q1 h1
  have hone : (run fresh q2.samples).reading
      = pass_line (fun n => (q2.digit n : Int)) q2.p q2.overflow q2.nml q2.rng_2 := by
    unfold Pass.samples
    exact reading_after_pass fresh fresh_reading_length (Or.inr ⟨rfl, rfl⟩) _ q2.p q2.overflow
      q2.nml q2.rng_2 q2.aux h2.1 hd
  have hboth : (run fresh (q1.samples ++ q2.samples)).reading
      = pass_line (fun n => (q2.digit n : Int)) q2.p q2.overflow q2.nml q2.rng_2 := by
    rw [run_append]
    unfold Pass.samples at hr ⊢
    exact reading_after_pass _ hr.1 hr.2 _ q2.p q2.overflow q2.nml q2.rng_2 q2.aux h2.1 hd
  refine ⟨hboth.trans hone.symm, ?_⟩
  rw [hboth]
  simp [pass_line, to_char_digit, h2.2]

/-- C11, at a counter-mode pass over the digit 9 with no line set followed
by a pass over 1 .. 6 with the decimal strobe at position 3, overflow and
the unit MHz. -/
theorem latest_pass_wins_witness :
    (run fresh ((Pass.mk (fun _ => 9) 0 false false false fun _ => idle).samples
        ++ (Pass.mk (fun n => 7 - n) 3 true false true fun _ => idle).samples)).reading
      = ascii ">123.456MHz\r\n" :=
  (latest_pass_wins ⟨fun _ => 9, 0, false, false, false, fun _ => idle⟩
    ⟨fun n => 7 - n, 3, true, false, true, fun _ => idle⟩
    ⟨by decide, fun _ => Nat.le_refl 9⟩
    ⟨by decide, fun n => by show 7 - n ≤ 9; omega⟩).2.trans (by decide)

/-- C12: glitch rejection. In a state `DigitN` a snapshot whose strobe
position is neither N nor N - 1 leaves the whole decoder unchanged,
whatever its other lines are. -/
theorem glitch_rejection (d : Bus_decoder) (inp : Input_state)
    (hs : d.state ∈ [Data_state.Digit6, Data_state.Digit5, Data_state.Digit4,
      Data_state.Digit3, Data_state.Digit2, Data_state.Digit1])
    (hn : inp.digit_strobe ≠ d.state.to_integral)
    (hp : inp.digit_strobe ≠ d.state.to_integral - 1) :
    transit d inp = d := by
  obtain ⟨⟨v⟩, buf, dp, c⟩ := d
  have hv : 1 ≤ v ∧ v ≤ 6 := by
    simp only [state, Data_state.Digit6, Data_state.Digit5, Data_state.Digit4,
      Data_state.Digit3, Data_state.Digit2, Data_state.Digit1, List.mem_cons,
      Data_state.mk.injEq, List.mem_singleton, List.not_mem_nil, or_false] at hs
    omega
  simp only [state, Data_state.to_integral] at hn hp
  rw [transit_mk_digit v hv.1 hv.2, if_neg hn, if_neg hp]

/-- C12, at a fresh decoder (state `Digit6`) and a snapshot of position 0
with the decimal strobe and the overflow line set. -/
theorem glitch_rejection_witness :
    transit fresh ⟨0, 4, true, true, false, false⟩ = fresh :=
  glitch_rejection fresh ⟨0, 4, true, true, false, false⟩ (by decide) (by decide) (by decide)

/-- C13: idempotence of debounce. In a state `DigitN` a snapshot of position
N applied twice gives the same decoder as applied once. -/
theorem debounce_idempotent (d : Bus_decoder) (s : Input_state)
    (hs : d.state ∈ [Data_state.Digit6, Data_state.Digit5, Data_state.Digit4,
      Data_state.Digit3, Data_state.Digit2, Data_state.Digit1])
    (hn : s.digit_strobe = d.state.to_integral) :
    transit (transit d s) s = transit d s := by
  obtain ⟨⟨v⟩, buf, dp, c⟩ := d
  have hv : 1 ≤ v ∧ v ≤ 6 := by
    simp only [state, Data_state.Digit6, Data_state.Digit5, Data_state.Digit4,
      Data_state.Digit3, Data_state.Digit2, Data_state.Digit1, List.mem_cons,
      Data_state.mk.injEq, List.mem_singleton, List.not_mem_nil, or_false] at hs
    omega
  simp only [state, Data_state.to_integral] at hn
  rw [transit_mk_digit v hv.1 hv.2, if_pos hn]
  rw [set_digit_mk]
  rw [transit_mk_digit v hv.1 hv.2, if_pos hn]
  have hdp : (if s.decimal_strobe = true then v else if s.decimal_strobe = true then v else dp)
      = if s.decimal_strobe = true then v else dp := by
    split_ifs <;> rfl
  rw [hdp, ← set_digit_mk, set_digit_idem _ _ _ hv.1 hv.2]

/-- C13, at a fresh decoder and a snapshot of position 6 with the digit 1
and the decimal strobe set. -/
theorem debounce_idempotent_witness :
    transit (transit fresh ⟨6, 1, true, false, false, false⟩)
        ⟨6, 1, true, false, false, false⟩
      = transit fresh ⟨6, 1, true, false, false, false⟩ :=
  debounce_idempotent fresh ⟨6, 1, true, false, false, false⟩ (by decide) (by decide)

/-- C14: evaluation at the failing input. A freshly constructed decoder, and
one reset by the assignment of a default decoder, is in state `Digit6`,
not `Init`, and a snapshot of position 5 moves it on to `Digit5`. -/
theorem fresh_state_is_digit6 :
    fresh.state = Data_state.Digit6
      ∧ fresh.state ≠ Data_state.Init
      ∧ (∀ d : Bus_decoder, (assign_default d).state = Data_state.Digit6)
      ∧ (transit fresh { idle with digit_strobe := 5 }).state = Data_state.Digit5 := by
  refine ⟨rfl, by decide, fun _ => rfl, by decide⟩

/-- C15: finalization is unconditional. In state `OverflowUnit` every
snapshot makes `transit` write the indicator into cell 0 and the unit text,
CR, LF, NUL from index 7 (no decimal point recorded) or 8 (one recorded)
on, set the completion flag and the state `Init`, and leave the cells in
between, the cells behind the NUL and the recorded decimal-point index
unchanged. -/
theorem finalization (d : Bus_decoder) (inp : Input_state)
    (hs : d.state = Data_state.OverflowUnit) (hlen : d.reading_.length = 15) :
    (transit d inp).reading_
        = (if inp.overflow then 62 else 32)
            :: ((d.reading_.take (if d.has_decimal_point then 8 else 7)).drop 1
              ++ unit_text (get_unit inp.nml inp.rng_2 d.has_decimal_point) ++ [13, 10, 0]
              ++ d.reading_.drop ((if d.has_decimal_point then 8 else 7)
                  + (unit_text (get_unit inp.nml inp.rng_2 d.has_decimal_point)).length + 3))
      ∧ (transit d inp).is_complete = true
      ∧ (transit d inp).state = Data_state.Init
      ∧ (transit d inp).decimal_point_digit_ = d.decimal_point_digit_ := by
  obtain ⟨⟨v⟩, buf, dp, c⟩ := d
  simp only [state, Data_state.OverflowUnit, Data_state.mk.injEq] at hs
  subst hs
  obtain ⟨c0, c1, c2, c3, c4, c5, c6, c7, c8, c9, c10, c11, c12, c13, c14, rfl⟩ :=
    list_length_15 buf hlen
  rw [transit_mk_overflow, set_overflow_mk, set_unit_mk]
  refine ⟨?_, rfl, rfl, rfl⟩
  by_cases h0 : dp = 0
  · subst h0
    simp [has_decimal_point, indicator, get_unit, unit_text_None]
  · cases hn : inp.nml <;> cases hr : inp.rng_2 <;>
      simp [has_decimal_point, indicator, h0, get_unit, Unit.of_integral, unit_text_ms,
        unit_text_us, unit_text_MHz, unit_text_kHz]

/-- C15, at a decoder that holds the digits 1 .. 6 with the decimal point at
position 3 and a snapshot with the overflow and `nml` lines set. -/
theorem finalization_witness :
    (transit ⟨Data_state.OverflowUnit, ascii "?123.456" ++ [1, 2, 3, 4, 5, 6, 7], 3, false⟩
        ⟨5, 9, true, true, true, false⟩).reading_
      = ascii ">123.456us\r\n" ++ [0, 6, 7] :=
  (finalization ⟨Data_state.OverflowUnit, ascii "?123.456" ++ [1, 2, 3, 4, 5, 6, 7], 3, false⟩
    ⟨5, 9, true, true, true, false⟩ rfl (by decide)).1.trans (by decide)

/-- C16: strobe priority. The decoded strobe position lies in 0 .. 6; it is
k (1 .. 6) exactly when the line `AS_k` is active and no line `AS_j` with
j < k is, and 0 exactly when no strobe line is active. -/
theorem strobe_priority (port1 port2 : Nat) :
    0 ≤ (decode_signals port1 port2).digit_strobe
      ∧ (decode_signals port1 port2).digit_strobe ≤ 6
      ∧ (∀ k : Nat, 1 ≤ k → k ≤ 6 →
          ((decode_signals port1 port2).digit_strobe = (k : Int)
            ↔ as_active port1 port2 k = true
              ∧ ∀ j : Nat, 1 ≤ j → j < k → as_active port1 port2 j = false))
      ∧ ((decode_signals port1 port2).digit_strobe = 0
            ↔ ∀ j : Nat, 1 ≤ j → j ≤ 6 → as_active port1 port2 j = false) := by
  have hchain := priority_chain (as_active port1 port2 1) (as_active port1 port2 2)
    (as_active port1 port2 3) (as_active port1 port2 4) (as_active port1 port2 5)
    (as_active port1 port2 6)
  rw [digit_strobe_eq]
  refine ⟨by split_ifs <;> decide, by split_ifs <;> decide, ?_, ?_⟩
  · intro k h1 h6
    have hk := hchain ⟨k, by omega⟩
    simp only [] at hk
    rw [hk]
    have hk0 : k ≠ 0 := by omega
    simp only [hk0, ne_eq, not_false_eq_true, true_implies, if_false]
    rw [← as_active_eq_getD port1 port2 k hk0]
    constructor
    · rintro ⟨ha, hj⟩
      refine ⟨ha, fun j hj1 hjk => ?_⟩
      have := hj ⟨j, by omega⟩ hjk (by simp; omega)
      rw [as_active_eq_getD port1 port2 j (by omega)]
      exact this
    · rintro ⟨ha, hj⟩
      refine ⟨ha, fun j hjk hj0 => ?_⟩
      have := hj j.val (by omega) hjk
      rw [as_active_eq_getD port1 port2 j.val hj0] at this
      exact this
  · have hk := hchain ⟨0, by omega⟩
    simp only [] at hk
    have h00 : (((0 : Nat) : Int)) = 0 := rfl
    rw [h00] at hk
    rw [hk]
    simp only [ne_eq, not_true_eq_false, false_implies, true_and, if_true]
    constructor
    · intro hj j hj1 hj6
      have := hj ⟨j, by omega⟩ (by simp; omega) (by simp; omega)
      rw [as_active_eq_getD port1 port2 j (by omega)]
      exact this
    · intro hj j hjk hj0
      have := hj j.val (by omega) (by omega)
      rw [as_active_eq_getD port1 port2 j.val hj0] at this
      exact this

/-- C16, at port values with `AS_2`, `AS_3`, `AS_4`, `AS_5` and `AS_6` active:
the position is 2. -/
theorem strobe_priority_witness : (decode_signals 0xC0 0x38).digit_strobe = 2 :=
  ((strobe_priority 0xC0 0x38).2.2.1 2 (by decide) (by decide)).2
    ⟨by decide, fun j h1 h2 => by interval_cases j; decide⟩

/-- C17: the decoded digit value is A + 2 B + 4 C + 8 D for the BCD lines
A (port 2, 0x40), B (port 1, 0x01), C (port 2, 0x02), D (port 2, 0x04) and
lies in 0 .. 15; the decimal strobe, overflow, `nml` and `rng_2` flags are
the port bits 0x80 (port 2), 0x20, 0x10 and 0x08 (port 1); port values
that differ only in the TX bit (port 1, 0x04) and the /MUP bit (port 2,
0x01) decode to the same snapshot. -/
theorem decoded_lines (port1 port2 : Nat) :
    (decode_signals port1 port2).out
        = ((((if u8_and port2 0x40 ≠ 0 then 1 else 0)
            + 2 * (if u8_and port1 0x01 ≠ 0 then 1 else 0)
            + 4 * (if u8_and port2 0x02 ≠ 0 then 1 else 0)
            + 8 * (if u8_and port2 0x04 ≠ 0 then 1 else 0) : Nat)) : Int)
      ∧ 0 ≤ (decode_signals port1 port2).out
      ∧ (decode_signals port1 port2).out ≤ 15
      ∧ ((decode_signals port1 port2).decimal_strobe = true ↔ u8_and port2 0x80 ≠ 0)
      ∧ ((decode_signals port1 port2).overflow = true ↔ u8_and port1 0x20 ≠ 0)
      ∧ ((decode_signals port1 port2).nml = true ↔ u8_and port1 0x10 ≠ 0)
      ∧ ((decode_signals port1 port2).rng_2 = true ↔ u8_and port1 0x08 ≠ 0)
      ∧ ∀ q1 q2 : Nat, port1 &&& 0xFB = q1 &&& 0xFB → port2 &&& 0xFE = q2 &&& 0xFE →
          decode_signals q1 q2 = decode_signals port1 port2 := by
  have hout : (decode_signals port1 port2).out
        = ((((if u8_and port2 0x40 ≠ 0 then 1 else 0)
            + 2 * (if u8_and port1 0x01 ≠ 0 then 1 else 0)
            + 4 * (if u8_and port2 0x02 ≠ 0 then 1 else 0)
            + 8 * (if u8_and port2 0x04 ≠ 0 then 1 else 0) : Nat)) : Int) := by
    have := bcd_sum (decide (u8_and port2 0x40 ≠ 0)) (decide (u8_and port1 0x01 ≠ 0))
      (decide (u8_and port2 0x02 ≠ 0)) (decide (u8_and port2 0x04 ≠ 0))
    simp only [decide_eq_true_eq] at this
    simp only [decode_signals, out_a_mask_, out_b_mask_, out_c_mask_, out_d_mask_]
    rw [this]
  refine ⟨hout, ?_, ?_, ?_, ?_, ?_, ?_, ?_⟩
  · rw [hout]; exact Int.natCast_nonneg _
  · rw [hout]; split_ifs <;> decide
  · simp [decode_signals, ds_mask_]
  · simp [decode_signals, ovfl_mask_]
  · simp [decode_signals, nml_mask_]
  · simp [decode_signals, rng_2_mask_]
  · intro q1 q2 h1 h2
    have e1 : ∀ m, 0xFB &&& m = m → u8_and q1 m = u8_and port1 m :=
      fun m hm => (u8_and_of_agree port1 q1 m 0xFB h1 hm).symm
    have e2 : ∀ m, 0xFE &&& m = m → u8_and q2 m = u8_and port2 m :=
      fun m hm => (u8_and_of_agree port2 q2 m 0xFE h2 hm).symm
    simp only [decode_signals, out_a_mask_, out_b_mask_, out_c_mask_, out_d_mask_, ds_mask_,
      ovfl_mask_, nml_mask_, rng_2_mask_, as_1_mask_, as_2_mask_, as_3_mask_, as_4_mask_,
      as_5_mask_, as_6_mask_]
    simp only [e1 0x01 (by decide), e1 0x02 (by decide), e1 0x08 (by decide),
      e1 0x10 (by decide), e1 0x20 (by decide), e1 0x40 (by decide), e1 0x80 (by decide),
      e2 0x02 (by decide), e2 0x04 (by decide), e2 0x08 (by decide), e2 0x10 (by decide),
      e2 0x20 (by decide), e2 0x40 (by decide), e2 0x80 (by decide)]

/-- C17, at two pairs of port values that differ in the TX and /MUP bits only. -/
theorem decoded_lines_witness : decode_signals 0x27 0xC9 = decode_signals 0x23 0xC8 :=
  (decoded_lines 0x23 0xC8).2.2.2.2.2.2.2 0x27 0xC9 (by decide) (by decide)

/-- C18, as stated, fails: for the port value 0 and a logic-0 bit the value
stored has the TX bit set, not cleared; for the port value 0xFF and a
logic-1 bit it has the TX bit cleared, not set. -/
theorem tx_bit_set_for_logic_0 :
    store_tx_bit 0 0 = 4 ∧ store_tx_bit 0 0 &&& tx_mask_ ≠ 0
      ∧ store_tx_bit 0xFF 1 = 0xFB ∧ store_tx_bit 0xFF 1 &&& tx_mask_ = 0 := by
  decide

/-- C18, amended: the value stored for a drained bit has the TX bit (0x04)
set when the bit is logic 0 and cleared when it is logic 1, and every
other bit as in the prior port value; the store after the last bit of a
character clears the TX bit, which is the level of a logic-1 bit, and
leaves every other bit as it was. -/
theorem tx_store_polarity (p bit : Nat) (hp : p < 256) :
    (bit = 0 → store_tx_bit p bit &&& tx_mask_ = tx_mask_)
      ∧ (bit ≠ 0 → store_tx_bit p bit &&& tx_mask_ = 0)
      ∧ store_tx_bit p bit &&& 0xFB = p &&& 0xFB
      ∧ store_tx_stop p &&& tx_mask_ = 0
      ∧ store_tx_stop p &&& 0xFB = p &&& 0xFB
      ∧ (bit ≠ 0 → store_tx_stop (store_tx_bit p bit) = store_tx_bit p bit) := by
  by_cases hb : bit = 0
  · subst hb
    have h := store_tx_bit_cases p hp false
    simp only [Bool.false_eq_true, if_false] at h
    exact ⟨fun _ => h.1, fun h0 => absurd rfl h0, h.2.1, h.2.2.1, h.2.2.2.1,
      fun h0 => absurd rfl h0⟩
  · have h := store_tx_bit_cases p hp true
    simp only [if_true] at h
    have he : store_tx_bit p bit = store_tx_bit p 1 := by
      simp [store_tx_bit, hb]
    rw [he]
    exact ⟨fun h0 => absurd h0 hb, fun _ => h.1, h.2.1, h.2.2.1, h.2.2.2.1, fun _ => h.2.2.2.2⟩

/-- C18, amended, at the port value 0xA3 and a logic-0 bit: the TX bit is set. -/
theorem tx_store_polarity_witness : store_tx_bit 0xA3 0 &&& tx_mask_ = tx_mask_ :=
  (tx_store_polarity 0xA3 0 (by decide)).1 rfl

/-- C19: printing a unit into a buffer of at least four characters returns
the length of the unit's text and leaves the text followed by a NUL at the
start of the buffer; the cells behind the NUL, and so those at and beyond
the given length, are not written. The texts are "ms", "us", "MHz", "kHz"
and the empty text. -/
theorem print_unit_text (unit : Unit) (mem : List Nat) (n : Nat) (h4 : 4 ≤ n)
    (hlen : n ≤ mem.length) :
    (print_unit mem 0 (n : Int) unit).2 = ((unit_text unit).length : Int)
      ∧ c_str (print_unit mem 0 (n : Int) unit).1 = unit_text unit
      ∧ (print_unit mem 0 (n : Int) unit).1
          = unit_text unit ++ [0] ++ mem.drop ((unit_text unit).length + 1)
      ∧ (print_unit mem 0 (n : Int) unit).1.length = mem.length
      ∧ (print_unit mem 0 (n : Int) unit).1.drop n = mem.drop n
      ∧ unit_text Unit.ms = ascii "ms" ∧ unit_text Unit.us = ascii "us"
      ∧ unit_text Unit.MHz = ascii "MHz" ∧ unit_text Unit.kHz = ascii "kHz"
      ∧ unit_text Unit.None = ascii "" := by
  obtain ⟨k, rfl⟩ : ∃ k, n = k + 4 := ⟨n - 4, by omega⟩
  match mem, hlen with
  | a :: b :: c :: d :: rest, _ =>
    rw [print_unit_cells]
    have hle := unit_text_length_le unit
    refine ⟨rfl, ?_, rfl, ?_, ?_, by decide, by decide, by decide, by decide, by decide⟩
    · rw [List.append_assoc]
      exact c_str_append_nul _ _ (unit_text_ne_zero unit)
    · cases unit <;> simp [unit_text_ms, unit_text_us, unit_text_MHz, unit_text_kHz,
        unit_text_None]
    · cases unit <;> simp [unit_text_ms, unit_text_us, unit_text_MHz, unit_text_kHz,
        unit_text_None]

/-- C19, at a buffer of four characters and the unit MHz. -/
theorem print_unit_text_witness :
    print_unit [1, 2, 3, 4] 0 4 Unit.MHz = (ascii "MHz" ++ [0], 3) :=
  Prod.ext
    ((print_unit_text Unit.MHz [1, 2, 3, 4] 4 (by decide) (by decide)).2.2.1.trans (by decide))
    ((print_unit_text Unit.MHz [1, 2, 3, 4] 4 (by decide) (by decide)).1.trans (by decide))

/-- C20: the `Init` transition. In state `Init` a snapshot of position 6
sets the state to `Digit6` and the recorded decimal-point index to 0 and
changes nothing else; every other snapshot leaves the decoder unchanged. -/
theorem init_transition (d : Bus_decoder) (inp : Input_state) (hs : d.state = Data_state.Init) :
    (inp.digit_strobe = 6 →
        transit d inp = { d with state_ := Data_state.Digit6, decimal_point_digit_ := 0 })
      ∧ (inp.digit_strobe ≠ 6 → transit d inp = d) := by
  obtain ⟨⟨v⟩, buf, dp, c⟩ := d
  simp only [state, Data_state.Init, Data_state.mk.injEq] at hs
  subst hs
  rw [transit_mk_init]
  constructor
  · intro h; rw [if_pos h]; rfl
  · intro h; rw [if_neg h]

/-- C20, at a completed decoder in `Init` and a snapshot of position 6 with
the decimal strobe set. -/
theorem init_transition_witness :
    transit ⟨Data_state.Init, ascii " 123.456ms\r\n" ++ [0, 0, 0], 3, true⟩
        ⟨6, 9, true, false, false, false⟩
      = ⟨Data_state.Digit6, ascii " 123.456ms\r\n" ++ [0, 0, 0], 0, true⟩ :=
  (init_transition ⟨Data_state.Init, ascii " 123.456ms\r\n" ++ [0, 0, 0], 3, true⟩
    ⟨6, 9, true, false, false, false⟩ rfl).1 rfl

/-- C21: advance without recording. In a state `DigitN` a snapshot of
position N - 1 changes only the state, to the next lower one (from
`Digit1` to `OverflowUnit`); the buffer, the recorded decimal-point index
and the completion flag are unchanged, whatever the other lines of the
snapshot are. -/
theorem advance_without_recording (d : Bus_decoder) (inp : Input_state)
    (hs : d.state ∈ [Data_state.Digit6, Data_state.Digit5, Data_state.Digit4,
      Data_state.Digit3, Data_state.Digit2, Data_state.Digit1])
    (hn : inp.digit_strobe = d.state.to_integral - 1) :
    transit d inp = { d with state_ := ⟨d.state.to_integral - 1⟩ }
      ∧ (transit d inp).reading_ = d.reading_
      ∧ (transit d inp).decimal_point_digit_ = d.decimal_point_digit_
      ∧ (transit d inp).is_complete = d.is_complete
      ∧ (d.state = Data_state.Digit6 → (transit d inp).state = Data_state.Digit5)
      ∧ (d.state = Data_state.Digit5 → (transit d inp).state = Data_state.Digit4)
      ∧ (d.state = Data_state.Digit4 → (transit d inp).state = Data_state.Digit3)
      ∧ (d.state = Data_state.Digit3 → (transit d inp).state = Data_state.Digit2)
      ∧ (d.state = Data_state.Digit2 → (transit d inp).state = Data_state.Digit1)
      ∧ (d.state = Data_state.Digit1 → (transit d inp).state = Data_state.OverflowUnit) := by
  have hv := digit_state_val d hs
  obtain ⟨⟨v⟩, buf, dp, c⟩ := d
  simp only [state, Data_state.to_integral] at hn hv ⊢
  have hne : inp.digit_strobe ≠ v := by omega
  rw [transit_mk_digit v hv.1 hv.2, if_neg hne, if_pos hn]
  refine ⟨rfl, rfl, rfl, rfl, ?_, ?_, ?_, ?_, ?_, ?_⟩ <;>
    · intro h
      simp only [Data_state.Digit6, Data_state.Digit5, Data_state.Digit4, Data_state.Digit3,
        Data_state.Digit2, Data_state.Digit1, Data_state.mk.injEq] at h
      subst h
      rfl

/-- C21, at a fresh decoder (state `Digit6`) and a snapshot of position 5
with the decimal strobe set. -/
theorem advance_without_recording_witness :
    (transit fresh ⟨5, 3, true, false, false, false⟩).state = Data_state.Digit5
      ∧ (transit fresh ⟨5, 3, true, false, false, false⟩).decimal_point_digit_ = 0 :=
  ⟨(advance_without_recording fresh ⟨5, 3, true, false, false, false⟩ (by decide)
      (by decide)).2.2.2.2.1 rfl,
   (advance_without_recording fresh ⟨5, 3, true, false, false, false⟩ (by decide)
      (by decide)).2.2.1⟩

/-- C22: recording a digit. In a state `DigitN` a snapshot of position N
leaves the state and the completion flag unchanged, sets the recorded
decimal-point index to N if its decimal strobe is set, writes the
character '0' + out at index 7 - N if no decimal point is recorded after
this update and at index 8 - N if one is, writes '.' at index 7 - N
exactly when the recorded index equals N, and changes no other cell. -/
theorem recording_a_digit (d : Bus_decoder) (inp : Input_state)
    (hs : d.state ∈ [Data_state.Digit6, Data_state.Digit5, Data_state.Digit4,
      Data_state.Digit3, Data_state.Digit2, Data_state.Digit1])
    (hn : inp.digit_strobe = d.state.to_integral) :
    (transit d inp).state = d.state
      ∧ (transit d inp).is_complete = d.is_complete
      ∧ (transit d inp).decimal_point_digit_
          = (if inp.decimal_strobe then inp.digit_strobe else d.decimal_point_digit_)
      ∧ (transit d inp).reading_
          = store_at
              (if (transit d inp).decimal_point_digit_ = inp.digit_strobe then
                store_at d.reading_ (7 - inp.digit_strobe) 46
               else d.reading_)
              (if (transit d inp).decimal_point_digit_ = 0 then 7 - inp.digit_strobe
               else 8 - inp.digit_strobe)
              (to_char (48 + inp.out))
      ∧ (d.reading_.length = 15 →
          (transit d inp).reading_.getD
              (if (transit d inp).decimal_point_digit_ = 0 then 7 - inp.digit_strobe
               else 8 - inp.digit_strobe).toNat 0 = to_char (48 + inp.out)
            ∧ ((transit d inp).decimal_point_digit_ = inp.digit_strobe →
                (transit d inp).reading_.getD (7 - inp.digit_strobe).toNat 0 = 46)
            ∧ ∀ i : Nat,
                (i : Int) ≠ (if (transit d inp).decimal_point_digit_ = 0 then 7 - inp.digit_strobe
                  else 8 - inp.digit_strobe) →
                ¬ ((transit d inp).decimal_point_digit_ = inp.digit_strobe
                    ∧ (i : Int) = 7 - inp.digit_strobe) →
                (transit d inp).reading_.getD i 0 = d.reading_.getD i 0) := by
  have hv := digit_state_val d hs
  have hcore : (transit d inp).state = d.state
      ∧ (transit d inp).is_complete = d.is_complete
      ∧ (transit d inp).decimal_point_digit_
          = (if inp.decimal_strobe then inp.digit_strobe else d.decimal_point_digit_)
      ∧ (transit d inp).reading_
          = store_at
              (if (transit d inp).decimal_point_digit_ = inp.digit_strobe then
                store_at d.reading_ (7 - inp.digit_strobe) 46
               else d.reading_)
              (if (transit d inp).decimal_point_digit_ = 0 then 7 - inp.digit_strobe
               else 8 - inp.digit_strobe)
              (to_char (48 + inp.out)) := by
    obtain ⟨⟨v⟩, buf, dp, c⟩ := d
    simp only [state, Data_state.to_integral] at hn hv ⊢
    rw [transit_mk_digit v hv.1 hv.2, if_pos hn, set_digit_mk]
    refine ⟨rfl, rfl, ?_, ?_⟩
    · simp only [hn]
    · simp only [hn]
      by_cases hd : inp.decimal_strobe = true
      · have hv0 : v ≠ 0 := by omega
        simp [hd, hv0]
      · simp only [hd, if_false]
        by_cases h0 : dp = 0
        · have hv0 : v ≠ 0 := by omega
          have h0' : ¬ (0 : Int) = v := by omega
          simp [h0, hv0, h0']
        · have e : (if v = dp then store_at buf (7 - v) 46 else buf)
              = (if dp = v then store_at buf (7 - v) 46 else buf) := by
            by_cases h : v = dp
            · simp [h]
            · have : ¬ dp = v := fun h' => h h'.symm
              simp [h, this]
          simp only [e, h0, ne_eq, not_false_eq_true, if_true, if_false]
          congr 1
          omega
  refine ⟨hcore.1, hcore.2.1, hcore.2.2.1, hcore.2.2.2, ?_⟩
  intro hlen
  have hds : 1 ≤ inp.digit_strobe ∧ inp.digit_strobe ≤ 6 := by
    rw [hn]; exact hv
  have hc := recorded_cells d.reading_ (transit d inp).decimal_point_digit_ inp.digit_strobe
    (to_char (48 + inp.out)) hds.1 hds.2 hlen
  rw [← hcore.2.2.2] at hc
  exact hc

/-- C22, at a fresh decoder and a snapshot of position 6 with the digit 1
and the decimal strobe set: '.' at index 1 and '1' at index 2. -/
theorem recording_a_digit_witness :
    (transit fresh ⟨6, 1, true, false, false, false⟩).reading_
      = [0, 46, 49, 0, 0, 0, 0, 0, 0, 0, 0, 0, 0, 0, 0] :=
  (recording_a_digit fresh ⟨6, 1, true, false, false, false⟩ (by decide)
    (by decide)).2.2.2.1.trans (by decide)

/-- C23, as stated, fails: a pass over the digits 1 .. 6 with the decimal
strobe at the positions 4 and 2 leaves the recorded index 2, but the
reading is " 12.3.56ms" CR LF, with two '.' and without the digit 4. -/
theorem two_decimal_strobes_lose_a_digit :
    (run fresh (pass_marked (digits_of 1 2 3 4 5 6) [4, 2] false false false
        fun _ => idle)).is_complete = true
      ∧ (run fresh (pass_marked (digits_of 1 2 3 4 5 6) [4, 2] false false false
          fun _ => idle)).decimal_point_digit_ = 2
      ∧ (run fresh (pass_marked (digits_of 1 2 3 4 5 6) [4, 2] false false false
          fun _ => idle)).reading = ascii " 12.3.56ms\r\n"
      ∧ (run fresh (pass_marked (digits_of 1 2 3 4 5 6) [4, 2] false false false
          fun _ => idle)).reading.count 46 = 2
      ∧ 52 ∉ (run fresh (pass_marked (digits_of 1 2 3 4 5 6) [4, 2] false false false
          fun _ => idle)).reading := by
  decide

/-- C23, amended: in a pass with the decimal strobe on the samples of two
positions n1 > n2 and well-formed otherwise, the recorded decimal-point
index at finalization is n2 and the completed reading has a '.'
immediately in front of the digit of position n2. The reading is the
indicator, the digits above n1, '.', the digits from n1 down to n2 + 2,
'.', the digits from n2 down, the unit text, CR, LF. -/
theorem last_decimal_strobe_wins (d : Nat → Nat) (n1 n2 : Nat) (overflow nml rng_2 : Bool)
    (aux : Nat → Input_state) (hd : ∀ n, d n ≤ 9) (h2 : 1 ≤ n2) (h12 : n2 < n1) (h1 : n1 ≤ 6) :
    (run fresh (pass_marked (fun n => (d n : Int)) [n1, n2] overflow nml rng_2
        aux)).is_complete = true
      ∧ (run fresh (pass_marked (fun n => (d n : Int)) [n1, n2] overflow nml rng_2
          aux)).decimal_point_digit_ = (n2 : Int)
      ∧ (run fresh (pass_marked (fun n => (d n : Int)) [n1, n2] overflow nml rng_2
          aux)).reading
        = two_point_line overflow ([6, 5, 4, 3, 2, 1].map fun n => 48 + d n) n1 n2
            (get_unit nml rng_2 true)
      ∧ ∃ front back : List Nat,
          (run fresh (pass_marked (fun n => (d n : Int)) [n1, n2] overflow nml rng_2
            aux)).reading = front ++ [46, 48 + d n2] ++ back := by
  have hc : ([6, 5, 4, 3, 2, 1].map fun n => to_char (48 + (d n : Int)))
      = [6, 5, 4, 3, 2, 1].map fun n => 48 + d n := by
    apply List.map_congr_left
    intro n _
    exact to_char_digit (d n) (hd n)
  have hread : (run fresh (pass_marked (fun n => (d n : Int)) [n1, n2] overflow nml rng_2
          aux)).reading
        = two_point_line overflow ([6, 5, 4, 3, 2, 1].map fun n => 48 + d n) n1 n2
            (get_unit nml rng_2 true) := by
    rw [run_pass_two_points _ n1 n2 overflow nml rng_2 aux h2 h12 h1, hc]
    simp only [reading, if_true, List.append_assoc, List.singleton_append]
    apply c_str_append_nul
    intro x hx
    have hne : ∀ y ∈ [6, 5, 4, 3, 2, 1].map (fun n => 48 + d n), y ≠ 0 := by
      intro y hy
      simp only [List.mem_map] at hy
      obtain ⟨n, _, rfl⟩ := hy
      omega
    simp only [two_point_line, List.mem_cons, List.mem_append, List.mem_singleton,
      List.append_assoc, List.cons_append, List.nil_append, List.not_mem_nil, or_false] at hx
    rcases hx with rfl | h | rfl | h | rfl | h | h | rfl | rfl
    · cases overflow <;> simp [indicator]
    · exact hne x (List.mem_of_mem_take h)
    · decide
    · exact hne x (List.mem_of_mem_drop (List.mem_of_mem_take h))
    · decide
    · exact hne x (List.mem_of_mem_drop h)
    · exact unit_text_ne_zero _ x h
    · decide
    · decide
  refine ⟨?_, ?_, hread, ?_⟩
  · rw [run_pass_two_points _ n1 n2 overflow nml rng_2 aux h2 h12 h1]; rfl
  · rw [run_pass_two_points _ n1 n2 overflow nml rng_2 aux h2 h12 h1]
  · rw [hread]
    refine ⟨indicator overflow
        :: (([6, 5, 4, 3, 2, 1].map fun n => 48 + d n).take (6 - n1) ++ [46]
          ++ (([6, 5, 4, 3, 2, 1].map fun n => 48 + d n).drop (6 - n1)).take (n1 - n2 - 1)),
      ([6, 5, 4, 3, 2, 1].map fun n => 48 + d n).drop (6 - n2 + 1)
        ++ unit_text (get_unit nml rng_2 true) ++ [13, 10], ?_⟩
    simp only [two_point_line]
    interval_cases n1 <;> interval_cases n2 <;> simp

/-- C23, amended, at the digits 1 .. 6 with the decimal strobe at the
positions 5 and 4 and the unit kHz. -/
theorem last_decimal_strobe_wins_witness :
    (run fresh (pass_marked (fun n => ((7 - n : Nat) : Int)) [5, 4] true true true
        fun _ => idle)).reading = ascii ">1..3456kHz\r\n" :=
  (last_decimal_strobe_wins (fun n => 7 - n) 5 4 true true true (fun _ => idle)
    (fun n => by show 7 - n ≤ 9; omega) (by decide) (by decide) (by decide)).2.2.1.trans
    (by decide)

/-- C24: buffer safety. Whatever snapshots a freshly constructed decoder is
fed, its state is one of the eight enumerators, the recorded decimal-point
index lies in 0 .. 6, the buffer keeps its 15 cells, every cell a further
`transit` call writes has an index in 0 .. 14, and a finalization leaves
the state `Init` and the unit text, CR, LF and NUL in full at index 7 or
8, inside the buffer. The indices are those of the stores of the call:
`transit` with every store recorded returns the decoder `transit` returns
and these indices, and a cell whose index is not among them keeps its
value. -/
theorem buffer_safety (inps : List Input_state) (inp : Input_state) :
    (run fresh inps).state ∈ [Data_state.OverflowUnit, Data_state.Digit1, Data_state.Digit2,
        Data_state.Digit3, Data_state.Digit4, Data_state.Digit5, Data_state.Digit6,
        Data_state.Init]
      ∧ 0 ≤ (run fresh inps).decimal_point_digit_
      ∧ (run fresh inps).decimal_point_digit_ ≤ 6
      ∧ (run fresh inps).reading_.length = 15
      ∧ (∀ i ∈ transit_writes (run fresh inps) inp, 0 ≤ i ∧ i ≤ 14)
      ∧ ((run fresh inps).state = Data_state.OverflowUnit →
          (transit (run fresh inps) inp).state = Data_state.Init
            ∧ ((transit (run fresh inps) inp).reading_.drop
                  (if (run fresh inps).has_decimal_point then 8 else 7)).take
                ((unit_text (get_unit inp.nml inp.rng_2
                  (run fresh inps).has_decimal_point)).length + 3)
              = unit_text (get_unit inp.nml inp.rng_2 (run fresh inps).has_decimal_point)
                  ++ [13, 10, 0]
            ∧ (if (run fresh inps).has_decimal_point then 8 else 7)
                + (unit_text (get_unit inp.nml inp.rng_2
                    (run fresh inps).has_decimal_point)).length + 3 ≤ 15)
      ∧ transit_logged (run fresh inps) inp
          = (transit (run fresh inps) inp, transit_writes (run fresh inps) inp)
      ∧ (∀ i ∈ (transit_logged (run fresh inps) inp).2, 0 ≤ i ∧ i ≤ 14)
      ∧ ∀ k : Nat, (k : Int) ∉ transit_writes (run fresh inps) inp →
          (transit (run fresh inps) inp).reading_.getD k 0
            = (run fresh inps).reading_.getD k 0 := by
  have hsafe := safe_run inps fresh safe_fresh
  refine ⟨hsafe.1, hsafe.2.1, hsafe.2.2.1, hsafe.2.2.2,
    transit_writes_in_bounds _ inp hsafe, ?_, transit_logged_eq _ inp, ?_,
    fun k hk => transit_frame _ inp k hk⟩
  · intro hs
    have := overflow_transit_text (run fresh inps) inp hs hsafe.2.2.2
    exact ⟨this.2.2, this.1, this.2.1⟩
  · rw [transit_logged_eq]
    exact transit_writes_in_bounds _ inp hsafe

/-- C24, at two decoders. A fresh decoder fed a sample of position 6 with
the decimal strobe stores to the cells 1 and 2. A decoder that has been
fed two snapshots of positions outside 0 .. 6, the digit samples of a pass
with the decimal strobe at position 3 and one snapshot of position 0 is in
state `OverflowUnit`; the next call stores to the cells 0, 8, 9, 10, 11,
11, 12, 13, all inside the buffer, and it leaves the state `Init` and
"MHz", CR, LF, NUL at index 8. -/
theorem buffer_safety_witness :
    transit_writes (run fresh []) ⟨6, 1, true, false, false, false⟩ = [1, 2]
      ∧ (∀ i ∈ transit_writes (run fresh []) ⟨6, 1, true, false, false, false⟩,
          0 ≤ i ∧ i ≤ 14)
      ∧ (run fresh safety_example).state = Data_state.OverflowUnit
      ∧ transit_writes (run fresh safety_example) ⟨100, 100, true, true, false, true⟩
          = [0, 8, 9, 10, 11, 11, 12, 13]
      ∧ (∀ i ∈ transit_writes (run fresh safety_example) ⟨100, 100, true, true, false, true⟩,
          0 ≤ i ∧ i ≤ 14)
      ∧ (transit (run fresh safety_example) ⟨100, 100, true, true, false, true⟩).state
          = Data_state.Init
      ∧ ((transit (run fresh safety_example) ⟨100, 100, true, true, false, true⟩).reading_.drop
            8).take 6 = ascii "MHz\r\n" ++ [0] :=
  ⟨by decide, (buffer_safety [] ⟨6, 1, true, false, false, false⟩).2.2.2.2.1,
    by decide, by decide,
    (buffer_safety safety_example ⟨100, 100, true, true, false, true⟩).2.2.2.2.1,
    ((buffer_safety safety_example ⟨100, 100, true, true, false, true⟩).2.2.2.2.2.1
      (by decide)).1,
    ((buffer_safety safety_example ⟨100, 100, true, true, false, true⟩).2.2.2.2.2.1
      (by decide)).2.1⟩

/-- C25: `transit` never clears the completion flag. A set flag stays set
over every `transit` call and every snapshot sequence; a clear flag is set
only by a call made in state `OverflowUnit`, which always sets it; the
assignment of a default decoder clears it. -/
theorem completion_flag_monotone :
    (∀ (d : Bus_decoder) (inp : Input_state),
        d.is_complete = true → (transit d inp).is_complete = true)
      ∧ (∀ (d : Bus_decoder) (inp : Input_state),
          d.is_complete = false → (transit d inp).is_complete = true →
            d.state = Data_state.OverflowUnit)
      ∧ (∀ (d : Bus_decoder) (inp : Input_state),
          d.state = Data_state.OverflowUnit → (transit d inp).is_complete = true)
      ∧ (∀ (d : Bus_decoder) (inps : List Input_state),
          d.is_complete = true → (run d inps).is_complete = true)
      ∧ ∀ d : Bus_decoder, (assign_default d).is_complete = false := by
  have h1 : ∀ (d : Bus_decoder) (inp : Input_state),
      d.is_complete = true → (transit d inp).is_complete = true := by
    intro d inp h
    simp only [is_complete] at h ⊢
    unfold transit
    split_ifs <;> simp_all [set_digit_complete]
  refine ⟨h1, ?_, ?_, ?_, fun _ => rfl⟩
  · intro d inp h ht
    by_contra hs
    have := transit_complete_of_not_overflow d inp hs
    simp only [is_complete] at h ht
    rw [this, h] at ht
    exact Bool.false_ne_true ht
  · intro d inp hs
    obtain ⟨⟨v⟩, buf, dp, c⟩ := d
    simp only [state, Data_state.OverflowUnit, Data_state.mk.injEq] at hs
    subst hs
    rw [transit_mk_overflow]
    rfl
  · intro d inps
    induction inps generalizing d with
    | nil => intro h; exact h
    | cons a l ih => intro h; rw [run_cons]; exact ih _ (h1 d a h)

/-- C25, at a completed decoder fed the first samples of a further pass. -/
theorem completion_flag_monotone_witness :
    (run (run fresh (pass (digits_of 1 2 3 4 5 6) 3 false false false fun _ => idle))
        (digit_samples (digits_of 9 8 7 6 5 4) 0 (fun _ => idle)
          (positions_down_to 3))).is_complete = true :=
  completion_flag_monotone.2.2.2.1 _ _ (by decide)

/-- C26: capture and transmit are mutually exclusive. One iteration of the
main loop, for the sampled port values: with the /MUP bit (port 2, 0x01)
clear, the decoded snapshot is passed to `transit` and nothing else
happens; with the bit set, no `transit` call is made, every character of
the current reading is sent (ten stores to the output port each), and the
decoder is reset after the last store. -/
theorem capture_and_transmit_exclusive (m : Machine) (port1 port2 : Nat) :
    (u8_and port2 nmup_mask_ = 0 →
        loop_iteration m port1 port2
          = some ({ m with decoder := transit m.decoder (decode_signals port1 port2) },
              [Event.transit (decode_signals port1 port2)]))
      ∧ (u8_and port2 nmup_mask_ ≠ 0 →
          ∃ (s : Serial_transmitter) (p : Nat) (ev : List Event),
            send_reading m.decoder.reading m.serial m.p1out = some (s, p, ev)
              ∧ loop_iteration m port1 port2
                = some (⟨s, fresh, p⟩,
                    [Event.disable_nmup_interrupt, Event.timer_start_up] ++ ev
                      ++ [Event.timer_stop, Event.reset_decoder, Event.enable_nmup_interrupt,
                          Event.go_to_sleep])
              ∧ (∀ e ∈ ev, e = Event.go_to_sleep ∨ e.is_store = true)
              ∧ (ev.filter Event.is_store).length = 10 * m.decoder.reading.length
              ∧ ∀ e ∈ [Event.disable_nmup_interrupt, Event.timer_start_up] ++ ev
                      ++ [Event.timer_stop, Event.reset_decoder, Event.enable_nmup_interrupt,
                          Event.go_to_sleep], e.is_transit = false) := by
  constructor
  · intro h
    simp [loop_iteration, h]
  · intro h
    obtain ⟨r, hr, he, hc⟩ := send_reading_total m.decoder.reading m.serial m.p1out
    refine ⟨r.1, r.2.1, r.2.2, hr, ?_, he, hc, ?_⟩
    · simp [loop_iteration, h, hr, fresh]
    · intro e hm
      simp only [List.mem_append, List.mem_cons, List.mem_singleton, List.not_mem_nil,
        or_false] at hm
      rcases hm with ((rfl | rfl) | hm) | rfl | rfl | rfl | rfl
      · rfl
      · rfl
      · exact tx_event_not_transit e (he e hm)
      · rfl
      · rfl
      · rfl
      · rfl

/-- C26, at a machine with a fresh decoder and port values with the /MUP
bit clear and `AS_6` active. -/
theorem capture_and_transmit_exclusive_witness :
    loop_iteration ⟨{}, fresh, 0⟩ 0x00 0x08
      = some (⟨{}, transit fresh (decode_signals 0x00 0x08), 0⟩,
          [Event.transit (decode_signals 0x00 0x08)]) :=
  (capture_and_transmit_exclusive ⟨{}, fresh, 0⟩ 0x00 0x08).1 (by decide)

/-- C27: evaluation at the failing inputs. With a buffer of 3 characters
and the strings "abcd" and "x" the variadic `print` returns -1 although it
stored the 2 characters "ab"; with a buffer of 4 characters and the
strings "ab" and "cdef" it returns 4 although it stored the 3 characters
"abc". When both strings fit ("ab", "cd", 5 characters) it returns their
joint length 4. -/
theorem variadic_print_return_value :
    print_string_string [9, 9, 9] 0 3 (ascii "abcd" ++ [0]) (ascii "x" ++ [0])
        = (ascii "ab" ++ [0], -1)
      ∧ non_nul_count (print_string_string [9, 9, 9] 0 3 (ascii "abcd" ++ [0])
          (ascii "x" ++ [0])).1 = 2
      ∧ print_string_string [9, 9, 9, 9] 0 4 (ascii "ab" ++ [0]) (ascii "cdef" ++ [0])
        = (ascii "abc" ++ [0], 4)
      ∧ non_nul_count (print_string_string [9, 9, 9, 9] 0 4 (ascii "ab" ++ [0])
          (ascii "cdef" ++ [0])).1 = 3
      ∧ print_string_string [9, 9, 9, 9, 9] 0 5 (ascii "ab" ++ [0]) (ascii "cd" ++ [0])
        = (ascii "abcd" ++ [0], 4) := by
  decide

end dou
